import Mathlib

/-!
Verification of the toktoken protocol-translating proxy.

Shallow embedding conventions:
* JS strings are modelled as `Str := List Char` (JS operates on UTF-16 code
  units; for the ASCII data all claims reason about, the two coincide).
* JS `undefined` / absent fields are `Option.none`; JS truthiness of strings
  (`""` is falsy) and numbers (`0` is falsy) is made explicit by the helpers
  `strTruthy` and `natTruthy`.
* `JSON.parse` is an external library call; it is modelled as an explicit
  function parameter `jp : Str → Option Js` wherever the source calls it.
* JS numbers are modelled as `Nat` where the source only ever holds
  non-negative integers.
-/

/-- JS strings, modelled as lists of characters. -/
abbrev Str := List Char

/-- Shorthand for turning a Lean string literal into a `Str`. -/
def str (s : String) : Str := s.data

/-- A JSON value (numbers restricted to integers; no claim depends on
non-integral numbers). -/
inductive Js where
  | null : Js
  | bool (b : Bool) : Js
  | num (n : Int) : Js
  | jstr (s : Str) : Js
  | arr (xs : List Js) : Js
  | obj (fields : List (Str × Js)) : Js

/-- JS string truthiness: `undefined` and `""` are falsy. -/
def strTruthy : Option Str → Bool
  | some (_ :: _) => true
  | _ => false

/-- JS number truthiness: `0` is falsy. -/
def natTruthy (n : Nat) : Bool := n ≠ 0

/-- Does `l` start with the segment `p`? (JS `String.prototype.startsWith`.) -/
def startsWithSeg : Str → Str → Bool
  | [], _ => true
  | _ :: _, [] => false
  | p :: ps, c :: cs => p = c && startsWithSeg ps cs

/-- Does `l` contain the segment `p`? (JS `String.prototype.includes`.) -/
def containsSeg (p : Str) : Str → Bool
  | [] => p.isEmpty
  | c :: cs => startsWithSeg p (c :: cs) || containsSeg p cs

/-- Index of the first occurrence of the segment `p` in `l`
(JS `String.prototype.indexOf`). -/
def fidx (p : Str) : Str → Option Nat
  | [] => if p.isEmpty then some 0 else none
  | c :: cs => if startsWithSeg p (c :: cs) then some 0 else (fidx p cs).map (· + 1)

theorem startsWithSeg_iff (p l : Str) :
    startsWithSeg p l = true ↔ ∃ t, l = p ++ t := by
  induction p generalizing l with
  | nil => simp [startsWithSeg]
  | cons a as ih =>
    cases l with
    | nil => simp [startsWithSeg]
    | cons c cs =>
      simp only [startsWithSeg, Bool.and_eq_true, decide_eq_true_eq, ih, List.cons_append,
        List.cons.injEq]
      constructor
      · rintro ⟨rfl, t, rfl⟩; exact ⟨t, rfl, rfl⟩
      · rintro ⟨t, rfl, rfl⟩; exact ⟨rfl, t, rfl⟩

theorem containsSeg_iff (p l : Str) :
    containsSeg p l = true ↔ ∃ s t, l = s ++ p ++ t := by
  induction l with
  | nil =>
    simp only [containsSeg, List.isEmpty_iff]
    constructor
    · rintro rfl; exact ⟨[], [], rfl⟩
    · rintro ⟨s, t, h⟩
      rcases List.append_eq_nil.mp (List.append_eq_nil.mp h.symm).1 with ⟨-, h2⟩
      exact h2
  | cons c cs ih =>
    simp only [containsSeg, Bool.or_eq_true, startsWithSeg_iff, ih]
    constructor
    · rintro (⟨t, h⟩ | ⟨s, t, h⟩)
      · exact ⟨[], t, by simpa using h⟩
      · exact ⟨c :: s, t, by simp [h]⟩
    · rintro ⟨s, t, h⟩
      cases s with
      | nil => exact Or.inl ⟨t, by simpa using h⟩
      | cons a as =>
        right
        simp only [List.cons_append, List.cons.injEq] at h
        exact ⟨as, t, h.2⟩

theorem containsSeg_append_right (p x y : Str) (h : containsSeg p y = true) :
    containsSeg p (x ++ y) = true := by
  rcases (containsSeg_iff p y).mp h with ⟨s, t, rfl⟩
  exact (containsSeg_iff p _).mpr ⟨x ++ s, t, by simp⟩

theorem containsSeg_append_left (p x y : Str) (h : containsSeg p x = true) :
    containsSeg p (x ++ y) = true := by
  rcases (containsSeg_iff p x).mp h with ⟨s, t, rfl⟩
  exact (containsSeg_iff p _).mpr ⟨s, t ++ y, by simp⟩

/-- Key boundary lemma: if `p` does not occur in `x ++ y` but occurs in
`x ++ y ++ c`, and `y` is at least as long as `p`, then the occurrence lies
within `y ++ c`. -/
theorem containsSeg_boundary (p x y c : Str) (hlen : p.length ≤ y.length)
    (h1 : containsSeg p (x ++ y) = false) (h2 : containsSeg p (x ++ y ++ c) = true) :
    containsSeg p (y ++ c) = true := by
  rcases (containsSeg_iff p _).mp h2 with ⟨s, t, heq⟩
  by_cases hsx : s.length + p.length ≤ x.length + y.length
  · exfalso
    have htake : x ++ y =
        s ++ p ++ t.take (x.length + y.length - s.length - p.length) := by
      have h0 : x ++ y = (x ++ y ++ c).take (x.length + y.length) := by
        rw [List.append_assoc, List.take_append_eq_append_take]
        simp
      rw [h0, heq, List.append_assoc, List.take_append_eq_append_take,
        List.take_of_length_le (by omega : s.length ≤ x.length + y.length),
        List.take_append_eq_append_take,
        List.take_of_length_le (by omega : p.length ≤ x.length + y.length - s.length),
        ← List.append_assoc]
    have : containsSeg p (x ++ y) = true :=
      (containsSeg_iff p _).mpr ⟨s, _, htake⟩
    rw [h1] at this
    exact Bool.noConfusion this
  · have hx : x.length ≤ s.length := by
      have hp : p.length ≤ y.length := hlen
      omega
    have hdrop : y ++ c = s.drop x.length ++ p ++ t := by
      have h0 : y ++ c = (x ++ y ++ c).drop x.length := by
        rw [List.append_assoc, List.drop_append_eq_append_drop]
        simp
      rw [h0, heq, List.append_assoc, List.drop_append_eq_append_drop,
        Nat.sub_eq_zero_of_le hx, List.drop_zero, ← List.append_assoc]
    exact (containsSeg_iff p _).mpr ⟨s.drop x.length, t, hdrop⟩

theorem fidx_some (p l : Str) (i : Nat) (h : fidx p l = some i) :
    startsWithSeg p (l.drop i) = true ∧ i + p.length ≤ l.length := by
  induction l generalizing i with
  | nil =>
    simp only [fidx] at h
    split at h
    · cases h
      rename_i hp
      simp_all [List.isEmpty_iff, startsWithSeg]
    · cases h
  | cons c cs ih =>
    simp only [fidx] at h
    split at h
    · cases h
      rename_i hs
      refine ⟨hs, ?_⟩
      rcases (startsWithSeg_iff p _).mp hs with ⟨t, ht⟩
      simp [ht]
    · rcases Option.map_eq_some'.mp h with ⟨j, hj, rfl⟩
      rcases ih j hj with ⟨h1, h2⟩
      simp only [List.drop_succ_cons, List.length_cons]
      exact ⟨h1, by omega⟩

theorem fidx_none_iff (p l : Str) : fidx p l = none ↔ containsSeg p l = false := by
  induction l with
  | nil =>
    simp only [fidx, containsSeg]
    by_cases hp : p.isEmpty <;> simp [hp]
  | cons c cs ih =>
    simp only [fidx, containsSeg, Bool.or_eq_false_iff]
    constructor
    · intro h
      split at h
      · cases h
      · rename_i hs
        exact ⟨Bool.not_eq_true _ ▸ (by simpa using hs), ih.mp (by simpa using h)⟩
    · rintro ⟨h1, h2⟩
      rw [if_neg (by simp [h1]), ih.mpr h2]
      rfl

-- ===========================================================================
-- Mistral native tool-call parser (src/types/index.ts, extractBalancedJson
-- and parseMistralToolCalls)
-- ===========================================================================

/-- The literal marker Mistral models emit before an inline tool call. -/
def toolCallsMarker : Str := str ("[TOOL_CALLS]")

/-- Scanner state of `extractBalancedJson`'s loop: brace depth, whether we are
inside a string literal, whether the previous character was an escaping
backslash. -/
structure EbjState where
  depth : Nat
  inString : Bool
  escape : Bool
deriving DecidableEq, Repr

/-- One character step of the balanced-JSON scanner, a direct transcription of
the loop body of `extractBalancedJson`.  `none` signals the closing `}` that
brings the depth to zero (the JS `return`). -/
def ebjStep (st : EbjState) (c : Char) : Option EbjState :=
  if st.escape then some { st with escape := false }
  else if c = '\\' && st.inString then some { st with escape := true }
  else if c = '"' && !st.escape then some { st with inString := !st.inString }
  else if !st.inString then
    if c = '{' then some { st with depth := st.depth + 1 }
    else if c = '}' then
      if st.depth - 1 = 0 then none
      else some { st with depth := st.depth - 1 }
    else some st
  else some st

/-- Length of the balanced prefix found by the scanner starting in state `st`,
`k` characters already consumed.  Mirrors the `for` loop of
`extractBalancedJson`; `none` means the scan ran off the end (unbalanced). -/
def ebjLoop : Str → EbjState → Nat → Option Nat
  | [], _, _ => none
  | c :: cs, st, k =>
    match ebjStep st c with
    | none => some (k + 1)
    | some st' => ebjLoop cs st' (k + 1)

/-- Extracts a balanced JSON object starting at the given position
(src/types/index.ts `extractBalancedJson`).  Returns the extracted slice, or
`none` when the character at `startIndex` is not `{` or braces are
unbalanced. -/
def extractBalancedJson (text : Str) (startIndex : Nat) : Option Str :=
  let rest := text.drop startIndex
  if rest.head? ≠ some '{' then none
  else
    match ebjLoop rest ⟨0, false, false⟩ 0 with
    | some len => some (rest.take len)
    | none => none

/-- A parsed Mistral tool call (src/types/index.ts `ParsedMistralToolCall`).
`arguments` is the value produced by `JSON.parse`. -/
structure ParsedMistralToolCall where
  name : Str
  arguments : Js

/-- JS regex `\w`: `[A-Za-z0-9_]`. -/
def isWordChar (c : Char) : Bool :=
  ('a' ≤ c && c ≤ 'z') || ('A' ≤ c && c ≤ 'Z') || ('0' ≤ c && c ≤ '9') || c = '_'

/-- JS `text.indexOf(p, from)` (for nonempty `p`). -/
def idxOfFrom (p text : Str) (start : Nat) : Option Nat :=
  (fidx p (text.drop start)).map (· + start)

/-- The `while (true)` scan of `parseMistralToolCalls`, made total with a fuel
argument; `parseMistralToolCalls` supplies `text.length + 1`, which
`pmtcScan_fuel` below proves is always enough (each iteration strictly
advances `searchStart`, which stays `≤ text.length`). -/
def pmtcScan (jp : Str → Option Js) (text : Str) : Nat → Nat → List ParsedMistralToolCall
  | 0, _ => []
  | fuel + 1, searchStart =>
    match idxOfFrom toolCallsMarker text searchStart with
    | none => []
    | some markerIndex =>
      let afterMarker := markerIndex + toolCallsMarker.length
      let toolName := (text.drop afterMarker).takeWhile isWordChar
      if toolName.isEmpty then pmtcScan jp text fuel afterMarker
      else
        let jsonStart := afterMarker + toolName.length
        match extractBalancedJson text jsonStart with
        | none => pmtcScan jp text fuel jsonStart
        | some jsonStr =>
          match jp jsonStr with
          | some args =>
            ⟨toolName, args⟩ :: pmtcScan jp text fuel (jsonStart + jsonStr.length)
          | none => pmtcScan jp text fuel (jsonStart + jsonStr.length)

/-- Parses Mistral's native `[TOOL_CALLS]` format from text content
(src/types/index.ts `parseMistralToolCalls`), with `JSON.parse` passed in as
`jp`.  Returns `none` when no `[TOOL_CALLS]` marker occurs or no call
parses. -/
def parseMistralToolCalls (jp : Str → Option Js) (text : Str) :
    Option (List ParsedMistralToolCall) :=
  if !containsSeg toolCallsMarker text then none
  else
    let toolCalls := pmtcScan jp text (text.length + 1) 0
    if toolCalls.length > 0 then some toolCalls else none

-- ===========================================================================
-- Model detection and Mistral tool ids (src/types/index.ts)
-- ===========================================================================

/-- Checks if a model name indicates a Mistral model
(src/types/index.ts `isMistralModel`). -/
def isMistralModel (model : Str) : Bool :=
  let lowerModel := model.map Char.toLower
  containsSeg (str ("mistral")) lowerModel ||
    containsSeg (str ("devstral")) lowerModel ||
    containsSeg (str ("codestral")) lowerModel

/-- The 62-character id alphabet used by the tool-id generators. -/
def idChars : Str :=
  str ("abcdefghijklmnopqrstuvwxyzABCDEFGHIJKLMNOPQRSTUVWXYZ0123456789")

/-- Generates a Mistral-compatible tool call id from a block index
(src/types/index.ts `generateMistralToolId`): base-36 of the index padded to
4 chars, a 5-char deterministic suffix, truncated to 9. -/
def generateMistralToolId (index : Nat) : Str :=
  let base36 := Nat.toDigits 36 index
  let base := List.replicate (4 - base36.length) '0' ++ base36
  let suffix := (List.range 5).map (fun i => idChars.getD ((index * 7 + i * 13) % idChars.length) '?')
  (base ++ suffix).take 9

-- ===========================================================================
-- OpenAI stream chunks (the `OpenAIStreamChunk` interface).  The SSE line
-- layer of `convertOpenAIStreamToAnthropic` splits raw chunks into lines,
-- keeps only `data: ` lines, drops `[DONE]` and lines that fail JSON.parse.
-- A *legal* upstream stream is therefore one data-line ⟷ one parsed chunk;
-- the machines below are embedded at that parsed-chunk granularity.
-- `function?.name` / `function?.arguments` are flattened into two optional
-- fields (absent `function` and absent member are indistinguishable in the
-- source's uses).
-- ===========================================================================

/-- A tool-call delta inside an OpenAI stream chunk. -/
structure ToolCallDelta where
  index : Nat
  id : Option Str := none
  fname : Option Str := none
  fargs : Option Str := none
deriving DecidableEq, Repr

/-- The delta of a streamed choice. -/
structure ChoiceDelta where
  content : Option Str := none
  tool_calls : Option (List ToolCallDelta) := none
deriving DecidableEq, Repr

/-- A streamed choice. -/
structure StreamChoice where
  delta : ChoiceDelta := {}
  finish_reason : Option Str := none
deriving DecidableEq, Repr

/-- Usage block of a stream chunk. -/
structure StreamUsage where
  prompt_tokens : Nat := 0
  completion_tokens : Nat := 0
deriving DecidableEq, Repr

/-- An OpenAI stream chunk (one parsed `data:` line). -/
structure StreamChunk where
  choices : List StreamChoice := []
  usage : Option StreamUsage := none
deriving DecidableEq, Repr

/-- Anthropic SSE events emitted by the stream converters.  Each constructor
stands for one `yield` of an `event: <type>\ndata: <json>\n\n` frame; the
fields are the data of that frame the claims observe. -/
inductive AEvent where
  | message_start (input_tokens : Nat)
  | cb_start_text (index : Nat)
  | cb_start_tool (index : Nat) (id : Str) (name : Str) (input : Js)
  | cb_delta_text (index : Nat) (text : Str)
  | cb_delta_json (index : Nat) (partialJson : Str)
  | cb_stop (index : Nat)
  | message_delta (stop_reason : Option Str) (input_tokens : Option Nat) (output_tokens : Nat)
  | message_stop

/-- Event kinds, for counting. -/
inductive EvKind where
  | msgStart | cbStartText | cbStartTool | cbDeltaText | cbDeltaJson | cbStop
  | msgDelta | msgStop
deriving DecidableEq, Repr

/-- The kind of an event. -/
def AEvent.kind : AEvent → EvKind
  | .message_start _ => .msgStart
  | .cb_start_text _ => .cbStartText
  | .cb_start_tool _ _ _ _ => .cbStartTool
  | .cb_delta_text _ _ => .cbDeltaText
  | .cb_delta_json _ _ => .cbDeltaJson
  | .cb_stop _ => .cbStop
  | .message_delta _ _ _ => .msgDelta
  | .message_stop => .msgStop

/-- The content-block index an event refers to, if any. -/
def AEvent.idx : AEvent → Option Nat
  | .cb_start_text i => some i
  | .cb_start_tool i _ _ _ => some i
  | .cb_delta_text i _ => some i
  | .cb_delta_json i _ => some i
  | .cb_stop i => some i
  | _ => none

/-- Number of events of kind `k`. -/
def countKind (k : EvKind) (evs : List AEvent) : Nat :=
  (evs.filter (fun e => e.kind = k)).length

/-- Number of `content_block_start` events at index `i`. -/
def countStartAt (i : Nat) (evs : List AEvent) : Nat :=
  (evs.filter (fun e =>
    (e.kind = EvKind.cbStartText || e.kind = EvKind.cbStartTool) && e.idx = some i)).length

/-- Number of `content_block_stop` events at index `i`. -/
def countStopAt (i : Nat) (evs : List AEvent) : Nat :=
  (evs.filter (fun e => e.kind = EvKind.cbStop && e.idx = some i)).length

/-- Concatenation of all `text_delta` payloads, in order. -/
def concatText : List AEvent → Str
  | [] => []
  | .cb_delta_text _ t :: evs => t ++ concatText evs
  | _ :: evs => concatText evs

/-- The `choices[0].delta.content` of a chunk, defaulted to the empty
string. -/
def chunkContent (ch : StreamChunk) : Str :=
  match ch.choices.head? with
  | some choice => choice.delta.content.getD []
  | none => []

/-- Concatenation of all `choices[0].delta.content` strings of a chunk list,
in order (absent content contributes nothing). -/
def concatContent : List StreamChunk → Str
  | [] => []
  | ch :: chs => chunkContent ch ++ concatContent chs

-- ===========================================================================
-- Stream converter, Mistral-aware variant
-- (src/types/index.ts, convertOpenAIStreamToAnthropic, lines 597-860)
-- ===========================================================================

namespace TypesIndex

/-- Accumulated tool-call slot (the `toolCalls` Map entries). -/
structure ToolAcc where
  id : Str
  name : Str
  arguments : Str
deriving DecidableEq, Repr

/-- Mutable locals of the generator. -/
structure TIState where
  inputTokens : Nat
  outputTokens : Nat
  contentIndex : Nat
  isFirstContent : Bool
  toolCalls : List (Nat × ToolAcc)
  textBuffer : Str
  mistralDetected : Bool

/-- `toolCalls.get(i)`. -/
def tmLookup (m : List (Nat × ToolAcc)) (i : Nat) : Option ToolAcc :=
  (m.find? (fun e => e.1 = i)).map (·.2)

/-- `toolCalls.set(i, v)` for a fresh key. -/
def tmInsert (m : List (Nat × ToolAcc)) (i : Nat) (v : ToolAcc) : List (Nat × ToolAcc) :=
  (i, v) :: m

/-- In-place update of `existing.arguments += s`. -/
def tmAppendArgs (m : List (Nat × ToolAcc)) (i : Nat) (s : Str) : List (Nat × ToolAcc) :=
  m.map (fun e => if e.1 = i then (e.1, { e.2 with arguments := e.2.arguments ++ s }) else e)

/-- JS `a || b` on an optional string and a default. -/
def jsOr (a : Option Str) (b : Str) : Str :=
  if strTruthy a then a.getD [] else b

/-- Usage tracking at the top of the loop body:
`inputTokens = usage.prompt_tokens || inputTokens` and
`if (usage.completion_tokens) outputTokens = usage.completion_tokens`. -/
def trackUsage (s : TIState) (usage : Option StreamUsage) : TIState :=
  match usage with
  | none => s
  | some u =>
    { s with
      inputTokens := if natTruthy u.prompt_tokens then u.prompt_tokens else s.inputTokens
      outputTokens := if natTruthy u.completion_tokens then u.completion_tokens else s.outputTokens }

/-- The `if (delta.content)` branch.  The returned `Bool` is true when the
source executes `continue` (Mistral marker detected), skipping the
tool-call and finish handling of the same line. -/
def processContent (cm : Bool) (s : TIState) (content : Option Str) :
    TIState × List AEvent × Bool :=
  if !strTruthy content then (s, [], false)
  else
    let c := content.getD []
    if cm then
      let buf := s.textBuffer ++ c
      if containsSeg toolCallsMarker buf then
        ({ s with textBuffer := buf, mistralDetected := true,
                  outputTokens := s.outputTokens + 1 }, [], true)
      else if !s.mistralDetected && decide (buf.length > 20) then
        let safeText := buf.take (buf.length - 20)
        let buf' := buf.drop (buf.length - 20)
        let es :=
          if !safeText.isEmpty then
            (if s.isFirstContent then [AEvent.cb_start_text s.contentIndex] else []) ++
              [AEvent.cb_delta_text s.contentIndex safeText]
          else []
        ({ s with textBuffer := buf',
                  isFirstContent := s.isFirstContent && safeText.isEmpty,
                  outputTokens := s.outputTokens + 1 }, es, false)
      else
        ({ s with textBuffer := buf, outputTokens := s.outputTokens + 1 }, [], false)
    else
      let es :=
        (if s.isFirstContent then [AEvent.cb_start_text s.contentIndex] else []) ++
          [AEvent.cb_delta_text s.contentIndex c]
      ({ s with isFirstContent := false, outputTokens := s.outputTokens + 1 }, es, false)

/-- One iteration of the `for (const tc of delta.tool_calls)` loop. -/
def processToolCall (s : TIState) (tc : ToolCallDelta) : TIState × List AEvent :=
  match tmLookup s.toolCalls tc.index with
  | none =>
    let m := tmInsert s.toolCalls tc.index
      ⟨tc.id.getD [], tc.fname.getD [], tc.fargs.getD []⟩
    let (s₁, esClose) :=
      if !s.isFirstContent then
        ({ s with toolCalls := m, contentIndex := s.contentIndex + 1 },
          [AEvent.cb_stop s.contentIndex])
      else ({ s with toolCalls := m }, [])
    let s₂ := { s₁ with isFirstContent := false }
    (s₂, esClose ++
      [AEvent.cb_start_tool (s₂.contentIndex + tc.index)
        (jsOr tc.id (str ("tool_") ++ (Nat.repr tc.index).data))
        (tc.fname.getD []) (Js.obj [])])
  | some _ =>
    if strTruthy tc.fargs then
      let a := tc.fargs.getD []
      ({ s with toolCalls := tmAppendArgs s.toolCalls tc.index a },
        [AEvent.cb_delta_json (s.contentIndex + tc.index) a])
    else (s, [])

/-- The `if (delta.tool_calls)` branch. -/
def processToolCalls (s : TIState) (tcs : Option (List ToolCallDelta)) :
    TIState × List AEvent :=
  match tcs with
  | none => (s, [])
  | some l =>
    l.foldl (fun acc tc =>
      let (s', es) := processToolCall acc.1 tc
      (s', acc.2 ++ es)) (s, [])

/-- The `if (choice.finish_reason)` branch. -/
def processFinish (cm : Bool) (jp : Str → Option Js) (s : TIState)
    (finish : Option Str) : TIState × List AEvent :=
  if !strTruthy finish then (s, [])
  else
    let fr := finish.getD []
    -- stopReason starts as 'end_turn'
    let (s, esA, stopReason) :=
      if cm && s.mistralDetected && !s.textBuffer.isEmpty then
        let parsedTools := (parseMistralToolCalls jp s.textBuffer).getD []
        if parsedTools.length > 0 then
          let (s₁, esClose) :=
            if !s.isFirstContent then
              ({ s with contentIndex := s.contentIndex + 1 },
                [AEvent.cb_stop s.contentIndex])
            else (s, [])
          let esTools := (parsedTools.enum.map (fun p =>
            [AEvent.cb_start_tool (s₁.contentIndex + p.1) (generateMistralToolId p.1)
                p.2.name p.2.arguments,
              AEvent.cb_stop (s₁.contentIndex + p.1)])).flatten
          ({ s₁ with isFirstContent := true }, esClose ++ esTools, str ("tool_use"))
        else (s, [], str ("end_turn"))
      else if cm && !s.textBuffer.isEmpty && !s.mistralDetected then
        let es :=
          (if s.isFirstContent then [AEvent.cb_start_text s.contentIndex] else []) ++
            [AEvent.cb_delta_text s.contentIndex s.textBuffer]
        ({ s with isFirstContent := false }, es, str ("end_turn"))
      else (s, [], str ("end_turn"))
    let esB := if !s.isFirstContent then [AEvent.cb_stop s.contentIndex] else []
    let stopReason :=
      if stopReason = str ("end_turn") then
        if fr = str ("tool_calls") then str ("tool_use")
        else if fr = str ("length") then str ("max_tokens")
        else stopReason
      else stopReason
    (s, esA ++ esB ++
      [AEvent.message_delta (some stopReason) none s.outputTokens, AEvent.message_stop])

/-- Processing of one parsed data line (the body of the line loop). -/
def processChunk (cm : Bool) (jp : Str → Option Js) (s : TIState) (ch : StreamChunk) :
    TIState × List AEvent :=
  let s := trackUsage s ch.usage
  match ch.choices.head? with
  | none =>
    -- final usage-only chunk: emit a bare message_delta with the usage
    match ch.usage with
    | some u =>
      if natTruthy u.completion_tokens then
        (s, [AEvent.message_delta none none u.completion_tokens])
      else (s, [])
    | none => (s, [])
  | some choice =>
    let (s, es₁, skip) := processContent cm s choice.delta.content
    if skip then (s, es₁)
    else
      let (s, es₂) := processToolCalls s choice.delta.tool_calls
      let (s, es₃) := processFinish cm jp s choice.finish_reason
      (s, es₁ ++ es₂ ++ es₃)

/-- Runs the loop over the remaining chunks. -/
def runChunks (cm : Bool) (jp : Str → Option Js) :
    TIState → List StreamChunk → TIState × List AEvent
  | s, [] => (s, [])
  | s, ch :: rest =>
    let (s₁, es) := processChunk cm jp s ch
    let (s₂, es') := runChunks cm jp s₁ rest
    (s₂, es ++ es')

/-- Initial generator state. -/
def initState (estimatedInputTokens : Nat) : TIState :=
  ⟨estimatedInputTokens, 0, 0, true, [], [], false⟩

/-- Converts OpenAI SSE stream chunks to Anthropic SSE events
(src/types/index.ts `convertOpenAIStreamToAnthropic`): emits `message_start`,
then processes every parsed data line. -/
def convertOpenAIStreamToAnthropic (jp : Str → Option Js) (model : Str)
    (estimatedInputTokens : Nat) (chunks : List StreamChunk) : List AEvent :=
  let checkMistral := isMistralModel model
  AEvent.message_start estimatedInputTokens ::
    (runChunks checkMistral jp (initState estimatedInputTokens) chunks).2

end TypesIndex

-- ===========================================================================
-- Stream converter, pass-through variant
-- (src/utils/convert.ts, convertOpenAIStreamToAnthropic, lines 299-429):
-- no Mistral buffering; message_delta / message_stop are deferred until a
-- usage-bearing chunk with no choices arrives after finish_reason.
-- ===========================================================================

namespace Convert

/-- Mutable locals of the generator. -/
structure CVState where
  inputTokens : Nat
  outputTokens : Nat
  contentIndex : Nat
  isFirstContent : Bool
  toolCalls : List (Nat × TypesIndex.ToolAcc)
  finalStopReason : Option Str
  messageStopped : Bool

/-- Usage tracking at the top of the loop body (same code as the Mistral-aware
variant). -/
def trackUsage (s : CVState) (usage : Option StreamUsage) : CVState :=
  match usage with
  | none => s
  | some u =>
    { s with
      inputTokens := if natTruthy u.prompt_tokens then u.prompt_tokens else s.inputTokens
      outputTokens := if natTruthy u.completion_tokens then u.completion_tokens else s.outputTokens }

/-- The `if (delta.content)` branch: emit directly. -/
def processContent (s : CVState) (content : Option Str) : CVState × List AEvent :=
  if !strTruthy content then (s, [])
  else
    let c := content.getD []
    let es :=
      (if s.isFirstContent then [AEvent.cb_start_text s.contentIndex] else []) ++
        [AEvent.cb_delta_text s.contentIndex c]
    ({ s with isFirstContent := false }, es)

/-- One iteration of the `for (const tc of delta.tool_calls)` loop (same code
as the Mistral-aware variant). -/
def processToolCall (s : CVState) (tc : ToolCallDelta) : CVState × List AEvent :=
  match TypesIndex.tmLookup s.toolCalls tc.index with
  | none =>
    let m := TypesIndex.tmInsert s.toolCalls tc.index
      ⟨tc.id.getD [], tc.fname.getD [], tc.fargs.getD []⟩
    let (s₁, esClose) :=
      if !s.isFirstContent then
        ({ s with toolCalls := m, contentIndex := s.contentIndex + 1 },
          [AEvent.cb_stop s.contentIndex])
      else ({ s with toolCalls := m }, [])
    let s₂ := { s₁ with isFirstContent := false }
    (s₂, esClose ++
      [AEvent.cb_start_tool (s₂.contentIndex + tc.index)
        (TypesIndex.jsOr tc.id (str ("tool_") ++ (Nat.repr tc.index).data))
        (tc.fname.getD []) (Js.obj [])])
  | some _ =>
    if strTruthy tc.fargs then
      let a := tc.fargs.getD []
      ({ s with toolCalls := TypesIndex.tmAppendArgs s.toolCalls tc.index a },
        [AEvent.cb_delta_json (s.contentIndex + tc.index) a])
    else (s, [])

/-- The `if (delta.tool_calls)` branch. -/
def processToolCalls (s : CVState) (tcs : Option (List ToolCallDelta)) :
    CVState × List AEvent :=
  match tcs with
  | none => (s, [])
  | some l =>
    l.foldl (fun acc tc =>
      let (s', es) := processToolCall acc.1 tc
      (s', acc.2 ++ es)) (s, [])

/-- The `if (choice.finish_reason)` branch: close the open block and record
the mapped stop reason; emission is deferred. -/
def processFinish (s : CVState) (finish : Option Str) : CVState × List AEvent :=
  if !strTruthy finish then (s, [])
  else
    let fr := finish.getD []
    let es := if !s.isFirstContent then [AEvent.cb_stop s.contentIndex] else []
    let stopReason :=
      if fr = str ("tool_calls") then str ("tool_use")
      else if fr = str ("length") then str ("max_tokens")
      else str ("end_turn")
    ({ s with finalStopReason := some stopReason }, es)

/-- Processing of one parsed data line. -/
def processChunk (s : CVState) (ch : StreamChunk) : CVState × List AEvent :=
  let s := trackUsage s ch.usage
  match ch.choices.head? with
  | none =>
    match ch.usage with
    | some u =>
      if s.finalStopReason.isSome && !s.messageStopped then
        let finalOutputTokens := max s.outputTokens u.completion_tokens
        ({ s with messageStopped := true },
          [AEvent.message_delta s.finalStopReason
            (some (if natTruthy u.prompt_tokens then u.prompt_tokens else s.inputTokens))
            finalOutputTokens,
            AEvent.message_stop])
      else (s, [])
    | none => (s, [])
  | some choice =>
    let (s, es₁) := processContent s choice.delta.content
    let (s, es₂) := processToolCalls s choice.delta.tool_calls
    let (s, es₃) := processFinish s choice.finish_reason
    (s, es₁ ++ es₂ ++ es₃)

/-- Runs the loop over the remaining chunks. -/
def runChunks : CVState → List StreamChunk → CVState × List AEvent
  | s, [] => (s, [])
  | s, ch :: rest =>
    let (s₁, es) := processChunk s ch
    let (s₂, es') := runChunks s₁ rest
    (s₂, es ++ es')

/-- Initial generator state. -/
def initState (estimatedInputTokens : Nat) : CVState :=
  ⟨estimatedInputTokens, 0, 0, true, [], none, false⟩

/-- Converts OpenAI SSE stream chunks to Anthropic SSE events
(src/utils/convert.ts `convertOpenAIStreamToAnthropic`). -/
def convertOpenAIStreamToAnthropic (estimatedInputTokens : Nat)
    (chunks : List StreamChunk) : List AEvent :=
  AEvent.message_start estimatedInputTokens ::
    (runChunks (initState estimatedInputTokens) chunks).2

end Convert

-- ===========================================================================
-- Request / response data model (src/types/index.ts).  `JSON.stringify` and
-- `JSON.parse` are external library calls and are passed in as function
-- parameters (`jstr`, `jstrBlock`, `jp`) by the functions that use them.
-- ===========================================================================

/-- Base64 image source of an Anthropic `image` block (`media_type`, `data`).
Reading `media_type` off an absent source is a TypeError at runtime in the
source; the model is total and substitutes empty strings there. -/
structure ImgSource where
  media_type : Str := []
  data : Str := []

/-- Anthropic message content block (`AnthropicContentBlock`): an open record
with a `type` tag and the optional fields the converters read. -/
structure ABlock where
  btype : Str
  text : Option Str := none
  id : Option Str := none
  name : Option Str := none
  input : Option Js := none
  tool_use_id : Option Str := none
  content : Option Js := none
  source : Option ImgSource := none

/-- Anthropic message content: a string or a block list. -/
inductive AContent where
  | s (v : Str)
  | blocks (l : List ABlock)

/-- Anthropic message. -/
structure AMessage where
  role : Str
  content : AContent

/-- One entry of a list-valued system prompt (`{type, text}`). -/
structure SysBlock where
  stype : Str := str ("text")
  text : Str := []

/-- Anthropic system prompt: string or list of text blocks. -/
inductive SysPrompt where
  | s (v : Str)
  | blocks (l : List SysBlock)

/-- An Anthropic tool declaration. -/
structure ATool where
  name : Str
  description : Str
  input_schema : Js := Js.obj []

/-- Anthropic API request (the fields the converters read). -/
structure AnthropicReq where
  model : Str := []
  messages : List AMessage := []
  max_tokens : Nat := 0
  system : Option SysPrompt := none
  stream : Option Bool := none
  tools : Option (List ATool) := none

/-- The `function` record of an OpenAI tool call. -/
structure OToolCallFn where
  name : Option Str := none
  arguments : Option Str := none

/-- An OpenAI tool call.  `index` is the extra field vLLM rejects, present on
some inbound requests. -/
structure OToolCall where
  id : Str := []
  ctype : Str := str ("function")
  function : Option OToolCallFn := none
  index : Option Nat := none

/-- One part of a multi-part OpenAI user message. -/
structure OPart where
  ptype : Str
  text : Option Str := none
  image_url : Option Str := none

/-- OpenAI message content: string, part list, or null. -/
inductive OContent where
  | s (v : Str)
  | parts (l : List OPart)
  | null

/-- An OpenAI chat message. -/
structure OMsg where
  role : Str
  content : OContent := OContent.null
  tool_calls : Option (List OToolCall) := none
  tool_call_id : Option Str := none

/-- An OpenAI tool declaration (`{type: function, function: {...}}`). -/
structure OTool where
  name : Str
  description : Str
  parameters : Js := Js.obj []

/-- OpenAI chat request (the fields the converters read or write). -/
structure OpenAIReq where
  model : Str := []
  messages : List OMsg := []
  max_tokens : Option Nat := none
  stream : Option Bool := none
  include_usage : Option Bool := none
  tools : Option (List OTool) := none

/-- The message of an OpenAI response choice. -/
structure OChoiceMsg where
  role : Str := str ("assistant")
  content : Option Str := none
  tool_calls : Option (List OToolCall) := none

/-- An OpenAI response choice. -/
structure OChoice where
  message : Option OChoiceMsg := none
  finish_reason : Option Str := none

/-- An OpenAI (non-stream) response. -/
structure OpenAIResp where
  id : Str := []
  choices : List OChoice := []
  usage : Option StreamUsage := none

/-- An Anthropic response (`type: 'message'`, `role: 'assistant'` are fixed by
the constructor). -/
structure AnthropicResp where
  id : Str
  mtype : Str := str ("message")
  role : Str := str ("assistant")
  content : List ABlock
  model : Str
  stop_reason : Option Str
  input_tokens : Nat
  output_tokens : Nat

-- ===========================================================================
-- Name sanitization and tool-id normalization
-- ===========================================================================

/-- Latin alphanumeric (`[a-zA-Z0-9]`). -/
def isAlnumChar (c : Char) : Bool :=
  ('a' ≤ c && c ≤ 'z') || ('A' ≤ c && c ≤ 'Z') || ('0' ≤ c && c ≤ '9')

/-- The regex `^[a-zA-Z0-9]{9}$`. -/
def isValidToolId (id : Str) : Bool :=
  id.length = 9 && id.all isAlnumChar

/-- Sanitizes a tool/function name (both files' `sanitizeToolName`): trim,
replace every char outside `[a-zA-Z0-9_-]` with `_`, strip leading/trailing
underscores, truncate to 64 chars, default `unknown_tool`. -/
def sanitizeToolName (name : Str) : Str :=
  let s1 := (name.dropWhile Char.isWhitespace).reverse.dropWhile Char.isWhitespace |>.reverse
  let s2 := s1.map (fun c => if isAlnumChar c || c = '_' || c = '-' then c else '_')
  let s3 := ((s2.dropWhile (· = '_')).reverse.dropWhile (· = '_')).reverse
  let s4 := if decide (s3.length > 64) then s3.take 64 else s3
  if s4.isEmpty then str ("unknown_tool") else s4

namespace TypesIndex

/-- Normalizes a tool id to 9 alphanumeric chars (src/types/index.ts
`normalizeToolId`): already-valid ids pass through; otherwise a char-code sum
hash indexes the 62-char alphabet nine times.  (`charCodeAt` sums UTF-16
units; for non-BMP ids the hash value differs from `Char.toNat`, which no
claim observes.) -/
def normalizeToolId (id : Str) : Str :=
  if isValidToolId id then id
  else
    let hash := id.foldl (fun acc c => acc + c.toNat) 0
    (List.range 9).map (fun i => idChars.getD ((hash * (i + 1) * 7) % idChars.length) '?')

end TypesIndex

namespace Convert

/-- Normalizes a tool id (src/utils/convert.ts `normalizeToolId`, the FNV-1a
inspired variant).  JS evaluates `(h ^ c) * 16777619` in Float64, which may
round above 2^53 before `>>> 0`; the model takes the exact product mod 2^32.
No claim depends on the hash's particular outputs, only on its range. -/
def normalizeToolId (id : Str) : Str :=
  if isValidToolId id then id
  else
    let hash := id.foldl (fun h c => ((h ^^^ c.toNat) * 16777619) % 2 ^ 32) 0
    (List.range 9).map (fun i =>
      let mixed := ((hash >>> (i * 3)) ^^^ (hash >>> (i + 7)) ^^^ ((hash * (i + 1)) % 2 ^ 32)) % 2 ^ 32
      idChars.getD (mixed % idChars.length) '?')

end Convert

-- ===========================================================================
-- Anthropic → OpenAI request conversion
-- (src/types/index.ts, anthropicToOpenAI, lines 267-379)
-- ===========================================================================

namespace TypesIndex

/-- The fixed vision system prompt (src/prompts/vision.ts,
`VISION_SYSTEM_PROMPT`).  Only its first line is reproduced; no claim
observes its content. -/
def VISION_SYSTEM_PROMPT : Str :=
  str ("You are a helpful vision assistant that analyzes images.")

/-- Options of `anthropicToOpenAI`. -/
structure ConvertOptions where
  useVisionPrompt : Bool := false

/-- JS truthiness of `req.system` (empty string falsy, arrays truthy). -/
def sysTruthy : Option SysPrompt → Bool
  | some (.s v) => !v.isEmpty
  | some (.blocks _) => true
  | none => false

/-- `typeof req.system === 'string' ? req.system : req.system.map(s => s.text).join('\n')`. -/
def systemText : SysPrompt → Str
  | .s v => v
  | .blocks l => List.intercalate (str ("\n")) (l.map (·.text))

/-- `block.input || {}`. -/
def inputOrEmpty : Option Js → Js
  | some Js.null => Js.obj []
  | some v => v
  | none => Js.obj []

/-- Conversion of one Anthropic message into zero or more OpenAI messages
(the body of the `for (const msg of req.messages)` loop). -/
def convertMessage (jstr : Option Js → Str) (jstrBlock : ABlock → Str)
    (msg : AMessage) : List OMsg :=
  match msg.content with
  | .s v => [{ role := msg.role, content := .s v }]
  | .blocks l =>
    let toolUseBlocks := l.filter (fun b => b.btype = str ("tool_use"))
    if msg.role = str ("assistant") && decide (toolUseBlocks.length > 0) then
      let textContent :=
        ((l.filter (fun b => b.btype = str ("text"))).map (fun b => b.text.getD [])).flatten
      let toolCalls := toolUseBlocks.map (fun b =>
        ({ id := normalizeToolId (b.id.getD []),
           ctype := str ("function"),
           function := some ⟨some (sanitizeToolName (b.name.getD [])),
             some (jstr (some (inputOrEmpty b.input)))⟩ } : OToolCall))
      [{ role := str ("assistant"),
         content := if textContent.isEmpty then .null else .s textContent,
         tool_calls := some toolCalls }]
    else
      let toolResultBlocks := l.filter (fun b => b.btype = str ("tool_result"))
      if msg.role = str ("user") && decide (toolResultBlocks.length > 0) then
        toolResultBlocks.map (fun b =>
          let resultContent :=
            match b.content with
            | some (Js.jstr s) => s
            | other => jstr other
          { role := str ("tool"), content := .s resultContent,
            tool_call_id := some (normalizeToolId (b.tool_use_id.getD [])) })
      else
        let parts := l.map (fun b =>
          if b.btype = str ("text") then
            ({ ptype := str ("text"), text := some (b.text.getD []) } : OPart)
          else if b.btype = str ("image") then
            let source := b.source.getD {}
            { ptype := str ("image_url"),
              image_url := some (str ("data:") ++ source.media_type ++
                str (";base64,") ++ source.data) }
          else { ptype := str ("text"), text := some (jstrBlock b) })
        [{ role := msg.role, content := .parts parts }]

/-- Converts an Anthropic request to OpenAI format (src/types/index.ts
`anthropicToOpenAI`).  `jstr` / `jstrBlock` stand for `JSON.stringify` on
values and on whole blocks. -/
def anthropicToOpenAI (jstr : Option Js → Str) (jstrBlock : ABlock → Str)
    (req : AnthropicReq) (options : ConvertOptions := {}) : OpenAIReq :=
  let messages : List OMsg :=
    if options.useVisionPrompt then
      [{ role := str ("system"), content := .s VISION_SYSTEM_PROMPT }]
    else []
  let messages := messages ++
    (if sysTruthy req.system then
      [{ role := str ("system"), content := .s (systemText (req.system.getD (.s []))) }]
    else [])
  let messages := messages ++ (req.messages.map (convertMessage jstr jstrBlock)).flatten
  let openaiTools := req.tools.map (fun ts => ts.map (fun t =>
    ({ name := t.name, description := t.description, parameters := t.input_schema } : OTool)))
  let lastMsg := messages.getLast?
  let hasToolCalls := (lastMsg.map (fun m => m.tool_calls.isSome)).getD false
  let messages :=
    if (lastMsg.map (·.role)).getD [] = str ("assistant") && !hasToolCalls then
      messages ++ [{ role := str ("user"), content := .s (str ("Continue.")) }]
    else messages
  { model := req.model, messages := messages, max_tokens := some req.max_tokens,
    stream := req.stream,
    include_usage := if req.stream.getD false then some true else none,
    tools := openaiTools }

end TypesIndex

-- ===========================================================================
-- OpenAI tool-id normalization passes
-- ===========================================================================

/-- Assoc-list model of the request-scoped `Map<string, string>`. -/
def mLookup (m : List (Str × Str)) (k : Str) : Option Str :=
  (m.find? (fun e => e.1 = k)).map (·.2)

/-- Inner loop of the collection pass: `for (const call of toolCalls)`. -/
def collectCalls (norm : Str → Str) (acc : List (Str × Str)) (calls : List OToolCall) :
    List (Str × Str) :=
  calls.foldl (fun m call =>
    if !call.id.isEmpty && (mLookup m call.id).isNone then
      m ++ [(call.id, norm call.id)]
    else m) acc

/-- First pass of both `normalizeOpenAIToolIds` variants: collect every
truthy id on an assistant message's `tool_calls` into `id → norm id`,
first occurrence wins. -/
def collectToolIds (norm : Str → Str) (messages : List OMsg) : List (Str × Str) :=
  messages.foldl (fun idMap msg =>
    if msg.role = str ("assistant") && msg.tool_calls.isSome then
      collectCalls norm idMap (msg.tool_calls.getD [])
    else idMap) []

namespace TypesIndex

/-- The second-sweep rewrite of one message (the body of `messages.map`
inside src/types/index.ts `normalizeOpenAIToolIds`). -/
def normalizeMsg (idMap : List (Str × Str)) (msg : OMsg) : OMsg :=
  if msg.role = str ("assistant") && msg.tool_calls.isSome then
    { msg with tool_calls := some ((msg.tool_calls.getD []).map (fun call =>
        { call with id := (mLookup idMap call.id).getD call.id })) }
  else if msg.role = str ("tool") && strTruthy msg.tool_call_id then
    let tid := msg.tool_call_id.getD []
    { msg with tool_call_id := some ((mLookup idMap tid).getD tid) }
  else msg

/-- Normalizes tool call ids in OpenAI requests (src/types/index.ts
`normalizeOpenAIToolIds`): two sweeps plus the trailing `Continue.`
sentinel. -/
def normalizeOpenAIToolIds (req : OpenAIReq) : OpenAIReq :=
  let idMap := collectToolIds normalizeToolId req.messages
  let normalizedMessages := req.messages.map (normalizeMsg idMap)
  let lastMsg := normalizedMessages.getLast?
  let hasToolCalls := (lastMsg.map (fun m => m.tool_calls.isSome)).getD false
  let normalizedMessages :=
    if (lastMsg.map (·.role)).getD [] = str ("assistant") && !hasToolCalls then
      normalizedMessages ++ [{ role := str ("user"), content := .s (str ("Continue.")) }]
    else normalizedMessages
  { req with messages := normalizedMessages }

end TypesIndex

namespace Convert

/-- The rewrite of one assistant tool call (the body of `toolCalls.map`
inside src/utils/convert.ts `normalizeOpenAIToolIds`): strips `index`,
sanitizes `arguments` through `JSON.parse`, rewrites the id. -/
def normalizeCall (jp : Str → Option Js) (idMap : List (Str × Str))
    (call : OToolCall) : OToolCall :=
  let args0 := (call.function.getD {}).arguments
  let sanitizedArgs0 := if strTruthy args0 then args0.getD [] else str ("\x7b\x7d")
  let sanitizedArgs :=
    match jp sanitizedArgs0 with
    | some _ => sanitizedArgs0
    | none => str ("\x7b\x7d")
  { call with
      index := none,
      id := (mLookup idMap call.id).getD call.id,
      function := some { call.function.getD {} with arguments := some sanitizedArgs } }

/-- The second-sweep rewrite of one message (the body of `messages.map`
inside src/utils/convert.ts `normalizeOpenAIToolIds`). -/
def normalizeMsg (jp : Str → Option Js) (idMap : List (Str × Str)) (msg : OMsg) : OMsg :=
  if msg.role = str ("assistant") && msg.tool_calls.isSome then
    { msg with tool_calls := some ((msg.tool_calls.getD []).map (normalizeCall jp idMap)) }
  else if msg.role = str ("tool") && strTruthy msg.tool_call_id then
    let tid := msg.tool_call_id.getD []
    { msg with tool_call_id := some ((mLookup idMap tid).getD tid) }
  else msg

/-- Normalizes tool call ids in OpenAI requests (src/utils/convert.ts
`normalizeOpenAIToolIds`): strips each assistant tool call's `index`,
replaces unparsable (or missing) `arguments` with `"{}"`, and rewrites ids;
no sentinel is appended. -/
def normalizeOpenAIToolIds (jp : Str → Option Js) (req : OpenAIReq) : OpenAIReq :=
  let idMap := collectToolIds normalizeToolId req.messages
  let normalizedMessages := req.messages.map (normalizeMsg jp idMap)
  { req with messages := normalizedMessages }

end Convert

-- ===========================================================================
-- OpenAI → Anthropic response conversion (identical in both files;
-- src/utils/convert.ts openAIToAnthropic, lines 242-293)
-- ===========================================================================

/-- Converts an OpenAI response to Anthropic format (`openAIToAnthropic`),
with `JSON.parse` passed in as `jp`. -/
def openAIToAnthropic (jp : Str → Option Js) (res : OpenAIResp) (model : Str) :
    AnthropicResp :=
  let choice := res.choices.head?
  let contentOpt := choice.bind (fun c => c.message.bind (·.content))
  let content₀ : List ABlock :=
    if strTruthy contentOpt then
      [{ btype := str ("text"), text := some (contentOpt.getD []) }]
    else []
  let toolCalls := (choice.bind (fun c => c.message.bind (·.tool_calls))).getD []
  let content₁ : List ABlock :=
    if decide (toolCalls.length > 0) then
      toolCalls.map (fun call =>
        let args := ((call.function.getD {}).arguments).getD []
        let input :=
          match jp args with
          | some v => v
          | none => Js.obj [(str ("raw"), Js.jstr args)]
        { btype := str ("tool_use"), id := some call.id,
          name := some ((call.function.getD {}).name.getD []), input := some input })
    else []
  let content := content₀ ++ content₁
  let content :=
    if content.isEmpty then [{ btype := str ("text"), text := some [] }] else content
  let fr := choice.bind (·.finish_reason)
  let stopReason : Option Str :=
    if fr = some (str ("stop")) then some (str ("end_turn"))
    else if fr = some (str ("tool_calls")) then some (str ("tool_use"))
    else if strTruthy fr then fr
    else none
  { id := res.id, content := content, model := model, stop_reason := stopReason,
    input_tokens := (res.usage.map (·.prompt_tokens)).getD 0,
    output_tokens := (res.usage.map (·.completion_tokens)).getD 0 }

-- ===========================================================================
-- Backend auth composition (src/utils/auth.ts)
-- ===========================================================================

/-- Backend configuration (the fields `getBackendAuth` reads). -/
structure BackendCfg where
  url : Str
  apiKey : Option Str := none

/-- Checks if a URL is an internal cluster service (src/utils/auth.ts
`isInternalService`): a plain substring test. -/
def isInternalService (url : Str) : Bool :=
  containsSeg (str (".cluster.local")) url

/-- Returns the auth for a backend (src/utils/auth.ts `getBackendAuth`):
internal services always use the backend's configured key; external services
prefer the backend key (JS `||`, so an empty key falls through) and fall back
to the client's Authorization header. -/
def getBackendAuth (backend : BackendCfg) (clientAuth : Option Str) : Option Str :=
  if isInternalService backend.url then backend.apiKey
  else if strTruthy backend.apiKey then backend.apiKey else clientAuth

/-- Modelled from the spec: the host component of a URL written
`scheme://host[:port]/path`, i.e. the part after the first `://` up to the
first `/`, `:`, `?` or `#` (the spec speaks of "the backend URL's host",
which the source never computes). -/
def hostOf (u : Str) : Str :=
  let rest :=
    match fidx (str ("://")) u with
    | some i => u.drop (i + 3)
    | none => u
  rest.takeWhile (fun c => !(c = '/' || c = ':' || c = '?' || c = '#'))

/-- JS `String.prototype.endsWith`. -/
def endsWithSeg (p l : Str) : Bool := startsWithSeg p.reverse l.reverse

-- ===========================================================================
-- Streaming route handlers, as response-action traces (C4).
-- `Upstream` abstracts the upstream connection: it either fails before
-- producing a chunk, or yields `n` chunks and then optionally fails.
-- ===========================================================================

/-- Observable actions a streaming handler performs on the reply, in order. -/
inductive RespEvent where
  | recvChunk      -- a chunk successfully received from upstream
  | writeHead200   -- `reply.raw.writeHead(200, SSE_HEADERS)`
  | writeFrame     -- an SSE frame written to the client
  | status500      -- `reply.code(500)` + JSON error body sent
  | sseErrorEvent  -- `reply.raw.write(formatSseError(e))`
  | endResponse    -- `reply.raw.end()`
deriving DecidableEq, Repr

/-- Behaviour of the upstream connection for one request. -/
inductive Upstream where
  | connectFail
  | chunks (n : Nat) (failAfter : Bool)
deriving DecidableEq, Repr

/-- Trace of the `/v1/chat/completions` streaming path (src/unnamed/part_006
`handleStream`; src/routes/openai.ts `stream` has the same structure): pull
the first chunk inside a try, 500 on failure or empty stream, only then write
the SSE head. -/
def handleStream : Upstream → List RespEvent
  | .connectFail => [.status500]
  | .chunks 0 _ => [.status500]
  | .chunks (n + 1) f =>
    [.recvChunk, .writeHead200, .writeFrame] ++
      (List.replicate n [RespEvent.recvChunk, RespEvent.writeFrame]).flatten ++
      (if f then [RespEvent.sseErrorEvent] else []) ++ [.endResponse]

/-- Trace of the `/v1/messages` streaming path (src/unnamed/part_007
`streamAnthropic`; src/routes/anthropic.ts `streamViaOpenAI` has the same
structure): the SSE head is written unconditionally first, the converter
yields `message_start` before pulling upstream, and any upstream failure is
reported as an SSE error frame on the already-started 200 response. -/
def streamAnthropic (up : Upstream) : List RespEvent :=
  [.writeHead200, .writeFrame] ++
    (match up with
     | .connectFail => [RespEvent.sseErrorEvent]
     | .chunks n f =>
       (List.replicate n [RespEvent.recvChunk, RespEvent.writeFrame]).flatten ++
         (if f then [RespEvent.sseErrorEvent] else [])) ++
    [.endResponse]

-- ===========================================================================
-- Theorems
-- ===========================================================================

theorem hostOf_infix (u : Str) : ∃ s t, u = s ++ hostOf u ++ t := by
  unfold hostOf
  cases hfi : fidx (str ("://")) u with
  | none =>
    dsimp only
    refine ⟨[], u.dropWhile (fun c => !(c = '/' || c = ':' || c = '?' || c = '#')), ?_⟩
    simp only [List.nil_append]
    exact (List.takeWhile_append_dropWhile _ _).symm
  | some i =>
    dsimp only
    refine ⟨u.take (i + 3),
      (u.drop (i + 3)).dropWhile (fun c => !(c = '/' || c = ':' || c = '?' || c = '#')), ?_⟩
    conv_lhs => rw [← List.take_append_drop (i + 3) u]
    rw [List.append_assoc]
    congr 1
    exact (List.takeWhile_append_dropWhile _ _).symm

theorem endsWith_hostOf_contains (p u : Str) (h : endsWithSeg p (hostOf u) = true) :
    containsSeg p u = true := by
  rcases hostOf_infix u with ⟨s, t, hu⟩
  unfold endsWithSeg at h
  rcases (startsWithSeg_iff _ _).mp h with ⟨t2, ht2⟩
  have hh : hostOf u = t2.reverse ++ p := by
    have h2 := congrArg List.reverse ht2
    simpa using h2
  refine (containsSeg_iff p u).mpr ⟨s ++ t2.reverse, t, ?_⟩
  rw [hu, hh]
  simp

/-- C9 (amended): `getBackendAuth` keys off a substring test
(`url.includes('.cluster.local')`), not off the URL's host.  When the URL's
host ends in `.cluster.local` the substring test fires and the backend's
configured key is returned regardless of the client header; more generally
the configured key is returned whenever the URL merely *contains*
`.cluster.local` anywhere; otherwise the non-empty configured key is
preferred and the client header is the fallback. -/
theorem claim_C9 (backend : BackendCfg) (clientAuth : Option Str) :
    (endsWithSeg (str (".cluster.local")) (hostOf backend.url) = true →
      getBackendAuth backend clientAuth = backend.apiKey)
    ∧ (isInternalService backend.url = true →
      getBackendAuth backend clientAuth = backend.apiKey)
    ∧ (isInternalService backend.url = false →
      getBackendAuth backend clientAuth =
        if strTruthy backend.apiKey then backend.apiKey else clientAuth) := by
  refine ⟨fun h => ?_, fun h => ?_, fun h => ?_⟩
  · have hc : isInternalService backend.url = true :=
      endsWith_hostOf_contains _ _ h
    simp [getBackendAuth, hc]
  · simp [getBackendAuth, h]
  · simp [getBackendAuth, h]

/-- C9 counterexample: a URL that contains `.cluster.local` in its path but
whose host is `api.example.com` is treated as internal, so with no configured
key the code returns nothing instead of falling back to the client header;
and an empty (but present) configured key on an external URL falls through to
the client header. -/
theorem claim_C9_counterexample :
    (endsWithSeg (str (".cluster.local"))
        (hostOf (str ("https://api.example.com/x.cluster.local/v1"))) = false
      ∧ getBackendAuth ⟨str ("https://api.example.com/x.cluster.local/v1"), none⟩
          (some (str ("key1"))) = none)
    ∧ getBackendAuth ⟨str ("https://api.example.com/v1"), some []⟩
        (some (str ("key1"))) = some (str ("key1")) := by
  refine ⟨⟨by decide, by decide⟩, by decide⟩

/-- C9 witness: a genuinely internal URL (host ends in `.cluster.local`)
returns the configured key even though the client sent its own header. -/
theorem claim_C9_witness :
    endsWithSeg (str (".cluster.local"))
      (hostOf (str ("http://vllm.team.svc.cluster.local:8000/v1"))) = true
    ∧ getBackendAuth ⟨str ("http://vllm.team.svc.cluster.local:8000/v1"), some (str ("sk"))⟩
        (some (str ("other"))) = some (str ("sk")) :=
  ⟨by decide, (claim_C9 _ _).1 (by decide)⟩

theorem mem_replicate_pair {α : Type} {e a b : α} {n : Nat}
    (h : e ∈ (List.replicate n [a, b]).flatten) : e = a ∨ e = b := by
  rcases List.mem_flatten.mp h with ⟨l, hl, hm⟩
  rcases List.eq_of_mem_replicate hl with rfl
  simpa using hm

/-- C4 (amended): the `/v1/chat/completions` streaming path defers the 200
status and SSE headers until the first upstream chunk is received, and
returns a 500 JSON error when the upstream fails before the first chunk (or
yields nothing); the `/v1/messages` streaming path instead writes the SSE
head unconditionally first and reports an early upstream failure as an SSE
error frame on the already-started 200 response, never as a 500. -/
theorem claim_C4 :
    (∀ up pre post, handleStream up = pre ++ RespEvent.writeHead200 :: post →
      RespEvent.recvChunk ∈ pre)
    ∧ handleStream Upstream.connectFail = [RespEvent.status500]
    ∧ (∀ f, handleStream (Upstream.chunks 0 f) = [RespEvent.status500])
    ∧ (∀ up, (streamAnthropic up).head? = some RespEvent.writeHead200)
    ∧ (∀ up, RespEvent.status500 ∉ streamAnthropic up) := by
  refine ⟨?_, rfl, fun f => rfl, ?_, ?_⟩
  · intro up pre post h
    match up with
    | .connectFail =>
      exfalso
      have : RespEvent.writeHead200 ∈ handleStream Upstream.connectFail := by
        rw [h]; simp
      simp [handleStream] at this
    | .chunks 0 f =>
      exfalso
      have : RespEvent.writeHead200 ∈ handleStream (Upstream.chunks 0 f) := by
        rw [h]; simp
      simp [handleStream] at this
    | .chunks (n + 1) f =>
      simp only [handleStream, List.cons_append, List.nil_append] at h
      match pre with
      | [] => simp at h
      | a :: pre' =>
        have ha : a = RespEvent.recvChunk := by
          have := congrArg List.head? h
          simpa using this.symm
        simp [ha]
  · intro up
    cases up <;> rfl
  · intro up h
    cases up with
    | connectFail => simp [streamAnthropic] at h
    | chunks n f =>
      simp only [streamAnthropic] at h
      rcases List.mem_append.mp h with h1 | h1
      · rcases List.mem_append.mp h1 with h2 | h2
        · simp at h2
        · rcases List.mem_append.mp h2 with h3 | h3
          · rcases mem_replicate_pair h3 with h4 | h4 <;> cases h4
          · split at h3 <;> simp_all
      · simp at h1

/-- C4 counterexample: for the `/v1/messages` streaming path, an upstream
that fails before its first chunk still gets the 200 SSE head (written before
anything is received) and never a 500 JSON error. -/
theorem claim_C4_counterexample :
    streamAnthropic Upstream.connectFail =
      [RespEvent.writeHead200, RespEvent.writeFrame, RespEvent.sseErrorEvent,
        RespEvent.endResponse]
    ∧ RespEvent.status500 ∉ streamAnthropic Upstream.connectFail
    ∧ (streamAnthropic Upstream.connectFail).head? = some RespEvent.writeHead200 := by
  refine ⟨rfl, by decide, rfl⟩

/-- C4 witness: on a one-chunk upstream the chat-completions handler receives
the chunk before writing the 200 head. -/
theorem claim_C4_witness :
    handleStream (Upstream.chunks 1 false) =
      [RespEvent.recvChunk] ++ RespEvent.writeHead200 ::
        [RespEvent.writeFrame, RespEvent.endResponse]
    ∧ RespEvent.recvChunk ∈ [RespEvent.recvChunk] :=
  ⟨by decide, claim_C4.1 (Upstream.chunks 1 false) [RespEvent.recvChunk]
    [RespEvent.writeFrame, RespEvent.endResponse] (by decide)⟩

-- ===========================================================================
-- C8: openAIToAnthropic
-- ===========================================================================

/-- `choice?.message?.content`. -/
def respContent (res : OpenAIResp) : Option Str :=
  res.choices.head?.bind (fun c => c.message.bind (·.content))

/-- `choice?.message?.tool_calls`, defaulted to `[]`. -/
def respCalls (res : OpenAIResp) : List OToolCall :=
  (res.choices.head?.bind (fun c => c.message.bind (·.tool_calls))).getD []

/-- `choice?.finish_reason`. -/
def respFinish (res : OpenAIResp) : Option Str :=
  res.choices.head?.bind (·.finish_reason)

/-- The `tool_use` block `openAIToAnthropic` builds for one tool call. -/
def c8ToolBlock (jp : Str → Option Js) (call : OToolCall) : ABlock :=
  let args := ((call.function.getD {}).arguments).getD []
  let input :=
    match jp args with
    | some v => v
    | none => Js.obj [(str ("raw"), Js.jstr args)]
  { btype := str ("tool_use"), id := some call.id,
    name := some ((call.function.getD {}).name.getD []), input := some input }

theorem openAIToAnthropic_content_eq (jp : Str → Option Js) (res : OpenAIResp)
    (model : Str) :
    (openAIToAnthropic jp res model).content =
      (if ((if strTruthy (respContent res) then
            [({ btype := str ("text"), text := some ((respContent res).getD []) } : ABlock)]
          else []) ++ (respCalls res).map (c8ToolBlock jp)).isEmpty then
        [({ btype := str ("text"), text := some [] } : ABlock)]
      else
        (if strTruthy (respContent res) then
            [({ btype := str ("text"), text := some ((respContent res).getD []) } : ABlock)]
          else []) ++ (respCalls res).map (c8ToolBlock jp)) := by
  unfold openAIToAnthropic respContent respCalls c8ToolBlock
  by_cases hc : strTruthy (res.choices.head?.bind fun c => c.message.bind (·.content)) <;>
    cases hl : (res.choices.head?.bind fun c => c.message.bind (·.tool_calls)).getD [] <;>
    simp [hc, hl]

/-- C8 (amended): `openAIToAnthropic` prepends a text block exactly when the
first choice carries a *non-empty* string content; appends one `tool_use`
block per tool call with input `JSON.parse(arguments)` or `{raw: arguments}`
on parse failure; substitutes a single empty text block when content would
otherwise be empty; maps `finish_reason` `stop → end_turn`,
`tool_calls → tool_use`, passes any other *non-empty* value (including
`length`) through verbatim and yields `null` for an absent or empty one;
copies the usage counters (0 when absent); and reports the declared output
model. -/
theorem claim_C8 (jp : Str → Option Js) (res : OpenAIResp) (model : Str) :
    (strTruthy (respContent res) = true →
      (openAIToAnthropic jp res model).content.head? =
        some { btype := str ("text"), text := some ((respContent res).getD []) })
    ∧ (strTruthy (respContent res) = true ∨ respCalls res ≠ [] →
      (openAIToAnthropic jp res model).content.drop
          (if strTruthy (respContent res) then 1 else 0) =
        (respCalls res).map (c8ToolBlock jp))
    ∧ (strTruthy (respContent res) = false → respCalls res = [] →
      (openAIToAnthropic jp res model).content =
        [{ btype := str ("text"), text := some [] }])
    ∧ ((openAIToAnthropic jp res model).stop_reason =
        if respFinish res = some (str ("stop")) then some (str ("end_turn"))
        else if respFinish res = some (str ("tool_calls")) then some (str ("tool_use"))
        else if strTruthy (respFinish res) then respFinish res
        else none)
    ∧ (openAIToAnthropic jp res model).input_tokens = (res.usage.map (·.prompt_tokens)).getD 0
    ∧ (openAIToAnthropic jp res model).output_tokens = (res.usage.map (·.completion_tokens)).getD 0
    ∧ (openAIToAnthropic jp res model).model = model
    ∧ (openAIToAnthropic jp res model).id = res.id := by
  refine ⟨?_, ?_, ?_, ?_, ?_, ?_, ?_, ?_⟩
  · intro hc
    rw [openAIToAnthropic_content_eq]
    simp [hc]
  · intro h
    rw [openAIToAnthropic_content_eq]
    by_cases hc : strTruthy (respContent res)
    · simp [hc]
    · rcases h with h | h
      · exact absurd h (by simp [hc])
      · cases hl : respCalls res with
        | nil => exact absurd hl h
        | cons a l => simp [hc, hl]
  · intro hc hl
    rw [openAIToAnthropic_content_eq]
    simp [hc, hl]
  · unfold openAIToAnthropic respFinish
    rfl
  · unfold openAIToAnthropic
    rfl
  · unfold openAIToAnthropic
    rfl
  · unfold openAIToAnthropic
    rfl
  · unfold openAIToAnthropic
    rfl

/-- A tool call with unparsable arguments (the single `\x7b` character). -/
def c8CallA : OToolCall :=
  { id := str ("c1"), function := some { name := some (str ("f")), arguments := some (str ("\x7b")) } }

/-- Counterexample input for C8: empty-string content with a tool call and
`finish_reason: 'length'`. -/
def c8ResA : OpenAIResp :=
  { id := str ("r1"),
    choices := [{ message := some { content := some [], tool_calls := some [c8CallA] },
                  finish_reason := some (str ("length")) }] }

/-- Counterexample input for C8: present-but-empty `finish_reason`. -/
def c8ResB : OpenAIResp :=
  { id := str ("r2"),
    choices := [{ message := some ({} : OChoiceMsg), finish_reason := some [] }] }

/-- C8 counterexample: `finish_reason: 'length'` is passed through verbatim
(the claim says it maps to `max_tokens`; the repo's own test suite asserts
`'length'`); a first choice that carries the string content `""` together
with a tool call yields content that does *not* begin with a text block; and
a present-but-empty `finish_reason` maps to `null`, not verbatim. -/
theorem claim_C8_counterexample :
    ((openAIToAnthropic (fun _ => none) c8ResA (str ("m"))).stop_reason = some (str ("length"))
      ∧ ¬(openAIToAnthropic (fun _ => none) c8ResA (str ("m"))).stop_reason = some (str ("max_tokens"))
      ∧ ((openAIToAnthropic (fun _ => none) c8ResA (str ("m"))).content.head?.map (·.btype)) =
          some (str ("tool_use")))
    ∧ (openAIToAnthropic (fun _ => none) c8ResB (str ("m"))).stop_reason = none := by
  refine ⟨⟨by decide, by decide, by decide⟩, by decide⟩

/-- Scenario S1 upstream response. -/
def s1Resp : OpenAIResp :=
  { id := str ("c1"),
    choices := [{ message := some { content := some (str ("Hello")) },
                  finish_reason := some (str ("stop")) }],
    usage := some { prompt_tokens := 5, completion_tokens := 2 } }

/-- C8 witness: the S1 response starts with the `Hello` text block. -/
theorem claim_C8_witness :
    strTruthy (respContent s1Resp) = true
    ∧ (openAIToAnthropic (fun _ => none) s1Resp (str ("claude-3"))).content.head? =
        some { btype := str ("text"), text := some ((respContent s1Resp).getD []) } :=
  ⟨by decide, (claim_C8 (fun _ => none) s1Resp (str ("claude-3"))).1 (by decide)⟩

-- ===========================================================================
-- C3: normalizeOpenAIToolIds (id rewriting, src/types/index.ts variant)
-- ===========================================================================

/-- `k` is a non-empty id appearing on one of `calls`. -/
def PIdIn (calls : List OToolCall) (k : Str) : Prop :=
  (∃ a ∈ calls, a.id = k) ∧ ¬k = []

instance (calls : List OToolCall) (k : Str) : Decidable (PIdIn calls k) := by
  unfold PIdIn
  exact instDecidableAnd

/-- `k` is a non-empty id appearing on some assistant message's `tool_calls`
(what the first sweep of `normalizeOpenAIToolIds` collects). -/
def PAsstId (msgs : List OMsg) (k : Str) : Prop :=
  ∃ m ∈ msgs, (m.role = str ("assistant") ∧ m.tool_calls.isSome = true) ∧
    PIdIn (m.tool_calls.getD []) k

instance (msgs : List OMsg) (k : Str) : Decidable (PAsstId msgs k) := by
  unfold PAsstId
  exact List.decidableBEx _ msgs

theorem PIdIn_cons (c : OToolCall) (cs : List OToolCall) (k : Str) :
    PIdIn (c :: cs) k ↔ (c.id = k ∧ ¬k = []) ∨ PIdIn cs k := by
  unfold PIdIn
  simp only [List.mem_cons, exists_eq_or_imp]
  tauto

theorem PAsstId_cons (m : OMsg) (ms : List OMsg) (k : Str) :
    PAsstId (m :: ms) k ↔
      ((m.role = str ("assistant") ∧ m.tool_calls.isSome = true) ∧
        PIdIn (m.tool_calls.getD []) k) ∨ PAsstId ms k := by
  unfold PAsstId
  constructor
  · rintro ⟨m1, hm1, hp⟩
    rcases List.mem_cons.mp hm1 with rfl | hm1'
    · exact Or.inl hp
    · exact Or.inr ⟨m1, hm1', hp⟩
  · rintro (hp | ⟨m1, hm1, hp⟩)
    · exact ⟨m, List.mem_cons_self _ _, hp⟩
    · exact ⟨m1, List.mem_cons_of_mem _ hm1, hp⟩

theorem mLookup_append_single (l : List (Str × Str)) (a b : Str) (k : Str) :
    mLookup (l ++ [(a, b)]) k =
      match mLookup l k with
      | some v => some v
      | none => if k = a then some b else none := by
  unfold mLookup
  rw [List.find?_append]
  cases h : l.find? (fun e => e.1 = k) with
  | some v => simp
  | none =>
    by_cases hk : a = k
    · subst hk
      simp [List.find?]
    · have h1 : (decide (a = k)) = false := decide_eq_false hk
      have h2 : ¬(k = a) := fun hka => hk hka.symm
      simp [List.find?, h1, h2]

theorem PIdIn_cons_skip (c : OToolCall) (cs : List OToolCall) (k : Str)
    (h : ¬(c.id = k ∧ ¬k = [])) : PIdIn (c :: cs) k ↔ PIdIn cs k := by
  rw [PIdIn_cons]
  tauto

theorem mLookup_collectCalls (norm : Str → Str) (calls : List OToolCall)
    (acc : List (Str × Str)) (k : Str) :
    mLookup (collectCalls norm acc calls) k =
      match mLookup acc k with
      | some v => some v
      | none => if PIdIn calls k then some (norm k) else none := by
  induction calls generalizing acc with
  | nil =>
    cases h : mLookup acc k <;> simp [collectCalls, PIdIn, h]
  | cons c cs ih =>
    have hstep : collectCalls norm acc (c :: cs) =
        collectCalls norm
          (if !c.id.isEmpty && (mLookup acc c.id).isNone then
            acc ++ [(c.id, norm c.id)] else acc) cs := by
      simp [collectCalls]
    rw [hstep]
    by_cases hid : c.id = []
    · have hc : (!c.id.isEmpty && (mLookup acc c.id).isNone) = false := by
        simp [hid]
      rw [hc, if_neg Bool.false_ne_true, ih]
      cases h : mLookup acc k with
      | some v => simp
      | none =>
        rw [if_congr (PIdIn_cons_skip c cs k (by rintro ⟨rfl, hk⟩; exact hk hid)) rfl rfl]
    · by_cases hni : (mLookup acc c.id).isNone = true
      · have hc : (!c.id.isEmpty && (mLookup acc c.id).isNone) = true := by
          simp [hid, hni]
        rw [hc, if_pos rfl, ih]
        cases h : mLookup acc k with
        | some v =>
          have hv : mLookup (acc ++ [(c.id, norm c.id)]) k = some v := by
            rw [mLookup_append_single, h]
          rw [hv]
        | none =>
          rw [mLookup_append_single, h]
          by_cases hk : k = c.id
          · subst hk
            rw [if_pos rfl]
            have hP : PIdIn (c :: cs) c.id := by
              rw [PIdIn_cons]
              exact Or.inl ⟨rfl, hid⟩
            rw [if_pos hP]
          · rw [if_neg hk]
            rw [if_congr (PIdIn_cons_skip c cs k
              (by rintro ⟨hck, -⟩; exact hk hck.symm)) rfl rfl]
      · have hc : (!c.id.isEmpty && (mLookup acc c.id).isNone) = false := by
          simp only [Bool.and_eq_false_iff]
          exact Or.inr (Bool.eq_false_iff.mpr hni)
        rw [hc, if_neg Bool.false_ne_true, ih]
        cases h : mLookup acc k with
        | some v => simp
        | none =>
          have hk : ¬(c.id = k) := by
            intro hck
            rw [hck, h] at hni
            exact hni rfl
          rw [if_congr (PIdIn_cons_skip c cs k (by rintro ⟨hck, -⟩; exact hk hck)) rfl rfl]
theorem PAsstId_skip (m : OMsg) (ms : List OMsg) (k : Str)
    (h : ¬((m.role = str ("assistant") ∧ m.tool_calls.isSome = true) ∧
      PIdIn (m.tool_calls.getD []) k)) :
    PAsstId (m :: ms) k ↔ PAsstId ms k := by
  rw [PAsstId_cons]
  tauto

theorem mLookup_collect_aux (norm : Str → Str) (msgs : List OMsg) :
    ∀ (acc : List (Str × Str)) (k : Str),
    mLookup (msgs.foldl (fun idMap msg =>
      if msg.role = str ("assistant") && msg.tool_calls.isSome then
        collectCalls norm idMap (msg.tool_calls.getD [])
      else idMap) acc) k =
      match mLookup acc k with
      | some v => some v
      | none => if PAsstId msgs k then some (norm k) else none := by
  induction msgs with
  | nil =>
    intro acc k
    cases h : mLookup acc k <;> simp [PAsstId, h]
  | cons m ms ih =>
    intro acc k
    rw [List.foldl_cons]
    by_cases hm : (m.role = str ("assistant") && m.tool_calls.isSome) = true
    · rw [if_pos hm, ih, mLookup_collectCalls]
      have hm' : m.role = str ("assistant") ∧ m.tool_calls.isSome = true := by
        simpa using hm
      cases h : mLookup acc k with
      | some v => simp
      | none =>
        by_cases hP : PIdIn (m.tool_calls.getD []) k
        · rw [if_pos hP]
          have hA : PAsstId (m :: ms) k := by
            rw [PAsstId_cons]
            exact Or.inl ⟨hm', hP⟩
          rw [if_pos hA]
        · rw [if_neg hP]
          rw [if_congr (PAsstId_skip m ms k (by rintro ⟨-, hQ⟩; exact hP hQ)) rfl rfl]
    · rw [if_neg hm, ih]
      cases h : mLookup acc k with
      | some v => rfl
      | none =>
        rw [if_congr (PAsstId_skip m ms k
          (by rintro ⟨⟨h1, h2⟩, -⟩; exact hm (by simp [h1, h2]))) rfl rfl]

theorem mLookup_collect (norm : Str → Str) (msgs : List OMsg) (k : Str) :
    mLookup (collectToolIds norm msgs) k =
      if PAsstId msgs k then some (norm k) else none := by
  unfold collectToolIds
  rw [mLookup_collect_aux]
  simp [mLookup]

theorem idChars_getD_alnum (n : Nat) :
    isAlnumChar (idChars.getD (n % idChars.length) '?') = true := by
  have h62 : idChars.length = 62 := by decide
  have hlt : n % idChars.length < idChars.length := Nat.mod_lt _ (by rw [h62]; omega)
  rw [List.getD_eq_getElem _ _ hlt]
  have hall : idChars.all isAlnumChar = true := by decide
  exact List.all_eq_true.mp hall _ (idChars.getElem_mem hlt)

theorem normalizeToolId_valid (id : Str) :
    isValidToolId (TypesIndex.normalizeToolId id) = true := by
  unfold TypesIndex.normalizeToolId
  by_cases h : isValidToolId id
  · simp [h]
  · rw [if_neg (by simpa using h)]
    unfold isValidToolId
    refine (Bool.and_eq_true _ _).mpr ⟨by simp, ?_⟩
    rw [List.all_eq_true]
    intro x hx
    rcases List.mem_map.mp hx with ⟨i, _, rfl⟩
    exact idChars_getD_alnum _
theorem memOfGet {α : Type} {l : List α} {i : Nat} {a : α} (h : l[i]? = some a) :
    a ∈ l := by
  rcases List.getElem?_eq_some.mp h with ⟨hlt, rfl⟩
  exact List.getElem_mem hlt

theorem PAsstId_of_call (msgs : List OMsg) (msg : OMsg) (call : OToolCall)
    (hm : msg ∈ msgs) (hr : msg.role = str ("assistant"))
    (ht : msg.tool_calls.isSome = true) (hc : call ∈ msg.tool_calls.getD [])
    (hne : ¬call.id = []) : PAsstId msgs call.id :=
  ⟨msg, hm, ⟨hr, ht⟩, ⟨call, hc, rfl⟩, hne⟩

theorem normalizeOpenAIToolIds_get (req : OpenAIReq) (i : Nat) (msg : OMsg)
    (h : req.messages[i]? = some msg) :
    (TypesIndex.normalizeOpenAIToolIds req).messages[i]? =
      some (TypesIndex.normalizeMsg
        (collectToolIds TypesIndex.normalizeToolId req.messages) msg) := by
  unfold TypesIndex.normalizeOpenAIToolIds
  have hi : i < req.messages.length := (List.getElem?_eq_some.mp h).1
  dsimp only
  split
  · rw [List.getElem?_append, if_pos (by simpa using hi), List.getElem?_map, h]
    rfl
  · rw [List.getElem?_map, h]
    rfl
/-- C3 (amended): `normalizeOpenAIToolIds` (src/types/index.ts) builds one
request-scoped map from the *non-empty* ids appearing on assistant
`tool_calls`, rewrites each such tool_call id to its 9-alphanumeric
`normalizeToolId` image (an id that is the empty string is left unchanged,
and in particular not made 9-alphanumeric), rewrites every tool message whose
`tool_call_id` equals one of those ids to the same mapped value (so matching
tool_use/tool_result pairs keep referential integrity), leaves a
`tool_call_id` matching no assistant tool_call unchanged, and leaves all
other messages untouched. -/
theorem claim_C3 (req : OpenAIReq) :
    (∀ id, isValidToolId (TypesIndex.normalizeToolId id) = true)
    ∧ (∀ (i : Nat) (msg : OMsg), req.messages[i]? = some msg →
        msg.role = str ("assistant") → msg.tool_calls.isSome = true →
        ((TypesIndex.normalizeOpenAIToolIds req).messages[i]?).bind (·.tool_calls) =
          some ((msg.tool_calls.getD []).map (fun call =>
            { call with id := if call.id = [] then call.id
                              else TypesIndex.normalizeToolId call.id })))
    ∧ (∀ (i : Nat) (msg : OMsg), req.messages[i]? = some msg →
        msg.role = str ("tool") → strTruthy msg.tool_call_id = true →
        ((TypesIndex.normalizeOpenAIToolIds req).messages[i]?).bind (·.tool_call_id) =
          some (if PAsstId req.messages (msg.tool_call_id.getD [])
            then TypesIndex.normalizeToolId (msg.tool_call_id.getD [])
            else msg.tool_call_id.getD []))
    ∧ (∀ (i : Nat) (msg : OMsg), req.messages[i]? = some msg →
        ¬(msg.role = str ("assistant") ∧ msg.tool_calls.isSome = true) →
        ¬(msg.role = str ("tool") ∧ strTruthy msg.tool_call_id = true) →
        (TypesIndex.normalizeOpenAIToolIds req).messages[i]? = some msg) := by
  refine ⟨normalizeToolId_valid, ?_, ?_, ?_⟩
  · intro i msg h hr ht
    rw [normalizeOpenAIToolIds_get req i msg h]
    unfold TypesIndex.normalizeMsg
    rw [if_pos (by simp [hr, ht])]
    rw [Option.some_bind]
    dsimp only
    congr 1
    apply List.map_congr_left
    intro call hc
    by_cases hne : call.id = []
    · rw [if_pos hne, mLookup_collect]
      have hnP : ¬PAsstId req.messages call.id := by
        rintro ⟨m, -, -, -, hk⟩
        exact hk hne
      rw [if_neg hnP]
      rfl
    · rw [if_neg hne, mLookup_collect]
      rw [if_pos (PAsstId_of_call req.messages msg call (memOfGet h) hr ht hc hne)]
      rfl
  · intro i msg h hr htr
    rw [normalizeOpenAIToolIds_get req i msg h]
    unfold TypesIndex.normalizeMsg
    have hneq : ¬(str ("tool") = str ("assistant")) := by decide
    rw [if_neg (by simp [hr]; intro hra; exact absurd (hr ▸ hra) hneq)]
    rw [if_pos (by simp [hr, htr])]
    rw [Option.some_bind]
    dsimp only
    rw [mLookup_collect]
    by_cases hP : PAsstId req.messages (msg.tool_call_id.getD [])
    · rw [if_pos hP, if_pos hP]
      rfl
    · rw [if_neg hP, if_neg hP]
      rfl
  · intro i msg h h1 h2
    rw [normalizeOpenAIToolIds_get req i msg h]
    unfold TypesIndex.normalizeMsg
    rw [if_neg (by simpa [Bool.and_eq_true] using h1)]
    rw [if_neg (by simpa [Bool.and_eq_true] using h2)]
/-- Request whose assistant tool call has an empty-string id. -/
def c3Req : OpenAIReq :=
  { messages := [{ role := str ("assistant"), tool_calls := some [{ id := [] }] }] }

/-- C3 counterexample: an id that is the empty string appears on an assistant
tool_call but is *not* rewritten to a 9-alphanumeric value — JS truthiness
skips it in the collection sweep, so it survives unchanged (and the empty
string is not 9-alphanumeric). -/
theorem claim_C3_counterexample :
    (((TypesIndex.normalizeOpenAIToolIds c3Req).messages.head?.bind
        (·.tool_calls)).getD []).map (·.id) = [[]]
    ∧ isValidToolId [] = false :=
  ⟨by decide, by decide⟩

/-- The S2 assistant tool call. -/
def c3Call : OToolCall :=
  { id := str ("toolu_01ABCDEFGH"),
    function := some { name := some (str ("bash")), arguments := some (str ("\x7b\x7d")) } }

/-- The S2 assistant message. -/
def c3AsstMsg : OMsg := { role := str ("assistant"), tool_calls := some [c3Call] }

/-- The S2 tool-result message, referencing the same id. -/
def c3ToolMsg : OMsg :=
  { role := str ("tool"), content := OContent.s (str ("a.txt")),
    tool_call_id := some (str ("toolu_01ABCDEFGH")) }

/-- The S2 request. -/
def c3Req2 : OpenAIReq := { messages := [c3AsstMsg, c3ToolMsg] }

/-- C3 witness: the S2 tool message's `tool_call_id` is rewritten to the
mapped value of the assistant's tool_call id. -/
theorem claim_C3_witness :
    strTruthy c3ToolMsg.tool_call_id = true
    ∧ ((TypesIndex.normalizeOpenAIToolIds c3Req2).messages[1]?).bind (·.tool_call_id) =
        some (if PAsstId c3Req2.messages (c3ToolMsg.tool_call_id.getD [])
          then TypesIndex.normalizeToolId (c3ToolMsg.tool_call_id.getD [])
          else c3ToolMsg.tool_call_id.getD []) :=
  ⟨by decide, (claim_C3 c3Req2).2.2.1 1 c3ToolMsg (by rfl) (by decide) (by decide)⟩
-- ===========================================================================
-- C10: normalizeOpenAIToolIds (argument sanitization, src/utils/convert.ts
-- variant, used by the OpenAI chat route pipeline)
-- ===========================================================================

/-- A concrete stand-in for `JSON.parse` in witnesses: accepts exactly the
text `{}`. -/
def jpStub : Str → Option Js :=
  fun s => if s = str ("\x7b\x7d") then some (Js.obj []) else none

theorem convertNormalize_get (jp : Str → Option Js) (req : OpenAIReq) (i : Nat)
    (msg : OMsg) (h : req.messages[i]? = some msg) :
    (Convert.normalizeOpenAIToolIds jp req).messages[i]? =
      some (Convert.normalizeMsg jp
        (collectToolIds Convert.normalizeToolId req.messages) msg) := by
  unfold Convert.normalizeOpenAIToolIds
  dsimp only
  rw [List.getElem?_map, h]
  rfl

/-- C10 (amended): in the output of the src/utils/convert.ts
`normalizeOpenAIToolIds` variant, every *assistant* tool_call's
`function.arguments` is a string accepted by `JSON.parse` — an unparsable,
missing or empty value is silently replaced by `"{}"` — and no *assistant*
tool_call retains an `index` field (a tool_call carried by a non-assistant
message is left untouched, index included); every message keeps its role and
content, the list length is preserved, and messages that are neither
assistant-with-tool_calls nor tool-with-id are unchanged. -/
theorem claim_C10 (jp : Str → Option Js) (req : OpenAIReq)
    (hjp : (jp (str ("\x7b\x7d"))).isSome = true) :
    (Convert.normalizeOpenAIToolIds jp req).messages.length = req.messages.length
    ∧ (∀ (i : Nat) (msg : OMsg), req.messages[i]? = some msg →
        ((Convert.normalizeOpenAIToolIds jp req).messages[i]?).map (·.role) = some msg.role
        ∧ ((Convert.normalizeOpenAIToolIds jp req).messages[i]?).map (·.content) = some msg.content)
    ∧ (∀ (i : Nat) (msg : OMsg), req.messages[i]? = some msg →
        msg.role = str ("assistant") → msg.tool_calls.isSome = true →
        ∀ call ∈ (((Convert.normalizeOpenAIToolIds jp req).messages[i]?).bind
            (·.tool_calls)).getD [],
          call.index = none ∧
          ∃ fn a, call.function = some fn ∧ fn.arguments = some a ∧
            (jp a).isSome = true)
    ∧ (∀ (i : Nat) (msg : OMsg), req.messages[i]? = some msg →
        ¬(msg.role = str ("assistant") ∧ msg.tool_calls.isSome = true) →
        ¬(msg.role = str ("tool") ∧ strTruthy msg.tool_call_id = true) →
        (Convert.normalizeOpenAIToolIds jp req).messages[i]? = some msg) := by
  refine ⟨?_, ?_, ?_, ?_⟩
  · unfold Convert.normalizeOpenAIToolIds
    simp
  · intro i msg h
    rw [convertNormalize_get jp req i msg h]
    unfold Convert.normalizeMsg
    split
    · exact ⟨rfl, rfl⟩
    · split
      · exact ⟨rfl, rfl⟩
      · exact ⟨rfl, rfl⟩
  · intro i msg h hr ht call hc
    rw [convertNormalize_get jp req i msg h] at hc
    unfold Convert.normalizeMsg at hc
    rw [if_pos (by simp [hr, ht])] at hc
    rw [Option.some_bind] at hc
    dsimp only at hc
    rcases List.mem_map.mp hc with ⟨call0, -, rfl⟩
    unfold Convert.normalizeCall
    refine ⟨rfl, ?_⟩
    dsimp only
    cases hparse : jp (if strTruthy (call0.function.getD {}).arguments then
        ((call0.function.getD {}).arguments).getD [] else str ("\x7b\x7d")) with
    | some v =>
      refine ⟨_, _, rfl, rfl, ?_⟩
      rw [hparse]
      rfl
    | none =>
      exact ⟨_, _, rfl, rfl, hjp⟩
  · intro i msg h h1 h2
    rw [convertNormalize_get jp req i msg h]
    unfold Convert.normalizeMsg
    rw [if_neg (by simpa [Bool.and_eq_true] using h1)]
    rw [if_neg (by simpa [Bool.and_eq_true] using h2)]
/-- A request whose *user* message carries an indexed tool_call. -/
def c10Req : OpenAIReq :=
  { messages :=
      [{ role := str ("user"),
         tool_calls := some [{ id := str ("abc123XYZ"), index := some 0 }] }] }

/-- C10 counterexample: a tool_call carried by a non-assistant message keeps
its `index` field in the output, so "no tool_call in the output retains an
index field" is false as stated. -/
theorem claim_C10_counterexample :
    (((Convert.normalizeOpenAIToolIds (fun _ => none) c10Req).messages.head?.bind
        (·.tool_calls)).getD []).map (·.index) = [some 0] := by
  decide

/-- Input assistant tool call with unparsable arguments and an index. -/
def c10InCall : OToolCall :=
  { id := str ("abc123XYZ"),
    function := some { name := some (str ("f")), arguments := some (str ("not json")) },
    index := some 3 }

/-- Input assistant message for the C10 witness. -/
def c10AsstMsg : OMsg := { role := str ("assistant"), tool_calls := some [c10InCall] }

/-- Input request for the C10 witness. -/
def c10Req2 : OpenAIReq := { messages := [c10AsstMsg] }

/-- Expected output call: index stripped, arguments replaced by `{}`. -/
def c10OutCall : OToolCall :=
  { id := str ("abc123XYZ"),
    function := some { name := some (str ("f")), arguments := some (str ("\x7b\x7d")) },
    index := none }

/-- C10 witness: on a concrete assistant tool call with unparsable arguments,
the output call has no index and arguments that `JSON.parse` accepts. -/
theorem claim_C10_witness :
    (jpStub (str ("\x7b\x7d"))).isSome = true
    ∧ c10OutCall.index = none
    ∧ (∃ fn a, c10OutCall.function = some fn ∧ fn.arguments = some a ∧
        (jpStub a).isSome = true) := by
  refine ⟨by decide, ?_, ?_⟩
  all_goals
    have hmem : c10OutCall ∈ (((Convert.normalizeOpenAIToolIds jpStub c10Req2).messages[0]?).bind
        (·.tool_calls)).getD [] := by
      have he : (((Convert.normalizeOpenAIToolIds jpStub c10Req2).messages[0]?).bind
          (·.tool_calls)).getD [] = [c10OutCall] := rfl
      rw [he]
      exact List.mem_singleton.mpr rfl
    have hres := (claim_C10 jpStub c10Req2 (by decide)).2.2.1 0 c10AsstMsg rfl
      (by decide) (by decide) c10OutCall hmem
  · exact hres.1
  · exact hres.2
-- ===========================================================================
-- C2: anthropicToOpenAI sequence invariants
-- ===========================================================================

/-- The message has `assistant` role and at least one `tool_use` block (the
guard of the tool-call branch of `convertMessage`). -/
def isAsstToolUseMsg (m : AMessage) : Bool :=
  match m.content with
  | .s _ => false
  | .blocks l =>
    (m.role = str ("assistant")) && decide ((l.filter (fun b => b.btype = str ("tool_use"))).length > 0)

/-- The message has `user` role and at least one `tool_result` block (the
guard of the tool-result branch of `convertMessage`). -/
def isToolResultMsg (m : AMessage) : Bool :=
  match m.content with
  | .s _ => false
  | .blocks l =>
    (m.role = str ("user")) && decide ((l.filter (fun b => b.btype = str ("tool_result"))).length > 0)

/-- The role every OpenAI message produced from `m` carries. -/
def outRole (m : AMessage) : Str :=
  if isAsstToolUseMsg m then str ("assistant")
  else if isToolResultMsg m then str ("tool")
  else m.role

/-- Adjacency property of the outbound list: no `user` directly after a
`tool`. -/
def RRel (m1 m2 : OMsg) : Prop :=
  m1.role = str ("tool") → ¬m2.role = str ("user")

/-- Adjacency hypothesis on the source request: a user message carrying
tool_result blocks is never directly followed by a plain user message. -/
def SRel (m1 m2 : AMessage) : Prop :=
  isToolResultMsg m1 = true → (¬m2.role = str ("user") ∨ isToolResultMsg m2 = true)

theorem convertMessage_ne_nil (jstr : Option Js → Str) (jb : ABlock → Str)
    (m : AMessage) : TypesIndex.convertMessage jstr jb m ≠ [] := by
  unfold TypesIndex.convertMessage
  cases m.content with
  | s v => simp
  | blocks l =>
    dsimp only
    split
    · simp
    · split
      · rename_i hcond
        intro hmap
        rw [List.map_eq_nil_iff] at hmap
        rw [hmap] at hcond
        simp at hcond
      · simp

theorem convertMessage_roles (jstr : Option Js → Str) (jb : ABlock → Str)
    (m : AMessage) :
    ∀ m' ∈ TypesIndex.convertMessage jstr jb m,
      m'.role = outRole m ∧ m'.tool_calls.isSome = isAsstToolUseMsg m := by
  intro m' hm'
  unfold TypesIndex.convertMessage at hm'
  cases hc : m.content with
  | s v =>
    rw [hc] at hm'
    have hA : isAsstToolUseMsg m = false := by unfold isAsstToolUseMsg; rw [hc]
    have hT : isToolResultMsg m = false := by unfold isToolResultMsg; rw [hc]
    rcases List.mem_singleton.mp hm' with rfl
    refine ⟨?_, by simp [hA]⟩
    unfold outRole
    rw [hA, hT]
    rfl
  | blocks l =>
    rw [hc] at hm'
    dsimp only at hm'
    have hA : isAsstToolUseMsg m =
        ((m.role = str ("assistant")) &&
          decide ((l.filter (fun b => b.btype = str ("tool_use"))).length > 0)) := by
      unfold isAsstToolUseMsg
      rw [hc]
    have hT : isToolResultMsg m =
        ((m.role = str ("user")) &&
          decide ((l.filter (fun b => b.btype = str ("tool_result"))).length > 0)) := by
      unfold isToolResultMsg
      rw [hc]
    split at hm'
    · rename_i hcond
      rcases List.mem_singleton.mp hm' with rfl
      have hA' : isAsstToolUseMsg m = true := by rw [hA]; exact hcond
      refine ⟨?_, by simp [hA']⟩
      unfold outRole
      rw [hA']
      rfl
    · rename_i hcond1
      have hA' : isAsstToolUseMsg m = false := by
        rw [hA]
        exact Bool.not_eq_true _ ▸ (by simpa using hcond1)
      split at hm'
      · rename_i hcond2
        have hT' : isToolResultMsg m = true := by rw [hT]; exact hcond2
        rcases List.mem_map.mp hm' with ⟨b, -, rfl⟩
        refine ⟨?_, by simp [hA']⟩
        unfold outRole
        rw [hA', hT']
        rfl
      · rename_i hcond2
        have hT' : isToolResultMsg m = false := by
          rw [hT]
          exact Bool.not_eq_true _ ▸ (by simpa using hcond2)
        rcases List.mem_singleton.mp hm' with rfl
        refine ⟨?_, by simp [hA']⟩
        unfold outRole
        rw [hA', hT']
        rfl
theorem chain'_of_forall_mem {l : List OMsg}
    (h : ∀ a ∈ l, ∀ b ∈ l, RRel a b) : List.Chain' RRel l := by
  induction l with
  | nil => exact List.chain'_nil
  | cons a l ih =>
    cases l with
    | nil => exact List.chain'_singleton a
    | cons b l2 =>
      refine List.Chain'.cons (h a (by simp) b (by simp)) ?_
      exact ih (fun x hx y hy => h x (List.mem_cons_of_mem _ hx) y (List.mem_cons_of_mem _ hy))

theorem chain_block (jstr : Option Js → Str) (jb : ABlock → Str) (m : AMessage) :
    List.Chain' RRel (TypesIndex.convertMessage jstr jb m) := by
  apply chain'_of_forall_mem
  intro a ha b hb
  have hra := (convertMessage_roles jstr jb m a ha).1
  have hrb := (convertMessage_roles jstr jb m b hb).1
  intro htool hbu
  rw [hra] at htool
  rw [hrb] at hbu
  rw [htool] at hbu
  exact absurd hbu (by decide)

theorem outRole_eq_tool (m : AMessage)
    (h3 : m.role = str ("user") ∨ m.role = str ("assistant"))
    (ht : outRole m = str ("tool")) : isToolResultMsg m = true := by
  unfold outRole at ht
  by_cases hA : isAsstToolUseMsg m = true
  · rw [if_pos hA] at ht
    exact absurd ht (by decide)
  · rw [if_neg hA] at ht
    by_cases hT : isToolResultMsg m = true
    · exact hT
    · rw [if_neg hT] at ht
      rcases h3 with h3 | h3 <;> rw [h3] at ht <;> exact absurd ht (by decide)

theorem isToolResultMsg_role (m : AMessage) (h : isToolResultMsg m = true) :
    m.role = str ("user") := by
  unfold isToolResultMsg at h
  cases hc : m.content with
  | s v => rw [hc] at h; cases h
  | blocks l =>
    rw [hc] at h
    exact of_decide_eq_true ((Bool.and_eq_true _ _).mp h).1

theorem isAsstToolUseMsg_role (m : AMessage) (h : isAsstToolUseMsg m = true) :
    m.role = str ("assistant") := by
  unfold isAsstToolUseMsg at h
  cases hc : m.content with
  | s v => rw [hc] at h; cases h
  | blocks l =>
    rw [hc] at h
    exact of_decide_eq_true ((Bool.and_eq_true _ _).mp h).1

theorem outRole_not_user (m : AMessage)
    (h : ¬m.role = str ("user") ∨ isToolResultMsg m = true) :
    ¬outRole m = str ("user") := by
  unfold outRole
  by_cases hA : isAsstToolUseMsg m = true
  · rw [if_pos hA]
    decide
  · rw [if_neg hA]
    by_cases hT : isToolResultMsg m = true
    · rw [if_pos hT]
      decide
    · rw [if_neg hT]
      rcases h with h | h
      · exact h
      · exact absurd h hT
theorem flatten_conv_ne_nil (jstr : Option Js → Str) (jb : ABlock → Str)
    (msgs : List AMessage) (h : msgs ≠ []) :
    (msgs.map (TypesIndex.convertMessage jstr jb)).flatten ≠ [] := by
  cases msgs with
  | nil => exact absurd rfl h
  | cons m ms =>
    rw [List.map_cons, List.flatten_cons]
    intro hc
    exact convertMessage_ne_nil jstr jb m (List.append_eq_nil.mp hc).1

theorem flatten_conv_head (jstr : Option Js → Str) (jb : ABlock → Str)
    (m : AMessage) (msgs : List AMessage) :
    ((m :: msgs).map (TypesIndex.convertMessage jstr jb)).flatten.head? =
      (TypesIndex.convertMessage jstr jb m).head? := by
  rw [List.map_cons, List.flatten_cons]
  cases hc : TypesIndex.convertMessage jstr jb m with
  | nil => exact absurd hc (convertMessage_ne_nil jstr jb m)
  | cons a l => simp

theorem flatten_conv_last (jstr : Option Js → Str) (jb : ABlock → Str) :
    ∀ (msgs : List AMessage) (mN : AMessage), msgs.getLast? = some mN →
    (msgs.map (TypesIndex.convertMessage jstr jb)).flatten.getLast? =
      (TypesIndex.convertMessage jstr jb mN).getLast?
  | [], mN, h => by cases h
  | [m], mN, h => by
    rcases Option.some.inj h with rfl
    simp
  | m :: m2 :: ms, mN, h => by
    rw [List.getLast?_cons_cons] at h
    rw [List.map_cons, List.flatten_cons,
      List.getLast?_append_of_ne_nil _ (flatten_conv_ne_nil jstr jb (m2 :: ms) (by simp))]
    exact flatten_conv_last jstr jb (m2 :: ms) mN h

theorem chain_flatten (jstr : Option Js → Str) (jb : ABlock → Str)
    (msgs : List AMessage)
    (h3 : ∀ m ∈ msgs, m.role = str ("user") ∨ m.role = str ("assistant"))
    (h2 : List.Chain' SRel msgs) :
    List.Chain' RRel ((msgs.map (TypesIndex.convertMessage jstr jb)).flatten) := by
  induction msgs with
  | nil => simp
  | cons m ms ih =>
    rw [List.map_cons, List.flatten_cons]
    refine List.Chain'.append (chain_block jstr jb m)
      (ih (fun m' hm' => h3 m' (List.mem_cons_of_mem _ hm')) h2.tail) ?_
    intro x hx y hy
    have hxm : x ∈ TypesIndex.convertMessage jstr jb m := List.mem_of_mem_getLast? hx
    have hxr := (convertMessage_roles jstr jb m x hxm).1
    cases ms with
    | nil => simp at hy
    | cons m2 ms' =>
      rw [flatten_conv_head jstr jb m2 ms'] at hy
      have hym : y ∈ TypesIndex.convertMessage jstr jb m2 := List.mem_of_mem_head? hy
      have hyr := (convertMessage_roles jstr jb m2 y hym).1
      intro hxt
      rw [hxr] at hxt
      have hTm : isToolResultMsg m = true :=
        outRole_eq_tool m (h3 m (by simp)) hxt
      have hS : SRel m m2 := (List.chain'_cons.mp h2).1
      rw [hyr]
      exact outRole_not_user m2 (hS hTm)
/-- The sentinel `user: "Continue."` message. -/
def continueMsg : OMsg := { role := str ("user"), content := OContent.s (str ("Continue.")) }

theorem anthropicToOpenAI_messages (jstr : Option Js → Str) (jb : ABlock → Str)
    (req : AnthropicReq) (options : TypesIndex.ConvertOptions) :
    ∃ pre : List OMsg, (∀ m' ∈ pre, m'.role = str ("system")) ∧
      (TypesIndex.anthropicToOpenAI jstr jb req options).messages =
        (if ((((pre ++ (req.messages.map (TypesIndex.convertMessage jstr jb)).flatten).getLast?.map
              (·.role)).getD [] = str ("assistant"))
            && !(((pre ++ (req.messages.map (TypesIndex.convertMessage jstr jb)).flatten).getLast?.map
              (fun m => m.tool_calls.isSome)).getD false)) then
          (pre ++ (req.messages.map (TypesIndex.convertMessage jstr jb)).flatten) ++ [continueMsg]
        else pre ++ (req.messages.map (TypesIndex.convertMessage jstr jb)).flatten) := by
  refine ⟨(if options.useVisionPrompt then
      [{ role := str ("system"), content := .s TypesIndex.VISION_SYSTEM_PROMPT }]
    else []) ++
    (if TypesIndex.sysTruthy req.system then
      [{ role := str ("system"),
         content := .s (TypesIndex.systemText (req.system.getD (.s []))) }]
    else []), ?_, ?_⟩
  · intro m' hm'
    rcases List.mem_append.mp hm' with h | h
    · split at h
      · rcases List.mem_singleton.mp h with rfl
        rfl
      · cases h
    · split at h
      · rcases List.mem_singleton.mp h with rfl
        rfl
      · cases h
  · unfold TypesIndex.anthropicToOpenAI
    dsimp only
    rw [List.append_assoc]
    rfl
theorem isToolResultMsg_of_assistant (m : AMessage) (h : m.role = str ("assistant")) :
    isToolResultMsg m = false := by
  cases hT : isToolResultMsg m
  · rfl
  · have := isToolResultMsg_role m hT
    rw [h] at this
    exact absurd this (by decide)

theorem isAsstToolUseMsg_of_user (m : AMessage) (h : m.role = str ("user")) :
    isAsstToolUseMsg m = false := by
  cases hA : isAsstToolUseMsg m
  · rfl
  · have := isAsstToolUseMsg_role m hA
    rw [h] at this
    exact absurd this (by decide)

theorem full_getLast (jstr : Option Js → Str) (jb : ABlock → Str)
    (req : AnthropicReq) (pre : List OMsg) (h1 : req.messages ≠ []) :
    ∃ mlast m', req.messages.getLast? = some mlast ∧
      (pre ++ (req.messages.map (TypesIndex.convertMessage jstr jb)).flatten).getLast? = some m' ∧
      m'.role = outRole mlast ∧ m'.tool_calls.isSome = isAsstToolUseMsg mlast := by
  have hbodyne : (req.messages.map (TypesIndex.convertMessage jstr jb)).flatten ≠ [] :=
    flatten_conv_ne_nil jstr jb req.messages h1
  obtain ⟨mlast, hml⟩ : ∃ mlast, req.messages.getLast? = some mlast := by
    cases hh : req.messages.getLast? with
    | some x => exact ⟨x, rfl⟩
    | none => exact absurd (List.getLast?_eq_none_iff.mp hh) h1
  have hfull : (pre ++ (req.messages.map (TypesIndex.convertMessage jstr jb)).flatten).getLast? =
      (TypesIndex.convertMessage jstr jb mlast).getLast? := by
    rw [List.getLast?_append_of_ne_nil _ hbodyne]
    exact flatten_conv_last jstr jb req.messages mlast hml
  obtain ⟨m', hm'⟩ : ∃ m', (TypesIndex.convertMessage jstr jb mlast).getLast? = some m' := by
    cases hh : (TypesIndex.convertMessage jstr jb mlast).getLast? with
    | some x => exact ⟨x, rfl⟩
    | none => exact absurd (List.getLast?_eq_none_iff.mp hh) (convertMessage_ne_nil jstr jb mlast)
  have hmem : m' ∈ TypesIndex.convertMessage jstr jb mlast :=
    List.mem_of_mem_getLast? (Option.mem_def.mpr hm')
  have hroles := convertMessage_roles jstr jb mlast m' hmem
  exact ⟨mlast, m', hml, by rw [hfull, hm'], hroles.1, hroles.2⟩

/-- C2 (amended): for an Anthropic request with at least one message, whose
message roles are `user`/`assistant` (the declared type), and in which a
user message carrying tool_result blocks is never directly followed by a
plain user message, the outbound list has no `user` directly after a `tool`;
its last role is `user` or `tool` or an *assistant message carrying
tool_calls* (a trailing Anthropic assistant `tool_use` turn is forwarded
as-is, so "never assistant" fails in general); the `Continue.` sentinel is
appended exactly when the list would otherwise end with an assistant message
without tool_calls, and nothing is appended after a trailing tool message. -/
theorem claim_C2 (jstr : Option Js → Str) (jb : ABlock → Str)
    (req : AnthropicReq) (options : TypesIndex.ConvertOptions)
    (h1 : req.messages ≠ [])
    (h3 : ∀ m ∈ req.messages, m.role = str ("user") ∨ m.role = str ("assistant"))
    (h2 : List.Chain' SRel req.messages) :
    List.Chain' RRel (TypesIndex.anthropicToOpenAI jstr jb req options).messages
    ∧ (∀ m', (TypesIndex.anthropicToOpenAI jstr jb req options).messages.getLast? = some m' →
        m'.role = str ("user") ∨ m'.role = str ("tool") ∨
          (m'.role = str ("assistant") ∧ m'.tool_calls.isSome = true))
    ∧ (∀ mlast, req.messages.getLast? = some mlast → isToolResultMsg mlast = true →
        ((TypesIndex.anthropicToOpenAI jstr jb req options).messages.getLast?).map (·.role) =
          some (str ("tool")))
    ∧ (∀ mlast, req.messages.getLast? = some mlast → mlast.role = str ("assistant") →
        isAsstToolUseMsg mlast = false →
        (TypesIndex.anthropicToOpenAI jstr jb req options).messages.getLast? =
          some continueMsg) := by
  obtain ⟨pre, hpre, hmsgs⟩ := anthropicToOpenAI_messages jstr jb req options
  obtain ⟨mlast, m', hml, hfl, hrole, htc⟩ := full_getLast jstr jb req pre h1
  have hmlmem : mlast ∈ req.messages := List.mem_of_mem_getLast? (Option.mem_def.mpr hml)
  have hfull_chain : List.Chain' RRel
      (pre ++ (req.messages.map (TypesIndex.convertMessage jstr jb)).flatten) := by
    refine List.Chain'.append ?_ (chain_flatten jstr jb req.messages h3 h2) ?_
    · apply chain'_of_forall_mem
      intro a ha b hb htool _
      have hs := hpre a ha
      rw [hs] at htool
      exact absurd htool (by decide)
    · intro x hx y hy htool
      have hs := hpre x (List.mem_of_mem_getLast? hx)
      rw [hs] at htool
      exact absurd htool (by decide)
  have hcond : ((((pre ++ (req.messages.map (TypesIndex.convertMessage jstr jb)).flatten).getLast?.map
        (·.role)).getD [] = str ("assistant"))
      && !(((pre ++ (req.messages.map (TypesIndex.convertMessage jstr jb)).flatten).getLast?.map
        (fun m => m.tool_calls.isSome)).getD false)) =
      ((outRole mlast = str ("assistant")) && !(isAsstToolUseMsg mlast)) := by
    rw [hfl]
    simp only [Option.map_some', Option.getD_some, hrole, htc]
  refine ⟨?_, ?_, ?_, ?_⟩
  · rw [hmsgs]
    split
    · rename_i hb
      refine List.Chain'.append hfull_chain (List.chain'_singleton _) ?_
      intro x hx y hy htool
      rw [hcond] at hb
      have hx' : x = m' := by
        have h0 := Option.mem_def.mp hx
        rw [hfl] at h0
        exact (Option.some.inj h0).symm
      have hassist : outRole mlast = str ("assistant") :=
        of_decide_eq_true ((Bool.and_eq_true _ _).mp hb).1
      rw [hx', hrole, hassist] at htool
      exact absurd htool (by decide)
    · exact hfull_chain
  · intro mx hmx
    rw [hmsgs] at hmx
    split at hmx
    · rename_i hb
      rw [List.getLast?_append_of_ne_nil _ (by simp)] at hmx
      simp only [List.getLast?_singleton] at hmx
      rcases Option.some.inj hmx with rfl
      exact Or.inl rfl
    · rename_i hb
      rw [hcond] at hb
      rw [hfl] at hmx
      rcases Option.some.inj hmx with rfl
      cases hA : isAsstToolUseMsg mlast with
      | true =>
        refine Or.inr (Or.inr ⟨?_, ?_⟩)
        · rw [hrole]
          unfold outRole
          rw [if_pos hA]
        · rw [htc, hA]
      | false =>
        cases hT : isToolResultMsg mlast with
        | true =>
          refine Or.inr (Or.inl ?_)
          rw [hrole]
          unfold outRole
          rw [if_neg (by rw [hA]; exact Bool.false_ne_true), if_pos hT]
        | false =>
          have hor : outRole mlast = mlast.role := by
            unfold outRole
            rw [if_neg (by rw [hA]; exact Bool.false_ne_true),
              if_neg (by rw [hT]; exact Bool.false_ne_true)]
          rcases h3 mlast hmlmem with hu | ha
          · exact Or.inl (by rw [hrole, hor, hu])
          · exfalso
            apply hb
            rw [hor, ha, hA]
            decide
  · intro ml2 hml2 hTml
    rw [hml] at hml2
    rcases Option.some.inj hml2 with rfl
    have hA : isAsstToolUseMsg mlast = false :=
      isAsstToolUseMsg_of_user mlast (isToolResultMsg_role mlast hTml)
    have hor : outRole mlast = str ("tool") := by
      unfold outRole
      rw [if_neg (by rw [hA]; exact Bool.false_ne_true), if_pos hTml]
    have hb : ((outRole mlast = str ("assistant")) && !(isAsstToolUseMsg mlast)) = false := by
      rw [hor]
      refine Bool.and_eq_false_iff.mpr (Or.inl ?_)
      decide
    rw [hmsgs]
    rw [if_neg (by rw [hcond, hb]; exact Bool.false_ne_true)]
    rw [hfl]
    simp only [Option.map_some']
    rw [hrole, hor]
  · intro ml2 hml2 hra hAf
    rw [hml] at hml2
    rcases Option.some.inj hml2 with rfl
    have hT : isToolResultMsg mlast = false := isToolResultMsg_of_assistant mlast hra
    have hor : outRole mlast = str ("assistant") := by
      unfold outRole
      rw [if_neg (by rw [hAf]; exact Bool.false_ne_true),
        if_neg (by rw [hT]; exact Bool.false_ne_true), hra]
    have hb : ((outRole mlast = str ("assistant")) && !(isAsstToolUseMsg mlast)) = true := by
      rw [hor, hAf]
      simp
    rw [hmsgs]
    rw [if_pos (by rw [hcond]; exact hb)]
    rw [List.getLast?_append_of_ne_nil _ (by simp)]
    simp
instance (m1 m2 : AMessage) : Decidable (SRel m1 m2) := by
  unfold SRel
  infer_instance

/-- A tool_result block referencing an already-valid 9-alphanumeric id. -/
def c2B1 : ABlock :=
  { btype := str ("tool_result"), tool_use_id := some (str ("abc123XYZ")),
    content := some (Js.jstr (str ("a.txt"))) }

/-- A tool_use block with the same id. -/
def c2B3 : ABlock :=
  { btype := str ("tool_use"), id := some (str ("abc123XYZ")),
    name := some (str ("bash")), input := some (Js.obj []) }

/-- Counterexample request for C2: a tool_result turn, then a plain user
turn, then a trailing assistant tool_use turn. -/
def c2Req : AnthropicReq :=
  { messages :=
      [ { role := str ("user"), content := .blocks [c2B1] },
        { role := str ("user"), content := .s (str ("hi")) },
        { role := str ("assistant"), content := .blocks [c2B3] } ] }

/-- C2 counterexample: the outbound roles are `[tool, user, assistant]` — a
`user` message directly follows a `tool` message, and the list ends with an
`assistant` message (a trailing tool_use turn gets no sentinel). -/
theorem claim_C2_counterexample :
    ((TypesIndex.anthropicToOpenAI (fun _ => str ("null")) (fun _ => []) c2Req {}).messages.map
        (·.role)) = [str ("tool"), str ("user"), str ("assistant")]
    ∧ (((TypesIndex.anthropicToOpenAI (fun _ => str ("null")) (fun _ => []) c2Req {}).messages.getLast?).map
        (·.role)) = some (str ("assistant")) := by
  refine ⟨by decide, by decide⟩

/-- Scenario S3 request: the conversation ends with a bare assistant turn. -/
def c2WReq : AnthropicReq :=
  { messages := [{ role := str ("assistant"), content := AContent.s (str ("Hi")) }] }

/-- C2 witness (scenario S3): the outbound list ends with the `Continue.`
sentinel. -/
theorem claim_C2_witness :
    c2WReq.messages ≠ []
    ∧ (TypesIndex.anthropicToOpenAI (fun _ => []) (fun _ => []) c2WReq {}).messages.getLast? =
        some continueMsg :=
  ⟨List.cons_ne_nil _ _,
   (claim_C2 (fun _ => []) (fun _ => []) c2WReq {} (List.cons_ne_nil _ _)
     (by
       intro m hm
       rcases List.mem_singleton.mp hm with rfl
       exact Or.inr rfl)
     (List.chain'_singleton _)).2.2.2
     { role := str ("assistant"), content := AContent.s (str ("Hi")) } rfl rfl (by decide)⟩
-- ===========================================================================
-- Stream lemmas shared by C5 and C6 (TypesIndex machine)
-- ===========================================================================

theorem concatText_append (a b : List AEvent) :
    concatText (a ++ b) = concatText a ++ concatText b := by
  induction a with
  | nil => rfl
  | cons e a ih =>
    cases e <;> simp [concatText, ih]

theorem concatContent_append (a b : List StreamChunk) :
    concatContent (a ++ b) = concatContent a ++ concatContent b := by
  induction a with
  | nil => rfl
  | cons ch a ih => simp [concatContent, ih]

theorem tiRunChunks_append (cm : Bool) (jp : Str → Option Js)
    (a b : List StreamChunk) : ∀ s : TypesIndex.TIState,
    TypesIndex.runChunks cm jp s (a ++ b) =
      ((TypesIndex.runChunks cm jp (TypesIndex.runChunks cm jp s a).1 b).1,
       (TypesIndex.runChunks cm jp s a).2 ++
         (TypesIndex.runChunks cm jp (TypesIndex.runChunks cm jp s a).1 b).2) := by
  induction a with
  | nil => intro s; simp [TypesIndex.runChunks]
  | cons ch a ih =>
    intro s
    simp only [List.cons_append, TypesIndex.runChunks]
    cases hpc : TypesIndex.processChunk cm jp s ch with
    | mk s₁ es =>
      dsimp only
      simp only [List.append_eq]
      rw [ih s₁]
      dsimp only
      rw [List.append_assoc]

/-- The first choice (if any) carries no tool-call deltas. -/
def chunkNoTools (ch : StreamChunk) : Bool :=
  match ch.choices.head? with
  | some choice => choice.delta.tool_calls.getD [] = ([] : List ToolCallDelta)
  | none => true

/-- The first choice (if any) has a falsy finish_reason. -/
def chunkNoFinish (ch : StreamChunk) : Bool :=
  match ch.choices.head? with
  | some choice => !strTruthy choice.finish_reason
  | none => true

/-- The first choice exists and has a truthy finish_reason. -/
def chunkFinish (ch : StreamChunk) : Bool :=
  match ch.choices.head? with
  | some choice => strTruthy choice.finish_reason
  | none => false

theorem getD_nil_of_not_truthy (content : Option Str) (h : ¬strTruthy content = true) :
    content.getD [] = [] := by
  cases content with
  | none => rfl
  | some v =>
    cases v with
    | nil => rfl
    | cons a l => exact absurd rfl h

theorem isEmpty_false_of_length_pos (l : Str) (h : 0 < l.length) : l.isEmpty = false := by
  cases l with
  | nil => simp at h
  | cons a t => rfl

theorem ti_processContent_step (s : TypesIndex.TIState) (content : Option Str)
    (hd : s.mistralDetected = false)
    (hm : containsSeg toolCallsMarker (s.textBuffer ++ content.getD []) = false) :
    ∃ s' es, TypesIndex.processContent true s content = (s', es, false)
    ∧ concatText es ++ s'.textBuffer = s.textBuffer ++ content.getD []
    ∧ s'.mistralDetected = false := by
  unfold TypesIndex.processContent
  by_cases ht : strTruthy content = true
  · rw [if_neg (by simp [ht]), if_pos rfl]
    dsimp only
    rw [if_neg (by rw [hm]; exact Bool.false_ne_true)]
    by_cases hlen : (!s.mistralDetected &&
        decide ((s.textBuffer ++ content.getD []).length > 20)) = true
    · rw [if_pos hlen]
      have hlen' : (s.textBuffer ++ content.getD []).length > 20 :=
        of_decide_eq_true ((Bool.and_eq_true _ _).mp hlen).2
      have hsafe : ((s.textBuffer ++ content.getD []).take
          ((s.textBuffer ++ content.getD []).length - 20)).isEmpty = false := by
        apply isEmpty_false_of_length_pos
        rw [List.length_take]
        omega
      rw [if_pos (by rw [hsafe]; rfl)]
      refine ⟨_, _, rfl, ?_, hd⟩
      by_cases hf : s.isFirstContent = true
      · rw [if_pos hf]
        simp only [concatText, List.append_nil, List.cons_append, List.nil_append]
        exact List.take_append_drop _ _
      · rw [if_neg hf]
        simp only [concatText, List.append_nil, List.nil_append]
        exact List.take_append_drop _ _
    · rw [if_neg hlen]
      exact ⟨_, _, rfl, by simp [concatText], hd⟩
  · rw [if_pos (by simp [ht])]
    refine ⟨s, [], rfl, ?_, hd⟩
    rw [getD_nil_of_not_truthy content ht]
    simp [concatText]

theorem concatText_start_if (c : Prop) [Decidable c] (j : Nat) :
    concatText (if c then [AEvent.cb_start_text j] else []) = [] := by
  by_cases h : c <;> simp [h, concatText]

theorem concatText_stop_if (c : Prop) [Decidable c] (j : Nat) :
    concatText (if c then [AEvent.cb_stop j] else []) = [] := by
  by_cases h : c <;> simp [h, concatText]

theorem trackUsage_textBuffer (s : TypesIndex.TIState) (u : Option StreamUsage) :
    (TypesIndex.trackUsage s u).textBuffer = s.textBuffer := by
  cases u <;> rfl

theorem trackUsage_mistralDetected (s : TypesIndex.TIState) (u : Option StreamUsage) :
    (TypesIndex.trackUsage s u).mistralDetected = s.mistralDetected := by
  cases u <;> rfl

theorem ti_processToolCalls_nil (s : TypesIndex.TIState) (tcs : Option (List ToolCallDelta))
    (h : tcs.getD [] = []) :
    TypesIndex.processToolCalls s tcs = (s, []) := by
  cases tcs with
  | none => rfl
  | some l =>
    cases l with
    | nil => rfl
    | cons a t => simp [Option.getD] at h

theorem ti_processChunk_noFinish (jp : Str → Option Js) (s : TypesIndex.TIState)
    (ch : StreamChunk)
    (hd : s.mistralDetected = false)
    (hm : containsSeg toolCallsMarker (s.textBuffer ++ chunkContent ch) = false)
    (hnt : chunkNoTools ch = true)
    (hnf : chunkNoFinish ch = true) :
    (TypesIndex.processChunk true jp s ch).1.mistralDetected = false
    ∧ concatText (TypesIndex.processChunk true jp s ch).2 ++
        (TypesIndex.processChunk true jp s ch).1.textBuffer =
      s.textBuffer ++ chunkContent ch := by
  unfold TypesIndex.processChunk
  dsimp only
  cases hh : ch.choices.head? with
  | none =>
    dsimp only
    have hc : chunkContent ch = [] := by unfold chunkContent; rw [hh]
    rw [hc, List.append_nil]
    cases hu : ch.usage with
    | none =>
      dsimp only
      exact ⟨hd, by simp [TypesIndex.trackUsage, concatText]⟩
    | some u =>
      dsimp only
      by_cases hn : natTruthy u.completion_tokens = true
      · rw [if_pos hn]
        refine ⟨?_, ?_⟩
        · rw [trackUsage_mistralDetected]; exact hd
        · simp [concatText, trackUsage_textBuffer]
      · rw [if_neg hn]
        refine ⟨?_, ?_⟩
        · rw [trackUsage_mistralDetected]; exact hd
        · simp [concatText, trackUsage_textBuffer]
  | some choice =>
    dsimp only
    have hc : chunkContent ch = choice.delta.content.getD [] := by
      unfold chunkContent; rw [hh]
    have hd₀ : (TypesIndex.trackUsage s ch.usage).mistralDetected = false := by
      rw [trackUsage_mistralDetected]; exact hd
    have hm₀ : containsSeg toolCallsMarker
        ((TypesIndex.trackUsage s ch.usage).textBuffer ++ choice.delta.content.getD []) =
        false := by
      rw [trackUsage_textBuffer, ← hc]; exact hm
    obtain ⟨s', es, heq, hcat, hd'⟩ :=
      ti_processContent_step (TypesIndex.trackUsage s ch.usage) choice.delta.content hd₀ hm₀
    rw [heq]
    dsimp only
    have hnt' : choice.delta.tool_calls.getD [] = [] := by
      unfold chunkNoTools at hnt
      rw [hh] at hnt
      exact of_decide_eq_true hnt
    rw [ti_processToolCalls_nil s' choice.delta.tool_calls hnt']
    dsimp only
    have hnf' : strTruthy choice.finish_reason = false := by
      unfold chunkNoFinish at hnf
      rw [hh] at hnf
      simpa using hnf
    have hcond : (!strTruthy choice.finish_reason) = true := by rw [hnf']; rfl
    unfold TypesIndex.processFinish
    rw [if_pos hcond]
    dsimp only
    refine ⟨hd', ?_⟩
    simp only [if_neg Bool.false_ne_true]
    rw [concatText_append, concatText_append]
    simp only [concatText, List.append_nil]
    rw [hcat, trackUsage_textBuffer, hc]

theorem ti_processChunk_finish (jp : Str → Option Js) (s : TypesIndex.TIState)
    (ch : StreamChunk)
    (hd : s.mistralDetected = false)
    (hm : containsSeg toolCallsMarker (s.textBuffer ++ chunkContent ch) = false)
    (hnt : chunkNoTools ch = true)
    (hf : chunkFinish ch = true) :
    concatText (TypesIndex.processChunk true jp s ch).2 =
      s.textBuffer ++ chunkContent ch := by
  unfold TypesIndex.processChunk
  dsimp only
  cases hh : ch.choices.head? with
  | none =>
    unfold chunkFinish at hf
    rw [hh] at hf
    dsimp only at hf
    exact absurd hf Bool.false_ne_true
  | some choice =>
    dsimp only
    have hc : chunkContent ch = choice.delta.content.getD [] := by
      unfold chunkContent; rw [hh]
    have hd₀ : (TypesIndex.trackUsage s ch.usage).mistralDetected = false := by
      rw [trackUsage_mistralDetected]; exact hd
    have hm₀ : containsSeg toolCallsMarker
        ((TypesIndex.trackUsage s ch.usage).textBuffer ++ choice.delta.content.getD []) =
        false := by
      rw [trackUsage_textBuffer, ← hc]; exact hm
    obtain ⟨s', es, heq, hcat, hd'⟩ :=
      ti_processContent_step (TypesIndex.trackUsage s ch.usage) choice.delta.content hd₀ hm₀
    rw [heq]
    dsimp only
    have hnt' : choice.delta.tool_calls.getD [] = [] := by
      unfold chunkNoTools at hnt
      rw [hh] at hnt
      exact of_decide_eq_true hnt
    rw [ti_processToolCalls_nil s' choice.delta.tool_calls hnt']
    dsimp only
    have hf' : strTruthy choice.finish_reason = true := by
      unfold chunkFinish at hf
      rw [hh] at hf
      dsimp only at hf
      exact hf
    simp only [if_neg Bool.false_ne_true]
    have h1 : ¬((!strTruthy choice.finish_reason) = true) := by rw [hf']; simp
    unfold TypesIndex.processFinish
    rw [if_neg h1]
    dsimp only
    have h2 : ¬((true && s'.mistralDetected && !s'.textBuffer.isEmpty) = true) := by
      rw [hd']; simp
    rw [if_neg h2]
    by_cases hb : s'.textBuffer.isEmpty = true
    · have hnil : s'.textBuffer = [] := by
        cases htb : s'.textBuffer with
        | nil => rfl
        | cons a t => rw [htb] at hb; simp at hb
      have h3 : ¬((true && !s'.textBuffer.isEmpty && !s'.mistralDetected) = true) := by
        rw [hb]; simp
      rw [if_neg h3]
      dsimp only
      simp only [concatText_append, concatText_stop_if, concatText_start_if, concatText,
        List.append_nil, List.nil_append]
      have hcat' : concatText es = (TypesIndex.trackUsage s ch.usage).textBuffer ++
          choice.delta.content.getD [] := by
        rw [← hcat, hnil, List.append_nil]
      rw [hcat', trackUsage_textBuffer, hc]
    · have hb' : s'.textBuffer.isEmpty = false := by
        cases hbb : s'.textBuffer.isEmpty with
        | false => rfl
        | true => exact absurd hbb hb
      have h4 : (true && !s'.textBuffer.isEmpty && !s'.mistralDetected) = true := by
        rw [hb', hd']; rfl
      rw [if_pos h4]
      dsimp only
      simp only [concatText_append, concatText_stop_if, concatText_start_if, concatText,
        List.append_nil, List.nil_append]
      rw [hcat, trackUsage_textBuffer, hc]

theorem concatContent_nil : concatContent [] = [] := rfl

theorem concatContent_cons (ch : StreamChunk) (chs : List StreamChunk) :
    concatContent (ch :: chs) = chunkContent ch ++ concatContent chs := rfl

theorem containsSeg_false_left (p x y : Str)
    (h : containsSeg p (x ++ y) = false) : containsSeg p x = false := by
  cases hc : containsSeg p x with
  | false => rfl
  | true => rw [containsSeg_append_left p x y hc] at h; exact absurd h (by simp)

theorem containsSeg_false_right (p x y : Str)
    (h : containsSeg p (x ++ y) = false) : containsSeg p y = false := by
  cases hc : containsSeg p y with
  | false => rfl
  | true => rw [containsSeg_append_right p x y hc] at h; exact absurd h (by simp)

/-- Invariant run over finish-free, tool-free chunks in Mistral mode: no
detection occurs and the emitted text plus the retained buffer equals the
initial buffer plus the incoming content. -/
theorem ti_run_noFinish (jp : Str → Option Js) :
    ∀ (chunks : List StreamChunk) (s : TypesIndex.TIState),
    s.mistralDetected = false →
    containsSeg toolCallsMarker (s.textBuffer ++ concatContent chunks) = false →
    (∀ ch ∈ chunks, chunkNoTools ch = true) →
    (∀ ch ∈ chunks, chunkNoFinish ch = true) →
    (TypesIndex.runChunks true jp s chunks).1.mistralDetected = false
    ∧ containsSeg toolCallsMarker
        ((TypesIndex.runChunks true jp s chunks).1.textBuffer) = false
    ∧ concatText (TypesIndex.runChunks true jp s chunks).2 ++
        (TypesIndex.runChunks true jp s chunks).1.textBuffer =
      s.textBuffer ++ concatContent chunks := by
  intro chunks
  induction chunks with
  | nil =>
    intro s hd hm _ _
    refine ⟨hd, ?_, by simp [TypesIndex.runChunks, concatText, concatContent_nil]⟩
    unfold TypesIndex.runChunks
    simpa [concatContent_nil, concatContent_cons] using hm
  | cons ch rest ih =>
    intro s hd hm hnt hnf
    have hm₁ : containsSeg toolCallsMarker (s.textBuffer ++ chunkContent ch) = false := by
      apply containsSeg_false_left toolCallsMarker _ (concatContent rest)
      rw [List.append_assoc]
      simpa [concatContent_nil, concatContent_cons] using hm
    obtain ⟨hd₁, hcat₁⟩ := ti_processChunk_noFinish jp s ch hd hm₁
      (hnt ch (List.mem_cons_self ch rest))
      (hnf ch (List.mem_cons_self ch rest))
    have hm₂ : containsSeg toolCallsMarker
        ((TypesIndex.processChunk true jp s ch).1.textBuffer ++ concatContent rest) =
        false := by
      apply containsSeg_false_right toolCallsMarker
        (concatText (TypesIndex.processChunk true jp s ch).2)
      rw [← List.append_assoc, hcat₁, List.append_assoc]
      simpa [concatContent_nil, concatContent_cons] using hm
    obtain ⟨ih₁, ih₂, ih₃⟩ := ih (TypesIndex.processChunk true jp s ch).1 hd₁ hm₂
      (fun c hc => hnt c (List.mem_cons_of_mem ch hc))
      (fun c hc => hnf c (List.mem_cons_of_mem ch hc))
    unfold TypesIndex.runChunks
    dsimp only
    refine ⟨ih₁, ih₂, ?_⟩
    rw [concatText_append, List.append_assoc, ih₃, ← List.append_assoc, hcat₁]
    simp [concatContent_cons]

theorem ti_processContent_false (s : TypesIndex.TIState) (content : Option Str) :
    ∃ s' es, TypesIndex.processContent false s content = (s', es, false)
    ∧ concatText es = content.getD [] := by
  unfold TypesIndex.processContent
  by_cases ht : strTruthy content = true
  · rw [if_neg (by simp [ht]), if_neg Bool.false_ne_true]
    dsimp only
    refine ⟨_, _, rfl, ?_⟩
    rw [concatText_append, concatText_start_if]
    simp [concatText]
  · rw [if_pos (by simp [ht])]
    exact ⟨s, [], rfl, by rw [getD_nil_of_not_truthy content ht]; rfl⟩

theorem ti_processFinish_false (jp : Str → Option Js) (s : TypesIndex.TIState)
    (finish : Option Str) :
    concatText (TypesIndex.processFinish false jp s finish).2 = [] := by
  unfold TypesIndex.processFinish
  by_cases ht : strTruthy finish = true
  · rw [if_neg (by simp [ht])]
    dsimp only
    simp only [Bool.false_and, if_neg Bool.false_ne_true]
    simp [concatText_append, concatText_stop_if, concatText]
  · rw [if_pos (by simp [ht])]
    rfl

theorem ti_processChunk_false (jp : Str → Option Js) (s : TypesIndex.TIState)
    (ch : StreamChunk) (hnt : chunkNoTools ch = true) :
    concatText (TypesIndex.processChunk false jp s ch).2 = chunkContent ch := by
  unfold TypesIndex.processChunk
  dsimp only
  cases hh : ch.choices.head? with
  | none =>
    have hc : chunkContent ch = [] := by unfold chunkContent; rw [hh]
    rw [hc]
    cases hu : ch.usage with
    | none => dsimp only; rfl
    | some u =>
      dsimp only
      by_cases hn : natTruthy u.completion_tokens = true
      · rw [if_pos hn]; rfl
      · rw [if_neg hn]; rfl
  | some choice =>
    dsimp only
    have hc : chunkContent ch = choice.delta.content.getD [] := by
      unfold chunkContent; rw [hh]
    obtain ⟨s', es, heq, hcat⟩ :=
      ti_processContent_false (TypesIndex.trackUsage s ch.usage) choice.delta.content
    rw [heq]
    dsimp only
    have hnt' : choice.delta.tool_calls.getD [] = [] := by
      unfold chunkNoTools at hnt
      rw [hh] at hnt
      exact of_decide_eq_true hnt
    rw [ti_processToolCalls_nil s' choice.delta.tool_calls hnt']
    dsimp only
    simp only [if_neg Bool.false_ne_true]
    rw [concatText_append, concatText_append]
    simp only [concatText, List.append_nil]
    rw [ti_processFinish_false, List.append_nil, hcat, hc]

theorem ti_run_false (jp : Str → Option Js) :
    ∀ (chunks : List StreamChunk) (s : TypesIndex.TIState),
    (∀ ch ∈ chunks, chunkNoTools ch = true) →
    concatText (TypesIndex.runChunks false jp s chunks).2 = concatContent chunks := by
  intro chunks
  induction chunks with
  | nil => intro s _; rfl
  | cons ch rest ih =>
    intro s hnt
    unfold TypesIndex.runChunks
    dsimp only
    rw [concatText_append, ti_processChunk_false jp s ch (hnt ch (List.mem_cons_self ch rest)),
      ih _ (fun c hc => hnt c (List.mem_cons_of_mem ch hc)), concatContent_cons]

theorem tiRunChunks_singleton (cm : Bool) (jp : Str → Option Js)
    (s : TypesIndex.TIState) (ch : StreamChunk) :
    TypesIndex.runChunks cm jp s [ch] =
      ((TypesIndex.processChunk cm jp s ch).1,
        (TypesIndex.processChunk cm jp s ch).2 ++ []) := rfl

/-- C6 (amended): for every input stream whose chunks carry no tool-call
deltas, which (in Mistral inline mode) never accumulates the
`[TOOL_CALLS]` marker in its concatenated content, whose non-final chunks
carry no finish_reason and whose FINAL chunk carries a truthy
finish_reason, the concatenation of all text_delta payloads emitted by the
types/index.ts convertOpenAIStreamToAnthropic equals the concatenation of
all choices[0].delta.content strings of the input, in order.  (The
original claim allows finish_reason-bearing chunks before the end; the
counterexample shows the buffer is then flushed twice in Mistral mode.) -/
theorem claim_C6 (jp : Str → Option Js) (model : Str) (est : Nat)
    (pre : List StreamChunk) (last : StreamChunk)
    (hnt : ∀ ch ∈ pre ++ [last], chunkNoTools ch = true)
    (hmark : isMistralModel model = true →
      containsSeg toolCallsMarker (concatContent (pre ++ [last])) = false)
    (hnf : ∀ ch ∈ pre, chunkNoFinish ch = true)
    (hf : chunkFinish last = true) :
    concatText (TypesIndex.convertOpenAIStreamToAnthropic jp model est (pre ++ [last])) =
      concatContent (pre ++ [last]) := by
  unfold TypesIndex.convertOpenAIStreamToAnthropic
  dsimp only
  have htot : concatContent (pre ++ [last]) = concatContent pre ++ chunkContent last := by
    rw [concatContent_append, concatContent_cons, concatContent_nil, List.append_nil]
  cases hcm : isMistralModel model with
  | false =>
    simp only [concatText]
    exact ti_run_false jp (pre ++ [last]) (TypesIndex.initState est) hnt
  | true =>
    have hmark' : containsSeg toolCallsMarker
        (concatContent pre ++ chunkContent last) = false := by
      rw [← htot]; exact hmark hcm
    simp only [concatText]
    rw [tiRunChunks_append true jp pre [last] (TypesIndex.initState est)]
    have hm₀ : containsSeg toolCallsMarker
        ((TypesIndex.initState est).textBuffer ++ concatContent pre) = false := by
      show containsSeg toolCallsMarker ([] ++ concatContent pre) = false
      rw [List.nil_append]
      exact containsSeg_false_left toolCallsMarker (concatContent pre)
        (chunkContent last) hmark'
    obtain ⟨hd₁, hb₁, hcat₁⟩ := ti_run_noFinish jp pre (TypesIndex.initState est) rfl hm₀
      (fun c hc => hnt c (List.mem_append_left [last] hc)) hnf
    have hm₁ : containsSeg toolCallsMarker
        ((TypesIndex.runChunks true jp (TypesIndex.initState est) pre).1.textBuffer ++
          chunkContent last) = false := by
      apply containsSeg_false_right toolCallsMarker
        (concatText (TypesIndex.runChunks true jp (TypesIndex.initState est) pre).2)
      rw [← List.append_assoc, hcat₁]
      show containsSeg toolCallsMarker (([] ++ concatContent pre) ++ chunkContent last) = false
      rw [List.nil_append]
      exact hmark'
    have hlast := ti_processChunk_finish jp
      (TypesIndex.runChunks true jp (TypesIndex.initState est) pre).1 last hd₁ hm₁
      (hnt last (List.mem_append_right pre (List.mem_cons_self last []))) hf
    rw [concatText_append, tiRunChunks_singleton]
    dsimp only
    rw [List.append_nil, hlast, ← List.append_assoc, hcat₁, htot]
    show ([] ++ concatContent pre) ++ chunkContent last = _
    rw [List.nil_append]

def c6Chunk1 : StreamChunk :=
  { choices := [{ delta := { content := some (str ("abc")) },
                  finish_reason := some (str ("stop")) }] }

def c6Chunk2 : StreamChunk :=
  { choices := [{ delta := { content := some (str ("d")) },
                  finish_reason := some (str ("stop")) }] }

/-- Refutation of C6 as stated: a Mistral-mode stream with no tool-call
deltas and no `[TOOL_CALLS]` marker whose chunks all carry a
finish_reason (the stream does end with a finish_reason-bearing chunk)
makes the translator flush the uncleared text buffer twice: the emitted
text is "abcabcd" while the input content is "abcd". -/
theorem claim_C6_counterexample :
    (∀ ch ∈ [c6Chunk1, c6Chunk2], chunkNoTools ch = true)
    ∧ containsSeg toolCallsMarker (concatContent [c6Chunk1, c6Chunk2]) = false
    ∧ chunkFinish c6Chunk2 = true
    ∧ isMistralModel (str ("devstral-small")) = true
    ∧ concatContent [c6Chunk1, c6Chunk2] = str ("abcd")
    ∧ concatText (TypesIndex.convertOpenAIStreamToAnthropic (fun _ => none)
        (str ("devstral-small")) 0 [c6Chunk1, c6Chunk2]) = str ("abcabcd") := by
  refine ⟨by decide, by decide, by decide, by decide, by decide, by decide⟩

def c6WPre : StreamChunk :=
  { choices := [{ delta := { content := some (str ("Hello")) } }] }

def c6WLast : StreamChunk :=
  { choices := [{ finish_reason := some (str ("stop")) }] }

/-- Witness for claim_C6 on a concrete Mistral-mode stream. -/
theorem claim_C6_witness :
    concatText (TypesIndex.convertOpenAIStreamToAnthropic (fun _ => none)
        (str ("devstral-small")) 5 ([c6WPre] ++ [c6WLast])) =
      concatContent ([c6WPre] ++ [c6WLast]) :=
  claim_C6 (fun _ => none) (str ("devstral-small")) 5 [c6WPre] c6WLast
    (by decide) (by decide) (by decide) (by decide)

/-- Every text_delta payload among the events is `[TOOL_CALLS]`-free. -/
def textEventsMarkerFree (es : List AEvent) : Bool :=
  es.all (fun e => match e with
    | AEvent.cb_delta_text _ t => !containsSeg toolCallsMarker t
    | _ => true)

theorem textEventsMarkerFree_append (a b : List AEvent) :
    textEventsMarkerFree (a ++ b) = (textEventsMarkerFree a && textEventsMarkerFree b) :=
  List.all_append

theorem textEventsMarkerFree_start_if (c : Prop) [Decidable c] (j : Nat) :
    textEventsMarkerFree (if c then [AEvent.cb_start_text j] else []) = true := by
  by_cases h : c <;> simp [h, textEventsMarkerFree]

theorem textEventsMarkerFree_stop_if (c : Prop) [Decidable c] (j : Nat) :
    textEventsMarkerFree (if c then [AEvent.cb_stop j] else []) = true := by
  by_cases h : c <;> simp [h, textEventsMarkerFree]

theorem containsSeg_take_false (p l : Str) (n : Nat)
    (h : containsSeg p l = false) : containsSeg p (l.take n) = false := by
  apply containsSeg_false_left p (l.take n) (l.drop n)
  rw [List.take_append_drop]
  exact h

theorem containsSeg_drop_false (p l : Str) (n : Nat)
    (h : containsSeg p l = false) : containsSeg p (l.drop n) = false := by
  apply containsSeg_false_right p (l.take n) (l.drop n)
  rw [List.take_append_drop]
  exact h

theorem containsSeg_boundary_false (p x y c : Str) (hlen : p.length ≤ y.length)
    (h1 : containsSeg p (x ++ y) = false) (h2 : containsSeg p (y ++ c) = false) :
    containsSeg p (x ++ (y ++ c)) = false := by
  rw [← List.append_assoc]
  cases h : containsSeg p (x ++ y ++ c) with
  | false => rfl
  | true =>
    rw [containsSeg_boundary p x y c hlen h1 h] at h2
    exact absurd h2 (by simp)

theorem ti_processContent_markerfree (s : TypesIndex.TIState) (content : Option Str)
    (hK : s.mistralDetected = false →
      containsSeg toolCallsMarker s.textBuffer = false) :
    ((TypesIndex.processContent true s content).1.mistralDetected = false →
      containsSeg toolCallsMarker
        (TypesIndex.processContent true s content).1.textBuffer = false)
    ∧ textEventsMarkerFree (TypesIndex.processContent true s content).2.1 = true := by
  unfold TypesIndex.processContent
  by_cases ht : strTruthy content = true
  · rw [if_neg (by simp [ht]), if_pos rfl]
    dsimp only
    by_cases hdet : containsSeg toolCallsMarker (s.textBuffer ++ content.getD []) = true
    · rw [if_pos hdet]
      exact ⟨fun h => absurd h (by simp), rfl⟩
    · rw [if_neg hdet]
      have hbuf : containsSeg toolCallsMarker (s.textBuffer ++ content.getD []) = false := by
        cases hb : containsSeg toolCallsMarker (s.textBuffer ++ content.getD []) with
        | false => rfl
        | true => exact absurd hb hdet
      by_cases hlen : (!s.mistralDetected &&
          decide ((s.textBuffer ++ content.getD []).length > 20)) = true
      · rw [if_pos hlen]
        refine ⟨fun _ => containsSeg_drop_false _ _ _ hbuf, ?_⟩
        dsimp only
        split
        · rw [textEventsMarkerFree_append, textEventsMarkerFree_start_if]
          simp only [Bool.true_and, textEventsMarkerFree, List.all_cons, List.all_nil,
            Bool.and_true]
          rw [containsSeg_take_false _ _ _ hbuf]
          rfl
        · rfl
      · rw [if_neg hlen]
        exact ⟨fun _ => hbuf, rfl⟩
  · rw [if_pos (by simp [ht])]
    exact ⟨hK, rfl⟩

theorem ti_processToolCall_fields (s : TypesIndex.TIState) (tc : ToolCallDelta) :
    (TypesIndex.processToolCall s tc).1.mistralDetected = s.mistralDetected
    ∧ (TypesIndex.processToolCall s tc).1.textBuffer = s.textBuffer
    ∧ textEventsMarkerFree (TypesIndex.processToolCall s tc).2 = true := by
  unfold TypesIndex.processToolCall
  cases h : TypesIndex.tmLookup s.toolCalls tc.index with
  | none =>
    dsimp only
    by_cases hf : (!s.isFirstContent) = true
    · rw [if_pos hf]
      exact ⟨rfl, rfl, rfl⟩
    · rw [if_neg hf]
      exact ⟨rfl, rfl, rfl⟩
  | some a =>
    dsimp only
    by_cases ha : strTruthy tc.fargs = true
    · rw [if_pos ha]
      exact ⟨rfl, rfl, rfl⟩
    · rw [if_neg ha]
      exact ⟨rfl, rfl, rfl⟩

theorem ti_processToolCalls_foldl (l : List ToolCallDelta) :
    ∀ (p : TypesIndex.TIState × List AEvent),
    (l.foldl (fun acc tc =>
      let r := TypesIndex.processToolCall acc.1 tc
      (r.1, acc.2 ++ r.2)) p).1.mistralDetected = p.1.mistralDetected
    ∧ (l.foldl (fun acc tc =>
      let r := TypesIndex.processToolCall acc.1 tc
      (r.1, acc.2 ++ r.2)) p).1.textBuffer = p.1.textBuffer
    ∧ (textEventsMarkerFree p.2 = true →
      textEventsMarkerFree (l.foldl (fun acc tc =>
        let r := TypesIndex.processToolCall acc.1 tc
        (r.1, acc.2 ++ r.2)) p).2 = true) := by
  induction l with
  | nil => intro p; exact ⟨rfl, rfl, fun h => h⟩
  | cons tc rest ih =>
    intro p
    simp only [List.foldl_cons]
    obtain ⟨h1, h2, h3⟩ := ih ((TypesIndex.processToolCall p.1 tc).1,
      p.2 ++ (TypesIndex.processToolCall p.1 tc).2)
    obtain ⟨f1, f2, f3⟩ := ti_processToolCall_fields p.1 tc
    refine ⟨by rw [h1]; exact f1, by rw [h2]; exact f2, fun hp => ?_⟩
    apply h3
    rw [textEventsMarkerFree_append, hp, f3]
    rfl

theorem ti_processToolCalls_fields (s : TypesIndex.TIState)
    (tcs : Option (List ToolCallDelta)) :
    (TypesIndex.processToolCalls s tcs).1.mistralDetected = s.mistralDetected
    ∧ (TypesIndex.processToolCalls s tcs).1.textBuffer = s.textBuffer
    ∧ textEventsMarkerFree (TypesIndex.processToolCalls s tcs).2 = true := by
  unfold TypesIndex.processToolCalls
  cases tcs with
  | none => exact ⟨rfl, rfl, rfl⟩
  | some l =>
    dsimp only
    obtain ⟨h1, h2, h3⟩ := ti_processToolCalls_foldl l (s, [])
    exact ⟨h1, h2, h3 rfl⟩

theorem textEventsMarkerFree_pairs (l : List (Nat × ParsedMistralToolCall)) (ci : Nat) :
    textEventsMarkerFree ((l.map (fun p =>
      [AEvent.cb_start_tool (ci + p.1) (generateMistralToolId p.1) p.2.name p.2.arguments,
        AEvent.cb_stop (ci + p.1)])).flatten) = true := by
  induction l with
  | nil => rfl
  | cons a rest ih => simpa [textEventsMarkerFree] using ih

theorem concatText_pairs (l : List (Nat × ParsedMistralToolCall)) (ci : Nat) :
    concatText ((l.map (fun p =>
      [AEvent.cb_start_tool (ci + p.1) (generateMistralToolId p.1) p.2.name p.2.arguments,
        AEvent.cb_stop (ci + p.1)])).flatten) = [] := by
  induction l with
  | nil => rfl
  | cons a rest ih => simpa [concatText] using ih

theorem ti_processFinish_markerfree (jp : Str → Option Js) (s : TypesIndex.TIState)
    (finish : Option Str)
    (hK : s.mistralDetected = false →
      containsSeg toolCallsMarker s.textBuffer = false) :
    textEventsMarkerFree (TypesIndex.processFinish true jp s finish).2 = true := by
  unfold TypesIndex.processFinish
  by_cases ht : strTruthy finish = true
  · rw [if_neg (by simp [ht])]
    dsimp only
    by_cases h1 : (true && s.mistralDetected && !s.textBuffer.isEmpty) = true
    · rw [if_pos h1]
      split
      · split
        · simp only [textEventsMarkerFree_append, textEventsMarkerFree_pairs,
            textEventsMarkerFree_stop_if]
          simp [textEventsMarkerFree]
        · simp only [textEventsMarkerFree_append, textEventsMarkerFree_pairs,
            textEventsMarkerFree_stop_if]
          simp [textEventsMarkerFree]
      · simp only [textEventsMarkerFree_append, textEventsMarkerFree_pairs,
          textEventsMarkerFree_stop_if]
        simp [textEventsMarkerFree]
    · rw [if_neg h1]
      by_cases h2 : (true && !s.textBuffer.isEmpty && !s.mistralDetected) = true
      · rw [if_pos h2]
        dsimp only
        have hdet : s.mistralDetected = false := by
          have := ((Bool.and_eq_true _ _).mp h2).2
          cases hmd : s.mistralDetected with
          | false => rfl
          | true => rw [hmd] at this; exact absurd this (by decide)
        rw [textEventsMarkerFree_append, textEventsMarkerFree_append,
          textEventsMarkerFree_append, textEventsMarkerFree_start_if,
          textEventsMarkerFree_stop_if]
        simp only [textEventsMarkerFree, List.all_cons, List.all_nil, Bool.true_and,
          Bool.and_true]
        rw [hK hdet]
        rfl
      · rw [if_neg h2]
        dsimp only
        rw [textEventsMarkerFree_append, textEventsMarkerFree_append,
          textEventsMarkerFree_stop_if]
        simp [textEventsMarkerFree]
  · rw [if_pos (by simp [ht])]
    rfl

theorem ti_processFinish_fields (jp : Str → Option Js) (s : TypesIndex.TIState)
    (finish : Option Str) :
    (TypesIndex.processFinish true jp s finish).1.mistralDetected = s.mistralDetected
    ∧ (TypesIndex.processFinish true jp s finish).1.textBuffer = s.textBuffer := by
  unfold TypesIndex.processFinish
  by_cases ht : strTruthy finish = true
  · rw [if_neg (by simp [ht])]
    dsimp only
    split
    · split
      · split
        · exact ⟨rfl, rfl⟩
        · exact ⟨rfl, rfl⟩
      · exact ⟨rfl, rfl⟩
    · split
      · exact ⟨rfl, rfl⟩
      · exact ⟨rfl, rfl⟩
  · rw [if_pos (by simp [ht])]
    exact ⟨rfl, rfl⟩

theorem ti_processChunk_markerfree (jp : Str → Option Js) (s : TypesIndex.TIState)
    (ch : StreamChunk)
    (hK : s.mistralDetected = false →
      containsSeg toolCallsMarker s.textBuffer = false) :
    ((TypesIndex.processChunk true jp s ch).1.mistralDetected = false →
      containsSeg toolCallsMarker
        (TypesIndex.processChunk true jp s ch).1.textBuffer = false)
    ∧ textEventsMarkerFree (TypesIndex.processChunk true jp s ch).2 = true := by
  have hK₀ : (TypesIndex.trackUsage s ch.usage).mistralDetected = false →
      containsSeg toolCallsMarker (TypesIndex.trackUsage s ch.usage).textBuffer = false := by
    intro h
    rw [trackUsage_mistralDetected] at h
    rw [trackUsage_textBuffer]
    exact hK h
  unfold TypesIndex.processChunk
  dsimp only
  cases hh : ch.choices.head? with
  | none =>
    dsimp only
    cases hu : ch.usage with
    | none =>
      rw [hu] at hK₀
      exact ⟨hK₀, rfl⟩
    | some u =>
      rw [hu] at hK₀
      dsimp only
      by_cases hn : natTruthy u.completion_tokens = true
      · rw [if_pos hn]
        exact ⟨hK₀, rfl⟩
      · rw [if_neg hn]
        exact ⟨hK₀, rfl⟩
  | some choice =>
    dsimp only
    obtain ⟨hc1, hc2⟩ :=
      ti_processContent_markerfree (TypesIndex.trackUsage s ch.usage) choice.delta.content hK₀
    by_cases hskip : (TypesIndex.processContent true (TypesIndex.trackUsage s ch.usage)
        choice.delta.content).2.2 = true
    · rw [if_pos hskip]
      exact ⟨hc1, hc2⟩
    · rw [if_neg hskip]
      obtain ⟨t1, t2, t3⟩ := ti_processToolCalls_fields
        (TypesIndex.processContent true (TypesIndex.trackUsage s ch.usage)
          choice.delta.content).1 choice.delta.tool_calls
      have hK₁ : (TypesIndex.processToolCalls
          (TypesIndex.processContent true (TypesIndex.trackUsage s ch.usage)
            choice.delta.content).1 choice.delta.tool_calls).1.mistralDetected = false →
          containsSeg toolCallsMarker (TypesIndex.processToolCalls
            (TypesIndex.processContent true (TypesIndex.trackUsage s ch.usage)
              choice.delta.content).1 choice.delta.tool_calls).1.textBuffer = false := by
        intro h
        rw [t1] at h
        rw [t2]
        exact hc1 h
      obtain ⟨f1, f2⟩ := ti_processFinish_fields jp
        (TypesIndex.processToolCalls
          (TypesIndex.processContent true (TypesIndex.trackUsage s ch.usage)
            choice.delta.content).1 choice.delta.tool_calls).1 choice.finish_reason
      constructor
      · intro h
        dsimp only at h ⊢
        rw [f1] at h
        rw [f2]
        exact hK₁ h
      · dsimp only
        rw [textEventsMarkerFree_append, textEventsMarkerFree_append, hc2, t3,
          ti_processFinish_markerfree jp _ _ hK₁]
        rfl

theorem ti_run_markerfree (jp : Str → Option Js) :
    ∀ (chunks : List StreamChunk) (s : TypesIndex.TIState),
    (s.mistralDetected = false →
      containsSeg toolCallsMarker s.textBuffer = false) →
    ((TypesIndex.runChunks true jp s chunks).1.mistralDetected = false →
      containsSeg toolCallsMarker
        (TypesIndex.runChunks true jp s chunks).1.textBuffer = false)
    ∧ textEventsMarkerFree (TypesIndex.runChunks true jp s chunks).2 = true := by
  intro chunks
  induction chunks with
  | nil => intro s hK; exact ⟨hK, rfl⟩
  | cons ch rest ih =>
    intro s hK
    obtain ⟨h1, h2⟩ := ti_processChunk_markerfree jp s ch hK
    obtain ⟨ih1, ih2⟩ := ih (TypesIndex.processChunk true jp s ch).1 h1
    unfold TypesIndex.runChunks
    dsimp only
    refine ⟨ih1, ?_⟩
    rw [textEventsMarkerFree_append, h2, ih2]
    rfl

/-- Invariant of the Mistral-mode translator while no finish_reason has been
seen: if the marker has not been detected, the emitted text `E` followed by
the retained buffer is marker-free and (once anything has been emitted) the
buffer keeps at least the 20-character tail; once detected, the emitted
text is marker-free and stays so (nothing more is emitted). -/
def MarkerInv (s : TypesIndex.TIState) (E : Str) : Prop :=
  (s.mistralDetected = false →
    containsSeg toolCallsMarker (E ++ s.textBuffer) = false ∧
    (E ≠ [] → 20 ≤ s.textBuffer.length))
  ∧ (s.mistralDetected = true → containsSeg toolCallsMarker E = false)

theorem MarkerInv_E_free (s : TypesIndex.TIState) (E : Str) (h : MarkerInv s E) :
    containsSeg toolCallsMarker E = false := by
  cases hmd : s.mistralDetected with
  | false => exact containsSeg_false_left _ _ _ (h.1 hmd).1
  | true => exact h.2 hmd

theorem MarkerInv_congr (s s' : TypesIndex.TIState) (E : Str)
    (hd : s'.mistralDetected = s.mistralDetected)
    (hb : s'.textBuffer = s.textBuffer) (h : MarkerInv s E) : MarkerInv s' E := by
  unfold MarkerInv at h ⊢
  rw [hd, hb]
  exact h

theorem marker_length_le : toolCallsMarker.length ≤ 20 := by decide

theorem ti_processContent_inv (s : TypesIndex.TIState) (content : Option Str)
    (E : Str) (hinv : MarkerInv s E) :
    MarkerInv (TypesIndex.processContent true s content).1
      (E ++ concatText (TypesIndex.processContent true s content).2.1) := by
  unfold TypesIndex.processContent
  by_cases ht : strTruthy content = true
  · rw [if_neg (by simp [ht]), if_pos rfl]
    dsimp only
    by_cases hdet : containsSeg toolCallsMarker (s.textBuffer ++ content.getD []) = true
    · rw [if_pos hdet]
      constructor
      · intro h
        exact absurd h (by simp)
      · intro _
        simp only [concatText, List.append_nil]
        exact MarkerInv_E_free s E hinv
    · have hbuf : containsSeg toolCallsMarker (s.textBuffer ++ content.getD []) = false := by
        cases hb : containsSeg toolCallsMarker (s.textBuffer ++ content.getD []) with
        | false => rfl
        | true => exact absurd hb hdet
      rw [if_neg hdet]
      by_cases hlen : (!s.mistralDetected &&
          decide ((s.textBuffer ++ content.getD []).length > 20)) = true
      · have hmd : s.mistralDetected = false := by
          have := ((Bool.and_eq_true _ _).mp hlen).1
          cases hx : s.mistralDetected with
          | false => rfl
          | true => rw [hx] at this; exact absurd this (by decide)
        have hlen' : (s.textBuffer ++ content.getD []).length > 20 :=
          of_decide_eq_true ((Bool.and_eq_true _ _).mp hlen).2
        have hEbuf : containsSeg toolCallsMarker
            (E ++ (s.textBuffer ++ content.getD [])) = false := by
          by_cases hE : E = []
          · rw [hE, List.nil_append]
            exact hbuf
          · exact containsSeg_boundary_false _ E s.textBuffer _
              (le_trans marker_length_le ((hinv.1 hmd).2 hE)) (hinv.1 hmd).1 hbuf
        rw [if_pos hlen]
        have hct : concatText
            (if (!((s.textBuffer ++ content.getD []).take
                ((s.textBuffer ++ content.getD []).length - 20)).isEmpty) = true then
              (if s.isFirstContent = true then [AEvent.cb_start_text s.contentIndex] else []) ++
                [AEvent.cb_delta_text s.contentIndex ((s.textBuffer ++ content.getD []).take
                  ((s.textBuffer ++ content.getD []).length - 20))]
            else []) = (s.textBuffer ++ content.getD []).take
              ((s.textBuffer ++ content.getD []).length - 20) := by
          split
          · rw [concatText_append, concatText_start_if]
            simp [concatText]
          · next hse =>
            have : ((s.textBuffer ++ content.getD []).take
                ((s.textBuffer ++ content.getD []).length - 20)).isEmpty = true := by
              cases hx : ((s.textBuffer ++ content.getD []).take
                  ((s.textBuffer ++ content.getD []).length - 20)).isEmpty with
              | true => rfl
              | false => rw [hx] at hse; exact absurd rfl hse
            cases hy : (s.textBuffer ++ content.getD []).take
                ((s.textBuffer ++ content.getD []).length - 20) with
            | nil => rfl
            | cons a t => rw [hy] at this; exact absurd this (by simp)
        constructor
        · intro _
          constructor
          · dsimp only
            rw [hct, List.append_assoc, List.take_append_drop]
            exact hEbuf
          · intro _
            dsimp only
            rw [List.length_drop]
            omega
        · intro h
          dsimp only at h
          rw [hmd] at h
          exact absurd h (by simp)
      · rw [if_neg hlen]
        simp only [concatText, List.append_nil]
        cases hmd : s.mistralDetected with
        | false =>
          constructor
          · intro _
            constructor
            · dsimp only
              by_cases hE : E = []
              · rw [hE, List.nil_append]
                exact hbuf
              · exact containsSeg_boundary_false _ E s.textBuffer _
                  (le_trans marker_length_le ((hinv.1 hmd).2 hE)) (hinv.1 hmd).1 hbuf
            · intro hE
              dsimp only
              rw [List.length_append]
              have := (hinv.1 hmd).2 hE
              omega
          · intro h
            exact absurd h (by simp)
        | true =>
          constructor
          · intro h
            exact absurd h (by simp)
          · intro _
            exact hinv.2 hmd
  · rw [if_pos (by simp [ht])]
    simp only [concatText, List.append_nil]
    exact hinv

theorem ti_processToolCall_noText (s : TypesIndex.TIState) (tc : ToolCallDelta) :
    concatText (TypesIndex.processToolCall s tc).2 = [] := by
  unfold TypesIndex.processToolCall
  cases h : TypesIndex.tmLookup s.toolCalls tc.index with
  | none =>
    dsimp only
    by_cases hf : (!s.isFirstContent) = true
    · rw [if_pos hf]; rfl
    · rw [if_neg hf]; rfl
  | some a =>
    dsimp only
    by_cases ha : strTruthy tc.fargs = true
    · rw [if_pos ha]; rfl
    · rw [if_neg ha]; rfl

theorem ti_processToolCalls_foldl_noText (l : List ToolCallDelta) :
    ∀ (p : TypesIndex.TIState × List AEvent),
    concatText (l.foldl (fun acc tc =>
      let r := TypesIndex.processToolCall acc.1 tc
      (r.1, acc.2 ++ r.2)) p).2 = concatText p.2 := by
  induction l with
  | nil => intro p; rfl
  | cons tc rest ih =>
    intro p
    simp only [List.foldl_cons]
    rw [ih ((TypesIndex.processToolCall p.1 tc).1,
      p.2 ++ (TypesIndex.processToolCall p.1 tc).2)]
    rw [concatText_append, ti_processToolCall_noText, List.append_nil]

theorem ti_processToolCalls_noText (s : TypesIndex.TIState)
    (tcs : Option (List ToolCallDelta)) :
    concatText (TypesIndex.processToolCalls s tcs).2 = [] := by
  unfold TypesIndex.processToolCalls
  cases tcs with
  | none => rfl
  | some l =>
    dsimp only
    rw [ti_processToolCalls_foldl_noText l (s, [])]
    rfl

theorem ti_processFinish_notTruthy (jp : Str → Option Js) (s : TypesIndex.TIState)
    (finish : Option Str) (h : strTruthy finish = false) :
    TypesIndex.processFinish true jp s finish = (s, []) := by
  unfold TypesIndex.processFinish
  rw [if_pos (by rw [h]; rfl)]

theorem ti_processFinish_concat_inv (jp : Str → Option Js) (s : TypesIndex.TIState)
    (finish : Option Str) (E : Str) (hinv : MarkerInv s E) :
    containsSeg toolCallsMarker
      (E ++ concatText (TypesIndex.processFinish true jp s finish).2) = false := by
  by_cases ht : strTruthy finish = true
  · unfold TypesIndex.processFinish
    rw [if_neg (by simp [ht])]
    dsimp only
    by_cases h1 : (true && s.mistralDetected && !s.textBuffer.isEmpty) = true
    · have hmd : s.mistralDetected = true := by
        have := ((Bool.and_eq_true _ _).mp ((Bool.and_eq_true _ _).mp h1).1).2
        exact this
      rw [if_pos h1]
      split
      · split
        · simp only [List.append_eq, concatText_append, concatText_stop_if, concatText_pairs,
            concatText, List.append_nil, List.nil_append]
          exact hinv.2 hmd
        · simp only [List.append_eq, concatText_append, concatText_stop_if, concatText_pairs,
            concatText, List.append_nil, List.nil_append]
          exact hinv.2 hmd
      · simp only [List.append_eq, concatText_append, concatText_stop_if, concatText,
          List.append_nil, List.nil_append]
        exact hinv.2 hmd
    · rw [if_neg h1]
      by_cases h2 : (true && !s.textBuffer.isEmpty && !s.mistralDetected) = true
      · have hmd : s.mistralDetected = false := by
          have := ((Bool.and_eq_true _ _).mp h2).2
          cases hx : s.mistralDetected with
          | false => rfl
          | true => rw [hx] at this; exact absurd this (by decide)
        rw [if_pos h2]
        dsimp only
        simp only [List.append_eq, concatText_append, concatText_stop_if, concatText_start_if,
          concatText, List.append_nil, List.nil_append]
        exact (hinv.1 hmd).1
      · rw [if_neg h2]
        dsimp only
        simp only [List.append_eq, concatText_append, concatText_stop_if, concatText,
          List.append_nil, List.nil_append]
        exact MarkerInv_E_free s E hinv
  · have ht' : strTruthy finish = false := by
      cases hx : strTruthy finish with
      | false => rfl
      | true => exact absurd hx ht
    rw [ti_processFinish_notTruthy jp s finish ht']
    simp only [concatText, List.append_nil]
    exact MarkerInv_E_free s E hinv

theorem ti_processFinish_fields_any (jp : Str → Option Js) (s : TypesIndex.TIState)
    (finish : Option Str) :
    (TypesIndex.processFinish true jp s finish).1.mistralDetected = s.mistralDetected
    ∧ (TypesIndex.processFinish true jp s finish).1.textBuffer = s.textBuffer :=
  ti_processFinish_fields jp s finish

theorem ti_processChunk_inv (jp : Str → Option Js) (s : TypesIndex.TIState)
    (ch : StreamChunk) (E : Str) (hinv : MarkerInv s E)
    (hnf : chunkNoFinish ch = true) :
    MarkerInv (TypesIndex.processChunk true jp s ch).1
      (E ++ concatText (TypesIndex.processChunk true jp s ch).2) := by
  have hinv₀ : MarkerInv (TypesIndex.trackUsage s ch.usage) E :=
    MarkerInv_congr s _ E (trackUsage_mistralDetected s ch.usage)
      (trackUsage_textBuffer s ch.usage) hinv
  unfold TypesIndex.processChunk
  dsimp only
  cases hh : ch.choices.head? with
  | none =>
    dsimp only
    cases hu : ch.usage with
    | none =>
      rw [hu] at hinv₀
      simpa [concatText] using hinv₀
    | some u =>
      rw [hu] at hinv₀
      dsimp only
      by_cases hn : natTruthy u.completion_tokens = true
      · rw [if_pos hn]
        simpa [concatText] using hinv₀
      · rw [if_neg hn]
        simpa [concatText] using hinv₀
  | some choice =>
    dsimp only
    have hci := ti_processContent_inv (TypesIndex.trackUsage s ch.usage)
      choice.delta.content E hinv₀
    by_cases hskip : (TypesIndex.processContent true (TypesIndex.trackUsage s ch.usage)
        choice.delta.content).2.2 = true
    · rw [if_pos hskip]
      exact hci
    · rw [if_neg hskip]
      obtain ⟨t1, t2, _⟩ := ti_processToolCalls_fields
        (TypesIndex.processContent true (TypesIndex.trackUsage s ch.usage)
          choice.delta.content).1 choice.delta.tool_calls
      have hti : MarkerInv (TypesIndex.processToolCalls
          (TypesIndex.processContent true (TypesIndex.trackUsage s ch.usage)
            choice.delta.content).1 choice.delta.tool_calls).1
          (E ++ concatText (TypesIndex.processContent true (TypesIndex.trackUsage s ch.usage)
            choice.delta.content).2.1) :=
        MarkerInv_congr _ _ _ t1 t2 hci
      have hnf' : strTruthy choice.finish_reason = false := by
        unfold chunkNoFinish at hnf
        rw [hh] at hnf
        simpa using hnf
      rw [ti_processFinish_notTruthy jp _ choice.finish_reason hnf']
      dsimp only
      have hfi : MarkerInv (TypesIndex.processToolCalls
          (TypesIndex.processContent true (TypesIndex.trackUsage s ch.usage)
            choice.delta.content).1 choice.delta.tool_calls).1
          (E ++ concatText ((TypesIndex.processContent true (TypesIndex.trackUsage s ch.usage)
            choice.delta.content).2.1 ++ (TypesIndex.processToolCalls
              (TypesIndex.processContent true (TypesIndex.trackUsage s ch.usage)
                choice.delta.content).1 choice.delta.tool_calls).2 ++ [])) := by
        rw [concatText_append, concatText_append, ti_processToolCalls_noText]
        simpa [concatText] using hti
      exact hfi

theorem ti_run_inv (jp : Str → Option Js) :
    ∀ (chunks : List StreamChunk) (s : TypesIndex.TIState) (E : Str),
    MarkerInv s E →
    (∀ ch ∈ chunks, chunkNoFinish ch = true) →
    MarkerInv (TypesIndex.runChunks true jp s chunks).1
      (E ++ concatText (TypesIndex.runChunks true jp s chunks).2) := by
  intro chunks
  induction chunks with
  | nil =>
    intro s E hinv _
    simpa [TypesIndex.runChunks, concatText] using hinv
  | cons ch rest ih =>
    intro s E hinv hnf
    have h₁ := ti_processChunk_inv jp s ch E hinv (hnf ch (List.mem_cons_self ch rest))
    have h₂ := ih (TypesIndex.processChunk true jp s ch).1
      (E ++ concatText (TypesIndex.processChunk true jp s ch).2) h₁
      (fun c hc => hnf c (List.mem_cons_of_mem ch hc))
    unfold TypesIndex.runChunks
    dsimp only
    rw [concatText_append, ← List.append_assoc]
    exact h₂

theorem ti_processChunk_concat_inv (jp : Str → Option Js) (s : TypesIndex.TIState)
    (ch : StreamChunk) (E : Str) (hinv : MarkerInv s E) :
    containsSeg toolCallsMarker
      (E ++ concatText (TypesIndex.processChunk true jp s ch).2) = false := by
  have hinv₀ : MarkerInv (TypesIndex.trackUsage s ch.usage) E :=
    MarkerInv_congr s _ E (trackUsage_mistralDetected s ch.usage)
      (trackUsage_textBuffer s ch.usage) hinv
  unfold TypesIndex.processChunk
  dsimp only
  cases hh : ch.choices.head? with
  | none =>
    dsimp only
    cases hu : ch.usage with
    | none =>
      rw [hu] at hinv₀
      simpa [concatText] using MarkerInv_E_free _ E hinv₀
    | some u =>
      rw [hu] at hinv₀
      dsimp only
      by_cases hn : natTruthy u.completion_tokens = true
      · rw [if_pos hn]
        simpa [concatText] using MarkerInv_E_free _ E hinv₀
      · rw [if_neg hn]
        simpa [concatText] using MarkerInv_E_free _ E hinv₀
  | some choice =>
    dsimp only
    have hci := ti_processContent_inv (TypesIndex.trackUsage s ch.usage)
      choice.delta.content E hinv₀
    by_cases hskip : (TypesIndex.processContent true (TypesIndex.trackUsage s ch.usage)
        choice.delta.content).2.2 = true
    · rw [if_pos hskip]
      exact MarkerInv_E_free _ _ hci
    · rw [if_neg hskip]
      obtain ⟨t1, t2, _⟩ := ti_processToolCalls_fields
        (TypesIndex.processContent true (TypesIndex.trackUsage s ch.usage)
          choice.delta.content).1 choice.delta.tool_calls
      have hti : MarkerInv (TypesIndex.processToolCalls
          (TypesIndex.processContent true (TypesIndex.trackUsage s ch.usage)
            choice.delta.content).1 choice.delta.tool_calls).1
          (E ++ concatText (TypesIndex.processContent true (TypesIndex.trackUsage s ch.usage)
            choice.delta.content).2.1) :=
        MarkerInv_congr _ _ _ t1 t2 hci
      have hfc := ti_processFinish_concat_inv jp
        (TypesIndex.processToolCalls
          (TypesIndex.processContent true (TypesIndex.trackUsage s ch.usage)
            choice.delta.content).1 choice.delta.tool_calls).1 choice.finish_reason
        (E ++ concatText (TypesIndex.processContent true (TypesIndex.trackUsage s ch.usage)
          choice.delta.content).2.1) hti
      dsimp only
      rw [concatText_append, concatText_append, ti_processToolCalls_noText,
        List.append_nil, ← List.append_assoc]
      exact hfc

/-- C5 (amended): in Mistral inline mode, (a) for EVERY input stream, no
single text_delta event emitted by the types/index.ts
convertOpenAIStreamToAnthropic carries the substring `[TOOL_CALLS]`; and
(b) the marker is also absent from the CONCATENATION of all emitted
text_delta payloads — even when the marker arrives split across several
content deltas — PROVIDED no chunk before the last carries a truthy
finish_reason.  (The original unconditional concatenation claim is false:
a finish_reason flushes the 20-character tail without clearing the buffer,
and a later flush re-emits it, as the counterexample shows.) -/
theorem claim_C5 (jp : Str → Option Js) (model : Str) (est : Nat)
    (hcm : isMistralModel model = true) :
    (∀ chunks : List StreamChunk, textEventsMarkerFree
      (TypesIndex.convertOpenAIStreamToAnthropic jp model est chunks) = true)
    ∧ (∀ (pre : List StreamChunk) (last : StreamChunk),
      (∀ ch ∈ pre, chunkNoFinish ch = true) →
      containsSeg toolCallsMarker (concatText
        (TypesIndex.convertOpenAIStreamToAnthropic jp model est (pre ++ [last]))) = false) := by
  constructor
  · intro chunks
    unfold TypesIndex.convertOpenAIStreamToAnthropic
    dsimp only
    rw [hcm]
    have h := (ti_run_markerfree jp chunks (TypesIndex.initState est)
      (fun _ => by
        show containsSeg toolCallsMarker ([] : Str) = false
        decide)).2
    simpa [textEventsMarkerFree] using h
  · intro pre last hnf
    unfold TypesIndex.convertOpenAIStreamToAnthropic
    dsimp only
    rw [hcm]
    have hinit : MarkerInv (TypesIndex.initState est) [] := by
      constructor
      · intro _
        refine ⟨?_, fun hne => absurd rfl hne⟩
        show containsSeg toolCallsMarker ([] ++ ([] : Str)) = false
        decide
      · intro h
        exact absurd h (by
          show ¬(false = true)
          decide)
    have hrun := ti_run_inv jp pre (TypesIndex.initState est) [] hinit hnf
    have hlast := ti_processChunk_concat_inv jp
      (TypesIndex.runChunks true jp (TypesIndex.initState est) pre).1 last
      ([] ++ concatText (TypesIndex.runChunks true jp (TypesIndex.initState est) pre).2)
      hrun
    rw [tiRunChunks_append true jp pre [last] (TypesIndex.initState est),
      tiRunChunks_singleton]
    simp only [concatText, concatText_append, List.append_nil, List.nil_append]
    simp only [List.nil_append] at hlast
    rw [← concatText_append] at hlast ⊢
    exact hlast

def c5T20 : Str := str ("]BBBBBBBB[TOOL_CALLS")

def c5Chunk1 : StreamChunk :=
  { choices := [{ delta := { content := some c5T20 },
                  finish_reason := some (str ("stop")) }] }

def c5Chunk2 : StreamChunk :=
  { choices := [{ finish_reason := some (str ("stop")) }] }

/-- Refutation of C5's concatenation clause as stated: in Mistral mode a
finish_reason-bearing chunk flushes the 20-character tail without clearing
the buffer, and a second finish_reason-bearing chunk flushes it again, so
the concatenation of the two (individually marker-free) text_delta
payloads "]BBBBBBBB[TOOL_CALLS" + "]BBBBBBBB[TOOL_CALLS" contains
"[TOOL_CALLS]". -/
theorem claim_C5_counterexample :
    isMistralModel (str ("devstral")) = true
    ∧ textEventsMarkerFree (TypesIndex.convertOpenAIStreamToAnthropic (fun _ => none)
        (str ("devstral")) 0 [c5Chunk1, c5Chunk2]) = true
    ∧ containsSeg toolCallsMarker (concatText
        (TypesIndex.convertOpenAIStreamToAnthropic (fun _ => none)
          (str ("devstral")) 0 [c5Chunk1, c5Chunk2])) = true := by
  refine ⟨by decide, by decide, by decide⟩

def c5WPre : StreamChunk :=
  { choices := [{ delta := { content := some (str ("[TOOL_")) } }] }

def c5WLast : StreamChunk :=
  { choices := [{ delta := { content := some (str ("CALLS] split")) },
                  finish_reason := some (str ("stop")) }] }

/-- Witness for claim_C5 on a concrete Mistral-mode stream whose marker
arrives split across two content deltas. -/
theorem claim_C5_witness :
    textEventsMarkerFree (TypesIndex.convertOpenAIStreamToAnthropic (fun _ => none)
      (str ("devstral")) 3 [c5WPre, c5WLast]) = true
    ∧ containsSeg toolCallsMarker (concatText
        (TypesIndex.convertOpenAIStreamToAnthropic (fun _ => none)
          (str ("devstral")) 3 ([c5WPre] ++ [c5WLast]))) = false :=
  ⟨(claim_C5 (fun _ => none) (str ("devstral")) 3 (by decide)).1 [c5WPre, c5WLast],
   (claim_C5 (fun _ => none) (str ("devstral")) 3 (by decide)).2 [c5WPre] c5WLast
     (by decide)⟩

-- ===========================================================================
-- C1: event-structure invariants of the convert.ts stream machine
-- ===========================================================================

theorem countKind_append (k : EvKind) (a b : List AEvent) :
    countKind k (a ++ b) = countKind k a + countKind k b := by
  simp [countKind, List.filter_append]

theorem countStartAt_append (i : Nat) (a b : List AEvent) :
    countStartAt i (a ++ b) = countStartAt i a + countStartAt i b := by
  simp [countStartAt, List.filter_append]

theorem countStopAt_append (i : Nat) (a b : List AEvent) :
    countStopAt i (a ++ b) = countStopAt i a + countStopAt i b := by
  simp [countStopAt, List.filter_append]

theorem countStartAt_start_text (i j : Nat) :
    countStartAt i [AEvent.cb_start_text j] = if j = i then 1 else 0 := by
  by_cases h : j = i <;> simp [h, countStartAt, AEvent.kind, AEvent.idx, List.filter]

theorem countStartAt_start_tool (i j : Nat) (id name : Str) (input : Js) :
    countStartAt i [AEvent.cb_start_tool j id name input] = if j = i then 1 else 0 := by
  by_cases h : j = i <;> simp [h, countStartAt, AEvent.kind, AEvent.idx, List.filter]

theorem countStopAt_stop (i j : Nat) :
    countStopAt i [AEvent.cb_stop j] = if j = i then 1 else 0 := by
  by_cases h : j = i <;> simp [h, countStopAt, AEvent.kind, AEvent.idx, List.filter]

theorem countStartAt_stop (i j : Nat) :
    countStartAt i [AEvent.cb_stop j] = 0 := by
  simp [countStartAt, AEvent.kind, List.filter]

theorem countStopAt_start_text (i j : Nat) :
    countStopAt i [AEvent.cb_start_text j] = 0 := by
  simp [countStopAt, AEvent.kind, List.filter]

theorem countStopAt_start_tool (i j : Nat) (id name : Str) (input : Js) :
    countStopAt i [AEvent.cb_start_tool j id name input] = 0 := by
  simp [countStopAt, AEvent.kind, List.filter]

/-- Number of open content blocks at index `i` tracked by the state: one at
`contentIndex` once the first block has started, else zero. -/
def cvB (s : Convert.CVState) (i : Nat) : Nat :=
  if s.isFirstContent = false ∧ s.contentIndex = i then 1 else 0

theorem countStartAt_delta_text (i j : Nat) (t : Str) :
    countStartAt i [AEvent.cb_delta_text j t] = 0 := by
  simp [countStartAt, AEvent.kind, List.filter]

theorem countStopAt_delta_text (i j : Nat) (t : Str) :
    countStopAt i [AEvent.cb_delta_text j t] = 0 := by
  simp [countStopAt, AEvent.kind, List.filter]

theorem countStartAt_delta_json (i j : Nat) (t : Str) :
    countStartAt i [AEvent.cb_delta_json j t] = 0 := by
  simp [countStartAt, AEvent.kind, List.filter]

theorem countStopAt_delta_json (i j : Nat) (t : Str) :
    countStopAt i [AEvent.cb_delta_json j t] = 0 := by
  simp [countStopAt, AEvent.kind, List.filter]

theorem countStartAt_nil (i : Nat) : countStartAt i [] = 0 := rfl

theorem countStopAt_nil (i : Nat) : countStopAt i [] = 0 := rfl

theorem countKind_nil (k : EvKind) : countKind k [] = 0 := rfl

/-- The gauge relation of one processing step: starts and stops stay balanced
relative to the number of open blocks, and no message_start / message_delta /
message_stop is emitted. -/
def StepGauge (s s' : Convert.CVState) (es : List AEvent) : Prop :=
  (∀ i, countStartAt i es + cvB s i = countStopAt i es + cvB s' i)
  ∧ countKind EvKind.msgStart es = 0
  ∧ countKind EvKind.msgDelta es = 0
  ∧ countKind EvKind.msgStop es = 0

theorem StepGauge_refl (s : Convert.CVState) : StepGauge s s [] :=
  ⟨fun _ => rfl, rfl, rfl, rfl⟩

theorem StepGauge_comp (s s₁ s₂ : Convert.CVState) (a b : List AEvent)
    (h1 : StepGauge s s₁ a) (h2 : StepGauge s₁ s₂ b) : StepGauge s s₂ (a ++ b) := by
  obtain ⟨g1, m1, d1, p1⟩ := h1
  obtain ⟨g2, m2, d2, p2⟩ := h2
  refine ⟨fun i => ?_, ?_, ?_, ?_⟩
  · rw [countStartAt_append, countStopAt_append]
    have := g1 i
    have := g2 i
    omega
  · rw [countKind_append, m1, m2]
  · rw [countKind_append, d1, d2]
  · rw [countKind_append, p1, p2]

theorem cv_processContent_gauge (s : Convert.CVState) (content : Option Str) :
    StepGauge s (Convert.processContent s content).1
      (Convert.processContent s content).2
    ∧ (Convert.processContent s content).1.finalStopReason = s.finalStopReason
    ∧ (Convert.processContent s content).1.messageStopped = s.messageStopped := by
  unfold Convert.processContent
  by_cases ht : strTruthy content = true
  · rw [if_neg (by simp [ht])]
    dsimp only
    refine ⟨⟨fun i => ?_, ?_, ?_, ?_⟩, rfl, rfl⟩
    · rw [countStartAt_append, countStopAt_append, countStartAt_delta_text,
        countStopAt_delta_text]
      by_cases hf : s.isFirstContent = true
      · rw [if_pos hf, countStartAt_start_text, countStopAt_start_text]
        unfold cvB
        by_cases hi : s.contentIndex = i
        · rw [if_pos hi]
          rw [if_neg (by rw [hf]; simp)]
          rw [if_pos (by exact ⟨rfl, hi⟩)]
        · rw [if_neg hi]
          rw [if_neg (by intro h; exact hi h.2)]
          rw [if_neg (by intro h; exact hi h.2)]
      · rw [if_neg hf, countStartAt_nil, countStopAt_nil]
        unfold cvB
        have hf' : s.isFirstContent = false := by
          cases hx : s.isFirstContent with
          | false => rfl
          | true => exact absurd hx hf
        dsimp only
        rw [hf']
    · by_cases hf : s.isFirstContent = true
      · rw [if_pos hf]; rfl
      · rw [if_neg hf]; rfl
    · by_cases hf : s.isFirstContent = true
      · rw [if_pos hf]; rfl
      · rw [if_neg hf]; rfl
    · by_cases hf : s.isFirstContent = true
      · rw [if_pos hf]; rfl
      · rw [if_neg hf]; rfl
  · rw [if_pos (by simp [ht])]
    exact ⟨StepGauge_refl s, rfl, rfl⟩

/-- Every tool-call delta of the first choice targets slot index 0. -/
def chunkToolsIdx0 (ch : StreamChunk) : Bool :=
  match ch.choices.head? with
  | some choice => (choice.delta.tool_calls.getD []).all (fun tc => tc.index = 0)
  | none => true

theorem cv_processToolCall_gauge (s : Convert.CVState) (tc : ToolCallDelta)
    (hidx : tc.index = 0) :
    StepGauge s (Convert.processToolCall s tc).1 (Convert.processToolCall s tc).2
    ∧ (Convert.processToolCall s tc).1.finalStopReason = s.finalStopReason
    ∧ (Convert.processToolCall s tc).1.messageStopped = s.messageStopped := by
  unfold Convert.processToolCall
  cases hl : TypesIndex.tmLookup s.toolCalls tc.index with
  | none =>
    dsimp only
    by_cases hf : (!s.isFirstContent) = true
    · rw [if_pos hf]
      have hf' : s.isFirstContent = false := by
        cases hx : s.isFirstContent with
        | false => rfl
        | true => rw [hx] at hf; exact absurd hf (by decide)
      refine ⟨⟨fun i => ?_, ?_, ?_, ?_⟩, rfl, rfl⟩
      · dsimp only
        rw [countStartAt_append, countStopAt_append, countStartAt_stop,
          countStopAt_stop, countStartAt_start_tool, countStopAt_start_tool,
          hidx, Nat.add_zero]
        unfold cvB
        dsimp only
        rw [hf']
        simp only [eq_self_iff_true, true_and]
        split_ifs <;> omega
      · rfl
      · rfl
      · rfl
    · rw [if_neg hf]
      have hf' : s.isFirstContent = true := by
        cases hx : s.isFirstContent with
        | true => rfl
        | false => rw [hx] at hf; exact absurd rfl hf
      refine ⟨⟨fun i => ?_, ?_, ?_, ?_⟩, rfl, rfl⟩
      · dsimp only
        rw [countStartAt_append, countStopAt_append, countStartAt_nil, countStopAt_nil,
          countStartAt_start_tool, countStopAt_start_tool, hidx, Nat.add_zero]
        unfold cvB
        dsimp only
        rw [hf']
        simp only [Bool.true_eq_false, false_and, if_false, eq_self_iff_true, true_and]
        split_ifs <;> omega
      · rfl
      · rfl
      · rfl
  | some a =>
    dsimp only
    by_cases ha : strTruthy tc.fargs = true
    · rw [if_pos ha]
      refine ⟨⟨fun i => ?_, rfl, rfl, rfl⟩, rfl, rfl⟩
      rw [countStartAt_delta_json, countStopAt_delta_json]
      unfold cvB
      dsimp only
    · rw [if_neg ha]
      exact ⟨StepGauge_refl s, rfl, rfl⟩

theorem cv_processToolCalls_foldl_gauge (l : List ToolCallDelta)
    (hidx : ∀ tc ∈ l, tc.index = 0) :
    ∀ (p : Convert.CVState × List AEvent),
    ((l.foldl (fun acc tc =>
      let r := Convert.processToolCall acc.1 tc
      (r.1, acc.2 ++ r.2)) p).1.finalStopReason = p.1.finalStopReason)
    ∧ ((l.foldl (fun acc tc =>
      let r := Convert.processToolCall acc.1 tc
      (r.1, acc.2 ++ r.2)) p).1.messageStopped = p.1.messageStopped)
    ∧ ∀ (s₀ : Convert.CVState), StepGauge s₀ p.1 p.2 →
      StepGauge s₀ (l.foldl (fun acc tc =>
        let r := Convert.processToolCall acc.1 tc
        (r.1, acc.2 ++ r.2)) p).1 (l.foldl (fun acc tc =>
        let r := Convert.processToolCall acc.1 tc
        (r.1, acc.2 ++ r.2)) p).2 := by
  induction l with
  | nil => intro p; exact ⟨rfl, rfl, fun s₀ h => h⟩
  | cons tc rest ih =>
    intro p
    simp only [List.foldl_cons]
    obtain ⟨g, f1, f2⟩ := cv_processToolCall_gauge p.1 tc (hidx tc (List.mem_cons_self tc rest))
    obtain ⟨i1, i2, i3⟩ := ih (fun c hc => hidx c (List.mem_cons_of_mem tc hc))
      ((Convert.processToolCall p.1 tc).1, p.2 ++ (Convert.processToolCall p.1 tc).2)
    refine ⟨by rw [i1]; exact f1, by rw [i2]; exact f2, fun s₀ hp => ?_⟩
    exact i3 s₀ (StepGauge_comp s₀ p.1 _ p.2 _ hp g)

theorem cv_processToolCalls_gauge (s : Convert.CVState)
    (tcs : Option (List ToolCallDelta))
    (hidx : ∀ tc ∈ tcs.getD [], tc.index = 0) :
    StepGauge s (Convert.processToolCalls s tcs).1 (Convert.processToolCalls s tcs).2
    ∧ (Convert.processToolCalls s tcs).1.finalStopReason = s.finalStopReason
    ∧ (Convert.processToolCalls s tcs).1.messageStopped = s.messageStopped := by
  unfold Convert.processToolCalls
  cases tcs with
  | none => exact ⟨StepGauge_refl s, rfl, rfl⟩
  | some l =>
    dsimp only
    obtain ⟨i1, i2, i3⟩ := cv_processToolCalls_foldl_gauge l hidx (s, [])
    exact ⟨i3 s (StepGauge_refl s), i1, i2⟩

theorem cv_trackUsage_fields (s : Convert.CVState) (u : Option StreamUsage) :
    (Convert.trackUsage s u).finalStopReason = s.finalStopReason
    ∧ (Convert.trackUsage s u).messageStopped = s.messageStopped
    ∧ (Convert.trackUsage s u).isFirstContent = s.isFirstContent
    ∧ (Convert.trackUsage s u).contentIndex = s.contentIndex := by
  cases u <;> exact ⟨rfl, rfl, rfl, rfl⟩

theorem cvB_trackUsage (s : Convert.CVState) (u : Option StreamUsage) (i : Nat) :
    cvB (Convert.trackUsage s u) i = cvB s i := by
  unfold cvB
  rw [(cv_trackUsage_fields s u).2.2.1, (cv_trackUsage_fields s u).2.2.2]

theorem cv_trackUsage_gauge (s : Convert.CVState) (u : Option StreamUsage) :
    StepGauge s (Convert.trackUsage s u) [] := by
  refine ⟨fun i => ?_, rfl, rfl, rfl⟩
  rw [countStartAt_nil, countStopAt_nil, cvB_trackUsage]

theorem cv_processFinish_notTruthy (s : Convert.CVState) (finish : Option Str)
    (h : strTruthy finish = false) :
    Convert.processFinish s finish = (s, []) := by
  unfold Convert.processFinish
  rw [if_pos (by rw [h]; rfl)]

theorem cv_processFinish_truthy (s : Convert.CVState) (finish : Option Str)
    (h : strTruthy finish = true) :
    (Convert.processFinish s finish).1.finalStopReason.isSome = true
    ∧ (Convert.processFinish s finish).1.messageStopped = s.messageStopped
    ∧ (∀ i, countStartAt i (Convert.processFinish s finish).2 = 0
        ∧ countStopAt i (Convert.processFinish s finish).2 = cvB s i)
    ∧ countKind EvKind.msgStart (Convert.processFinish s finish).2 = 0
    ∧ countKind EvKind.msgDelta (Convert.processFinish s finish).2 = 0
    ∧ countKind EvKind.msgStop (Convert.processFinish s finish).2 = 0 := by
  unfold Convert.processFinish
  rw [if_neg (by simp [h])]
  dsimp only
  by_cases hf : (!s.isFirstContent) = true
  · have hf' : s.isFirstContent = false := by
      cases hx : s.isFirstContent with
      | false => rfl
      | true => rw [hx] at hf; exact absurd hf (by decide)
    rw [if_pos hf]
    refine ⟨rfl, rfl, fun i => ⟨countStartAt_stop i s.contentIndex, ?_⟩, rfl, rfl, rfl⟩
    rw [countStopAt_stop]
    unfold cvB
    rw [hf']
    simp only [eq_self_iff_true, true_and]
  · have hf' : s.isFirstContent = true := by
      cases hx : s.isFirstContent with
      | true => rfl
      | false => rw [hx] at hf; exact absurd rfl hf
    rw [if_neg hf]
    refine ⟨rfl, rfl, fun i => ⟨rfl, ?_⟩, rfl, rfl, rfl⟩
    rw [countStopAt_nil]
    unfold cvB
    rw [hf']
    simp [Bool.true_eq_false]

theorem cv_processChunk_gauge (s : Convert.CVState) (ch : StreamChunk)
    (hnf : chunkNoFinish ch = true) (hidx : chunkToolsIdx0 ch = true)
    (hfsr : s.finalStopReason = none) :
    StepGauge s (Convert.processChunk s ch).1 (Convert.processChunk s ch).2
    ∧ (Convert.processChunk s ch).1.finalStopReason = none
    ∧ (Convert.processChunk s ch).1.messageStopped = s.messageStopped := by
  unfold Convert.processChunk
  dsimp only
  cases hh : ch.choices.head? with
  | none =>
    dsimp only
    cases hu : ch.usage with
    | none =>
      exact ⟨cv_trackUsage_gauge s none, by
        rw [(cv_trackUsage_fields s none).1]; exact hfsr,
        (cv_trackUsage_fields s none).2.1⟩
    | some u =>
      dsimp only
      have hcond : ((Convert.trackUsage s (some u)).finalStopReason.isSome &&
          !(Convert.trackUsage s (some u)).messageStopped) = false := by
        rw [(cv_trackUsage_fields s (some u)).1, hfsr]
        rfl
      rw [if_neg (by rw [hcond]; exact Bool.false_ne_true)]
      exact ⟨cv_trackUsage_gauge s (some u), by
        rw [(cv_trackUsage_fields s (some u)).1]; exact hfsr,
        (cv_trackUsage_fields s (some u)).2.1⟩
  | some choice =>
    dsimp only
    have hnf' : strTruthy choice.finish_reason = false := by
      unfold chunkNoFinish at hnf
      rw [hh] at hnf
      simpa using hnf
    have hidx' : ∀ tc ∈ choice.delta.tool_calls.getD [], tc.index = 0 := by
      unfold chunkToolsIdx0 at hidx
      rw [hh] at hidx
      intro tc htc
      have := List.all_eq_true.mp hidx tc htc
      exact of_decide_eq_true this
    obtain ⟨gc, fc1, fc2⟩ := cv_processContent_gauge (Convert.trackUsage s ch.usage)
      choice.delta.content
    obtain ⟨gt, ft1, ft2⟩ := cv_processToolCalls_gauge
      (Convert.processContent (Convert.trackUsage s ch.usage) choice.delta.content).1
      choice.delta.tool_calls hidx'
    rw [cv_processFinish_notTruthy _ choice.finish_reason hnf']
    dsimp only
    refine ⟨?_, ?_, ?_⟩
    · have g0 := cv_trackUsage_gauge s ch.usage
      have g1 := StepGauge_comp s (Convert.trackUsage s ch.usage) _ [] _ g0 gc
      have g2 := StepGauge_comp s _ _ _ _ g1 gt
      simpa using StepGauge_comp s _ _ _ ([] : List AEvent) g2 (StepGauge_refl _)
    · rw [ft1, fc1, (cv_trackUsage_fields s ch.usage).1]
      exact hfsr
    · rw [ft2, fc2, (cv_trackUsage_fields s ch.usage).2.1]

theorem cv_processChunk_finchunk (s : Convert.CVState) (ch : StreamChunk)
    (hf : chunkFinish ch = true) (hidx : chunkToolsIdx0 ch = true) :
    (Convert.processChunk s ch).1.finalStopReason.isSome = true
    ∧ (Convert.processChunk s ch).1.messageStopped = s.messageStopped
    ∧ (∀ i, countStartAt i (Convert.processChunk s ch).2 + cvB s i
        = countStopAt i (Convert.processChunk s ch).2)
    ∧ countKind EvKind.msgStart (Convert.processChunk s ch).2 = 0
    ∧ countKind EvKind.msgDelta (Convert.processChunk s ch).2 = 0
    ∧ countKind EvKind.msgStop (Convert.processChunk s ch).2 = 0 := by
  unfold Convert.processChunk
  dsimp only
  cases hh : ch.choices.head? with
  | none =>
    unfold chunkFinish at hf
    rw [hh] at hf
    dsimp only at hf
    exact absurd hf Bool.false_ne_true
  | some choice =>
    dsimp only
    have hf' : strTruthy choice.finish_reason = true := by
      unfold chunkFinish at hf
      rw [hh] at hf
      dsimp only at hf
      exact hf
    have hidx' : ∀ tc ∈ choice.delta.tool_calls.getD [], tc.index = 0 := by
      unfold chunkToolsIdx0 at hidx
      rw [hh] at hidx
      intro tc htc
      have := List.all_eq_true.mp hidx tc htc
      exact of_decide_eq_true this
    obtain ⟨gc, fc1, fc2⟩ := cv_processContent_gauge (Convert.trackUsage s ch.usage)
      choice.delta.content
    obtain ⟨gt, ft1, ft2⟩ := cv_processToolCalls_gauge
      (Convert.processContent (Convert.trackUsage s ch.usage) choice.delta.content).1
      choice.delta.tool_calls hidx'
    obtain ⟨ff1, ff2, ffc, ffm1, ffm2, ffm3⟩ := cv_processFinish_truthy
      (Convert.processToolCalls
        (Convert.processContent (Convert.trackUsage s ch.usage) choice.delta.content).1
        choice.delta.tool_calls).1 choice.finish_reason hf'
    have g0 := cv_trackUsage_gauge s ch.usage
    have g1 := StepGauge_comp s (Convert.trackUsage s ch.usage) _ [] _ g0 gc
    have g2 := StepGauge_comp s _ _ _ _ g1 gt
    obtain ⟨gg, gm1, gm2, gm3⟩ := g2
    refine ⟨ff1, by rw [ff2, ft2, fc2, (cv_trackUsage_fields s ch.usage).2.1], fun i => ?_,
      ?_, ?_, ?_⟩
    · have h1 := gg i
      have h2 := (ffc i).1
      have h3 := (ffc i).2
      rw [countStartAt_append, countStopAt_append, h2, h3]
      simp only [List.nil_append] at h1
      rw [countStartAt_append, countStopAt_append] at h1 ⊢
      omega
    · rw [countKind_append, countKind_append, ffm1]
      simp only [List.nil_append] at gm1
      rw [countKind_append] at gm1
      omega
    · rw [countKind_append, countKind_append, ffm2]
      simp only [List.nil_append] at gm2
      rw [countKind_append] at gm2
      omega
    · rw [countKind_append, countKind_append, ffm3]
      simp only [List.nil_append] at gm3
      rw [countKind_append] at gm3
      omega

theorem cvRunChunks_append (a b : List StreamChunk) : ∀ s : Convert.CVState,
    Convert.runChunks s (a ++ b) =
      ((Convert.runChunks (Convert.runChunks s a).1 b).1,
       (Convert.runChunks s a).2 ++
         (Convert.runChunks (Convert.runChunks s a).1 b).2) := by
  induction a with
  | nil => intro s; simp [Convert.runChunks]
  | cons ch rest ih =>
    intro s
    simp only [List.cons_append, Convert.runChunks]
    cases hpc : Convert.processChunk s ch with
    | mk s₁ es =>
      dsimp only
      simp only [List.append_eq]
      rw [ih s₁]
      dsimp only
      rw [List.append_assoc]

theorem cv_run_gauge : ∀ (chunks : List StreamChunk) (s : Convert.CVState),
    s.finalStopReason = none →
    (∀ ch ∈ chunks, chunkNoFinish ch = true) →
    (∀ ch ∈ chunks, chunkToolsIdx0 ch = true) →
    StepGauge s (Convert.runChunks s chunks).1 (Convert.runChunks s chunks).2
    ∧ (Convert.runChunks s chunks).1.finalStopReason = none
    ∧ (Convert.runChunks s chunks).1.messageStopped = s.messageStopped := by
  intro chunks
  induction chunks with
  | nil => intro s h _ _; exact ⟨StepGauge_refl s, h, rfl⟩
  | cons ch rest ih =>
    intro s hfsr hnf hidx
    obtain ⟨g1, f1, f2⟩ := cv_processChunk_gauge s ch
      (hnf ch (List.mem_cons_self ch rest)) (hidx ch (List.mem_cons_self ch rest)) hfsr
    obtain ⟨g2, f3, f4⟩ := ih (Convert.processChunk s ch).1 f1
      (fun c hc => hnf c (List.mem_cons_of_mem ch hc))
      (fun c hc => hidx c (List.mem_cons_of_mem ch hc))
    unfold Convert.runChunks
    dsimp only
    exact ⟨StepGauge_comp s _ _ _ _ g1 g2, f3, by rw [f4]; exact f2⟩

theorem cv_run_stopped : ∀ (chunks : List StreamChunk) (s : Convert.CVState),
    (∀ ch ∈ chunks, ch.choices = []) →
    s.messageStopped = true →
    (Convert.runChunks s chunks).2 = []
    ∧ (Convert.runChunks s chunks).1.messageStopped = true := by
  intro chunks
  induction chunks with
  | nil => intro s _ h; exact ⟨rfl, h⟩
  | cons ch rest ih =>
    intro s hch hst
    have hh : ch.choices.head? = none := by
      rw [hch ch (List.mem_cons_self ch rest)]
      rfl
    have hstep : Convert.processChunk s ch = (Convert.trackUsage s ch.usage, []) := by
      unfold Convert.processChunk
      dsimp only
      rw [hh]
      dsimp only
      cases hu : ch.usage with
      | none => rfl
      | some u =>
        dsimp only
        rw [if_neg (by
          rw [(cv_trackUsage_fields s (some u)).2.1, hst]
          simp)]
    obtain ⟨ih1, ih2⟩ := ih (Convert.trackUsage s ch.usage)
      (fun c hc => hch c (List.mem_cons_of_mem ch hc))
      (by rw [(cv_trackUsage_fields s ch.usage).2.1]; exact hst)
    unfold Convert.runChunks
    dsimp only
    rw [hstep]
    dsimp only
    rw [ih1]
    exact ⟨rfl, ih2⟩

theorem cv_run_post : ∀ (chunks : List StreamChunk) (s : Convert.CVState),
    (∀ ch ∈ chunks, ch.choices = []) →
    s.finalStopReason.isSome = true →
    s.messageStopped = false →
    (∃ ch ∈ chunks, ch.usage.isSome = true) →
    countKind EvKind.msgDelta (Convert.runChunks s chunks).2 = 1
    ∧ countKind EvKind.msgStop (Convert.runChunks s chunks).2 = 1
    ∧ countKind EvKind.msgStart (Convert.runChunks s chunks).2 = 0
    ∧ (∀ i, countStartAt i (Convert.runChunks s chunks).2 = 0
        ∧ countStopAt i (Convert.runChunks s chunks).2 = 0) := by
  intro chunks
  induction chunks with
  | nil =>
    intro s _ _ _ hex
    obtain ⟨ch, hm, _⟩ := hex
    exact absurd hm (List.not_mem_nil ch)
  | cons ch rest ih =>
    intro s hch hfsr hst hex
    have hh : ch.choices.head? = none := by
      rw [hch ch (List.mem_cons_self ch rest)]
      rfl
    cases hu : ch.usage with
    | some u =>
      have hstep : Convert.processChunk s ch =
          ({ Convert.trackUsage s ch.usage with messageStopped := true },
            [AEvent.message_delta (Convert.trackUsage s ch.usage).finalStopReason
              (some (if natTruthy u.prompt_tokens then u.prompt_tokens
                else (Convert.trackUsage s ch.usage).inputTokens))
              (max (Convert.trackUsage s ch.usage).outputTokens u.completion_tokens),
              AEvent.message_stop]) := by
        unfold Convert.processChunk
        dsimp only
        rw [hh]
        dsimp only
        rw [hu]
        dsimp only
        rw [if_pos (by
          rw [(cv_trackUsage_fields s (some u)).1, (cv_trackUsage_fields s (some u)).2.1,
            hst, hfsr]
          rfl)]
      obtain ⟨r1, r2⟩ := cv_run_stopped rest
        { Convert.trackUsage s ch.usage with messageStopped := true }
        (fun c hc => hch c (List.mem_cons_of_mem ch hc)) rfl
      unfold Convert.runChunks
      dsimp only
      rw [hstep]
      dsimp only
      rw [r1, List.append_nil]
      refine ⟨?_, ?_, ?_, fun i => ⟨?_, ?_⟩⟩ <;>
        simp [countKind, countStartAt, countStopAt, AEvent.kind, List.filter]
    | none =>
      have hstep : Convert.processChunk s ch = (Convert.trackUsage s ch.usage, []) := by
        unfold Convert.processChunk
        dsimp only
        rw [hh]
        dsimp only
        rw [hu]
      have hex' : ∃ c ∈ rest, c.usage.isSome = true := by
        obtain ⟨c, hm, hc⟩ := hex
        cases List.mem_cons.mp hm with
        | inl he =>
          rw [he, hu] at hc
          exact absurd hc (by simp)
        | inr hr => exact ⟨c, hr, hc⟩
      obtain ⟨i1, i2, i3, i4⟩ := ih (Convert.trackUsage s ch.usage)
        (fun c hc => hch c (List.mem_cons_of_mem ch hc))
        (by rw [(cv_trackUsage_fields s ch.usage).1]; exact hfsr)
        (by rw [(cv_trackUsage_fields s ch.usage).2.1]; exact hst) hex'
      unfold Convert.runChunks
      dsimp only
      rw [hstep]
      dsimp only
      simp only [List.nil_append]
      exact ⟨i1, i2, i3, i4⟩

theorem cvRunChunks_singleton (s : Convert.CVState) (ch : StreamChunk) :
    Convert.runChunks s [ch] =
      ((Convert.processChunk s ch).1, (Convert.processChunk s ch).2 ++ []) := rfl

theorem countKind_msgStart_cons (n : Nat) (es : List AEvent) :
    countKind EvKind.msgStart (AEvent.message_start n :: es) =
      countKind EvKind.msgStart es + 1 := by
  simp [countKind, List.filter, AEvent.kind]

theorem countKind_msgDelta_cons (n : Nat) (es : List AEvent) :
    countKind EvKind.msgDelta (AEvent.message_start n :: es) =
      countKind EvKind.msgDelta es := by
  simp [countKind, List.filter, AEvent.kind]

theorem countKind_msgStop_cons (n : Nat) (es : List AEvent) :
    countKind EvKind.msgStop (AEvent.message_start n :: es) =
      countKind EvKind.msgStop es := by
  simp [countKind, List.filter, AEvent.kind]

theorem countStartAt_msgStart_cons (i n : Nat) (es : List AEvent) :
    countStartAt i (AEvent.message_start n :: es) = countStartAt i es := by
  simp [countStartAt, List.filter, AEvent.kind]

theorem countStopAt_msgStart_cons (i n : Nat) (es : List AEvent) :
    countStopAt i (AEvent.message_start n :: es) = countStopAt i es := by
  simp [countStopAt, List.filter, AEvent.kind]

theorem cvB_init (est i : Nat) : cvB (Convert.initState est) i = 0 := by
  unfold cvB Convert.initState
  simp

/-- C1 (amended): for every upstream stream of the shape
`pre ++ [fin] ++ post` where the chunks of `pre` carry no finish_reason,
`fin` carries one, every tool-call delta uses slot index 0 (at most one
tool block), the trailing `post` chunks carry no choices and at least one
of them carries usage, the event sequence emitted by the convert.ts
convertOpenAIStreamToAnthropic starts with the only message_start and
contains exactly one message_delta, exactly one message_stop, and equal
numbers of content_block_start and content_block_stop events at every
index.  (The original claim, which allows several tool_use blocks, is
false: the translator indexes tool starts by `contentIndex + tc.index`
but closes blocks at `contentIndex`, so two tool calls at indices 0 and 1
open a block at index 2 that is never closed while closing index 1 that
was never opened.) -/
theorem claim_C1 (est : Nat) (pre : List StreamChunk) (fin : StreamChunk)
    (post : List StreamChunk)
    (hnf : ∀ ch ∈ pre, chunkNoFinish ch = true)
    (hfin : chunkFinish fin = true)
    (hidx : ∀ ch ∈ pre ++ [fin], chunkToolsIdx0 ch = true)
    (hpost : ∀ ch ∈ post, ch.choices = [])
    (husage : ∃ ch ∈ post, ch.usage.isSome = true) :
    (Convert.convertOpenAIStreamToAnthropic est (pre ++ [fin] ++ post)).head? =
      some (AEvent.message_start est)
    ∧ countKind EvKind.msgStart
        (Convert.convertOpenAIStreamToAnthropic est (pre ++ [fin] ++ post)) = 1
    ∧ countKind EvKind.msgDelta
        (Convert.convertOpenAIStreamToAnthropic est (pre ++ [fin] ++ post)) = 1
    ∧ countKind EvKind.msgStop
        (Convert.convertOpenAIStreamToAnthropic est (pre ++ [fin] ++ post)) = 1
    ∧ ∀ i, countStartAt i
        (Convert.convertOpenAIStreamToAnthropic est (pre ++ [fin] ++ post)) =
      countStopAt i
        (Convert.convertOpenAIStreamToAnthropic est (pre ++ [fin] ++ post)) := by
  obtain ⟨⟨gg, gm1, gm2, gm3⟩, f1, f2⟩ := cv_run_gauge pre (Convert.initState est) rfl hnf
    (fun c hc => hidx c (List.mem_append_left [fin] hc))
  obtain ⟨F1, F2, FC, Fm1, Fm2, Fm3⟩ := cv_processChunk_finchunk
    (Convert.runChunks (Convert.initState est) pre).1 fin hfin
    (hidx fin (List.mem_append_right pre (List.mem_cons_self fin [])))
  have hms : (Convert.processChunk (Convert.runChunks (Convert.initState est) pre).1
      fin).1.messageStopped = false := by
    rw [F2, f2]
    rfl
  obtain ⟨P1, P2, P3, P4⟩ := cv_run_post post
    (Convert.processChunk (Convert.runChunks (Convert.initState est) pre).1 fin).1
    hpost F1 hms husage
  unfold Convert.convertOpenAIStreamToAnthropic
  rw [cvRunChunks_append (pre ++ [fin]) post, cvRunChunks_append pre [fin],
    cvRunChunks_singleton]
  rw [List.append_nil]
  dsimp only
  refine ⟨rfl, ?_, ?_, ?_, ?_⟩
  · rw [countKind_msgStart_cons, countKind_append, countKind_append, gm1, Fm1, P3]
  · rw [countKind_msgDelta_cons, countKind_append, countKind_append, gm2, Fm2, P1]
  · rw [countKind_msgStop_cons, countKind_append, countKind_append, gm3, Fm3, P2]
  · intro i
    rw [countStartAt_msgStart_cons, countStopAt_msgStart_cons,
      countStartAt_append, countStopAt_append, countStartAt_append, countStopAt_append]
    have h1 := gg i
    have h2 := FC i
    have h3 := (P4 i).1
    have h4 := (P4 i).2
    rw [cvB_init] at h1
    omega

def c1Tc0 : ToolCallDelta :=
  { index := 0, id := some (str ("abc123XYZ")), fname := some (str ("f")) }

def c1Tc1 : ToolCallDelta :=
  { index := 1, id := some (str ("def456UVW")), fname := some (str ("g")) }

def c1Chunk1 : StreamChunk :=
  { choices := [{ delta := { tool_calls := some [c1Tc0, c1Tc1] } }] }

def c1Chunk2 : StreamChunk :=
  { choices := [{ finish_reason := some (str ("tool_calls")) }] }

def c1Chunk3 : StreamChunk :=
  { choices := [], usage := some { prompt_tokens := 1, completion_tokens := 2 } }

/-- Refutation of C1 as stated: a legal stream opening two tool_use blocks
(tool-call deltas at indices 0 and 1, then a finish_reason chunk, then a
usage chunk) yields a content_block_start at index 2 with no matching
content_block_stop (and a stop at index 1 with no matching start): the
translator starts tool blocks at `contentIndex + tc.index` but closes
blocks at `contentIndex`. -/
theorem claim_C1_counterexample :
    chunkFinish c1Chunk2 = true
    ∧ c1Chunk3.choices = []
    ∧ c1Chunk3.usage.isSome = true
    ∧ countStartAt 2 (Convert.convertOpenAIStreamToAnthropic 0
        [c1Chunk1, c1Chunk2, c1Chunk3]) = 1
    ∧ countStopAt 2 (Convert.convertOpenAIStreamToAnthropic 0
        [c1Chunk1, c1Chunk2, c1Chunk3]) = 0
    ∧ countStartAt 1 (Convert.convertOpenAIStreamToAnthropic 0
        [c1Chunk1, c1Chunk2, c1Chunk3]) = 0
    ∧ countStopAt 1 (Convert.convertOpenAIStreamToAnthropic 0
        [c1Chunk1, c1Chunk2, c1Chunk3]) = 1 := by
  refine ⟨by decide, by decide, by decide, by decide, by decide, by decide, by decide⟩

def c1WPre : StreamChunk :=
  { choices := [{ delta := { content := some (str ("Hi")) } }] }

def c1WFin : StreamChunk :=
  { choices := [{ finish_reason := some (str ("stop")) }] }

def c1WPost : StreamChunk :=
  { choices := [], usage := some { prompt_tokens := 3, completion_tokens := 7 } }

/-- Witness for claim_C1 on a concrete three-chunk stream. -/
theorem claim_C1_witness :
    (Convert.convertOpenAIStreamToAnthropic 9 ([c1WPre] ++ [c1WFin] ++ [c1WPost])).head? =
      some (AEvent.message_start 9)
    ∧ countKind EvKind.msgDelta (Convert.convertOpenAIStreamToAnthropic 9
        ([c1WPre] ++ [c1WFin] ++ [c1WPost])) = 1
    ∧ countKind EvKind.msgStop (Convert.convertOpenAIStreamToAnthropic 9
        ([c1WPre] ++ [c1WFin] ++ [c1WPost])) = 1
    ∧ countStartAt 0 (Convert.convertOpenAIStreamToAnthropic 9
        ([c1WPre] ++ [c1WFin] ++ [c1WPost])) =
      countStopAt 0 (Convert.convertOpenAIStreamToAnthropic 9
        ([c1WPre] ++ [c1WFin] ++ [c1WPost])) := by
  obtain ⟨h1, h2, h3, h4, h5⟩ := claim_C1 9 [c1WPre] c1WFin [c1WPost]
    (by decide) (by decide) (by decide) (by decide) (by decide)
  exact ⟨h1, h3, h4, h5 0⟩

-- ===========================================================================
-- C7: the Mistral inline tool-call parser against its specification
-- ===========================================================================

theorem idxOfFrom_some (p text : Str) (s i : Nat)
    (h : idxOfFrom p text s = some i) (hp : 0 < p.length) :
    s ≤ i ∧ i + p.length ≤ text.length := by
  unfold idxOfFrom at h
  cases hf : fidx p (text.drop s) with
  | none => rw [hf] at h; cases h
  | some j =>
    rw [hf] at h
    have hji : j + s = i := by simpa using h
    obtain ⟨-, hb⟩ := fidx_some p (text.drop s) j hf
    rw [List.length_drop] at hb
    omega

theorem ebjLoop_some_bounds : ∀ (l : Str) (st : EbjState) (k n : Nat),
    ebjLoop l st k = some n → k < n ∧ n ≤ k + l.length := by
  intro l
  induction l with
  | nil => intro st k n h; cases h
  | cons c cs ih =>
    intro st k n h
    unfold ebjLoop at h
    cases hs : ebjStep st c with
    | none =>
      rw [hs] at h
      cases h
      have hlc : (c :: cs).length = cs.length + 1 := List.length_cons c cs
      omega
    | some st' =>
      rw [hs] at h
      obtain ⟨h1, h2⟩ := ih st' (k + 1) n h
      have hlc : (c :: cs).length = cs.length + 1 := List.length_cons c cs
      omega

theorem extractBalancedJson_some (text : Str) (jsonStart : Nat) (s : Str)
    (h : extractBalancedJson text jsonStart = some s) :
    1 ≤ s.length ∧ jsonStart + s.length ≤ text.length := by
  unfold extractBalancedJson at h
  dsimp only at h
  split at h
  · cases h
  · next hhead =>
    cases hl : ebjLoop (text.drop jsonStart) ⟨0, false, false⟩ 0 with
    | none => rw [hl] at h; cases h
    | some len =>
      rw [hl] at h
      cases h
      obtain ⟨h1, h2⟩ := ebjLoop_some_bounds (text.drop jsonStart) ⟨0, false, false⟩ 0 len hl
      rw [List.length_take, List.length_drop]
      rw [List.length_drop] at h2
      constructor
      · have : len ≤ text.length - jsonStart := by omega
        omega
      · omega

theorem idxOfFrom_none_of_ge (p text : Str) (s : Nat)
    (hs : text.length ≤ s) (hp : p.isEmpty = false) :
    idxOfFrom p text s = none := by
  unfold idxOfFrom
  rw [List.drop_eq_nil_of_le hs]
  unfold fidx
  rw [if_neg (by rw [hp]; exact Bool.false_ne_true)]
  rfl

/-- The specification of the `[TOOL_CALLS]` scan, written as a terminating
recursion directly from the spec's wording: find the next marker occurrence,
match a `[A-Za-z0-9_]+` name right after it (skip the occurrence if none),
extract the balanced-brace JSON object starting at the next character
(string literals and escapes honored), JSON-parse it, collect the call on
success, and resume after the consumed occurrence. -/
def pmtcSpecGo (jp : Str → Option Js) (text : Str) (searchStart : Nat) :
    List ParsedMistralToolCall :=
  match h : idxOfFrom toolCallsMarker text searchStart with
  | none => []
  | some markerIndex =>
    let afterMarker := markerIndex + toolCallsMarker.length
    let toolName := (text.drop afterMarker).takeWhile isWordChar
    if toolName.isEmpty then pmtcSpecGo jp text afterMarker
    else
      let jsonStart := afterMarker + toolName.length
      match he : extractBalancedJson text jsonStart with
      | none => pmtcSpecGo jp text jsonStart
      | some jsonStr =>
        match jp jsonStr with
        | some args => ⟨toolName, args⟩ :: pmtcSpecGo jp text (jsonStart + jsonStr.length)
        | none => pmtcSpecGo jp text (jsonStart + jsonStr.length)
termination_by text.length + 1 - searchStart
decreasing_by
  all_goals
    (obtain ⟨h1, h2⟩ := idxOfFrom_some _ _ _ _ h (by decide)
     have hm : toolCallsMarker.length = 12 := by decide
     omega)

theorem pmtcScan_eq_spec (jp : Str → Option Js) (text : Str) :
    ∀ (fuel start : Nat), text.length + 1 - start ≤ fuel →
    pmtcScan jp text fuel start = pmtcSpecGo jp text start := by
  intro fuel
  induction fuel with
  | zero =>
    intro start hle
    have hnone : idxOfFrom toolCallsMarker text start = none :=
      idxOfFrom_none_of_ge _ _ _ (by omega) (by decide)
    rw [pmtcSpecGo.eq_def, hnone]
    rfl
  | succ fuel ih =>
    intro start hle
    rw [pmtcSpecGo.eq_def]
    unfold pmtcScan
    cases hidx : idxOfFrom toolCallsMarker text start with
    | none => rfl
    | some mi =>
      obtain ⟨hb1, hb2⟩ := idxOfFrom_some _ _ _ _ hidx (by decide)
      have hm : toolCallsMarker.length = 12 := by decide
      dsimp only
      by_cases hname :
          ((text.drop (mi + toolCallsMarker.length)).takeWhile isWordChar).isEmpty = true
      · rw [if_pos hname, if_pos hname]
        exact ih (mi + toolCallsMarker.length) (by omega)
      · rw [if_neg hname, if_neg hname]
        cases hebj : extractBalancedJson text
            (mi + toolCallsMarker.length +
              ((text.drop (mi + toolCallsMarker.length)).takeWhile isWordChar).length) with
        | none =>
          dsimp only
          exact ih _ (by omega)
        | some js =>
          obtain ⟨he1, he2⟩ := extractBalancedJson_some _ _ _ hebj
          dsimp only
          cases hjp : jp js with
          | some args =>
            dsimp only
            rw [ih _ (by omega)]
          | none =>
            dsimp only
            exact ih _ (by omega)

/-- The spec's description of `parseMistralToolCalls`: null when the text
does not contain `[TOOL_CALLS]`; otherwise scan the occurrences in order
with `pmtcSpecGo` and return the collected calls, null when none parsed. -/
def parseMistralToolCallsSpec (jp : Str → Option Js) (text : Str) :
    Option (List ParsedMistralToolCall) :=
  if containsSeg toolCallsMarker text = true then
    let calls := pmtcSpecGo jp text 0
    if calls.isEmpty then none else some calls
  else none

/-- C7 (confirmed): parseMistralToolCalls implements the specified scan —
it returns null exactly when the text has no `[TOOL_CALLS]` occurrence or
no occurrence yields a successfully parsed call; otherwise it returns, in
order, one `{name, arguments}` per occurrence that is followed by a
`[A-Za-z0-9_]+` name and a balanced-brace JSON object (string literals and
escape sequences honored) that JSON-parses, each failure skipping just
that occurrence.  In particular the `text.length + 1` fuel of the
embedding always suffices, so the source's unbounded `while (true)` loop
matches the terminating specification recursion. -/
theorem claim_C7 (jp : Str → Option Js) (text : Str) :
    parseMistralToolCalls jp text = parseMistralToolCallsSpec jp text := by
  unfold parseMistralToolCalls parseMistralToolCallsSpec
  cases hc : containsSeg toolCallsMarker text with
  | false =>
    rw [if_pos (by decide), if_neg (by decide)]
  | true =>
    rw [if_neg (by decide), if_pos rfl]
    dsimp only
    rw [pmtcScan_eq_spec jp text (text.length + 1) 0 (by omega)]
    cases hcalls : pmtcSpecGo jp text 0 with
    | nil => rfl
    | cons a l => simp
